import Mathlib

/-!
Voyage crew calculator: a shallow embedding of `VoyageCalculator.cpp`.

The development follows the C++ translation unit function by function:

* `computeScore`        : the slot-specific suitability score of a crew member;
* `construct`           : the ranking loop of the constructor (one sorted list per slot);
* `calculate`           : the pruning bound, the deepest slot and the depth sweep;
* `fillSlot`            : the recursive slot-by-slot search with backtracking.

Conventions of the embedding.

* The header `VoyageCalculator.h` is not part of the translation unit. `SLOT_COUNT`,
  which it declares, is a field of the configuration; the six skill categories are
  those of `skillMap`.

* The vectors that the search mutates are kept as association lists of their non-null
  entries together with their allocated size; an access outside the allocated size or
  through a null pointer raises a `Fault` (the C++ behaviour is undefined there), and
  `fillSlot` leaves a state that carries a fault as it is.
* Pointers to roster entries (`Crew::original`) are roster indices.
* Floating-point multipliers are exact non-negative fractions, and `unsigned int`
  scores are natural numbers (roster values are built from 16-bit inputs, far from
  the 32-bit range).
* The floating-point objective `calculateDuration` is a parameter of the calculator,
  with values in `Int`; only its comparison with `bestscore` and with `0` is used.
* The thread pool is run sequentially: a dispatched unit of work is executed at the
  point where it is added.
-/

namespace VoyageTools

/-! ## Constants -/

/-- Number of skill categories (the six entries of `skillMap`). -/
def SKILL_COUNT : Nat := 6

/-- The `constexpr size_t MIN_SCAN_DEPTH = 2`. -/
def MIN_SCAN_DEPTH : Nat := 2

/-- The `constexpr size_t MAX_SCAN_DEPTH = 10`. -/
def MAX_SCAN_DEPTH : Nat := 10

/-! ## Data model -/

/-- A crew member. In a ranked slot list the entry is a copy of the roster entry whose
`score` is the slot-specific score and whose `original` is the index of the roster
entry it was copied from. -/
structure Crew where
  id : Nat
  skills : List Nat
  skillMaxProfs : List Nat
  skillMinProfs : List Nat
  traits : List Nat
  score : Nat
  original : Nat
deriving DecidableEq, Repr

/-- A configured multiplier `num / den`, a non-negative fraction. -/
structure Multiplier where
  num : Nat
  den : Nat
  den_pos : 0 < den
deriving DecidableEq

/-- The members of the calculator that the constructor reads from its input. -/
structure Config where
  SLOT_COUNT : Nat
  primarySkill : Nat
  secondarySkill : Nat
  config_skillPrimaryMultiplier : Multiplier
  config_skillSecondaryMultiplier : Multiplier
  config_skillMatchingMultiplier : Multiplier
  config_traitScoreBoost : Nat
  shipAntiMatter : Nat
  depth : Nat
  slotSkills : Nat → Nat
  slotTraits : Nat → Nat
  roster : List Crew

/-- The expression `lround(skillScore * multiplier)` for a non-negative product:
the nearest integer, a half rounding up. -/
def lroundMul (skillScore : Nat) (m : Multiplier) : Nat :=
  (2 * skillScore * m.num + m.den) / (2 * m.den)

/-- One iteration of the loop over `iSkill` in `computeScore`: the contribution
that is added to `score`. -/
def skillScore (cfg : Config) (crew : Crew) (skill iSkill : Nat) : Nat :=
  if iSkill = cfg.primarySkill then
    lroundMul (crew.skills.getD iSkill 0) cfg.config_skillPrimaryMultiplier
  else if iSkill = cfg.secondarySkill then
    lroundMul (crew.skills.getD iSkill 0) cfg.config_skillSecondaryMultiplier
  else if iSkill = skill then
    lroundMul (crew.skills.getD iSkill 0) cfg.config_skillMatchingMultiplier
  else
    crew.skills.getD iSkill 0

/-- The method `VoyageCalculator::computeScore`. -/
def computeScore (cfg : Config) (crew : Crew) (skill trait : Nat) : Nat :=
  if crew.skills.getD skill 0 = 0 then 0
  else
    let score := (List.range SKILL_COUNT).foldl
      (fun score iSkill => score + skillScore cfg crew skill iSkill) 0
    if trait ∈ crew.traits then score + cfg.config_traitScoreBoost else score

/-! ### Reference definition of the score, in the words of the specification -/

/-- The body of the loop over `iCrew`: copy the roster entry, point `original` at it
and store its score for the slot. -/
def slotCandidate (cfg : Config) (iSlot iCrew : Nat) (crew : Crew) : Crew :=
  { crew with
    original := iCrew
    score := computeScore cfg crew (cfg.slotSkills iSlot) (cfg.slotTraits iSlot) }

/-- The comparator result of `std::sort` with `left.score > right.score`: no later
entry has a strictly larger score than an earlier one. -/
def scoreGE (left right : Crew) : Prop := right.score ≤ left.score

instance : DecidableRel scoreGE := fun left right =>
  inferInstanceAs (Decidable (right.score ≤ left.score))

instance : IsTotal Crew scoreGE := ⟨fun a b => Nat.le_total b.score a.score⟩

instance : IsTrans Crew scoreGE := ⟨fun _ _ _ hab hbc => Nat.le_trans hbc hab⟩

/-- The ranked list of one slot: every roster entry scored for the slot, then sorted
by descending score. The order of equal scores, which `std::sort` leaves open, is the
one of a stable insertion sort. -/
def rankSlot (cfg : Config) (iSlot : Nat) : List Crew :=
  List.insertionSort scoreGE
    (cfg.roster.enum.map (fun p => slotCandidate cfg iSlot p.1 p.2))

/-! ## The calculator object and the state of a search -/

/-- Undefined behaviour of the C++ code that the embedding makes explicit. -/
inductive Fault where
  /-- An index outside the allocated size of a vector or array. -/
  | outOfBounds
  /-- A null crew pointer is dereferenced. -/
  | nullDeref
  /-- The recursion budget of the embedding ran out (never the case in `calculate`). -/
  | fuel
deriving DecidableEq, Repr

/-- The calculator after construction: the configuration, the ranked list of every
slot, the objective evaluator and the best result so far. -/
structure VoyageCalculator extends Config where
  slotRoster : Nat → List Crew
  calculateDuration : List Crew → Int
  bestscore : Int
  bestconsidered : List (Option Crew)

/-- The constructor, after the input has been read. The member `bestscore` starts at
zero and `bestconsidered` holds no crew. -/
def construct (cfg : Config) (calculateDuration : List Crew → Int) : VoyageCalculator :=
  { toConfig := cfg
    slotRoster := fun iSlot => rankSlot cfg iSlot
    calculateDuration := calculateDuration
    bestscore := 0
    bestconsidered := List.replicate cfg.SLOT_COUNT none }

/-- One line `depth d` of the driving loop, with the arguments of the search that is
started and the value of `bestscore` once its work has been joined. -/
structure SweepRecord where
  iMinDepth : Nat
  minScore : Nat
  seedSlot : Nat
  bestscore : Int
deriving DecidableEq, Repr

/-- One call of the evaluator: the depth bound of the search that made it and the
complement it was given. -/
structure Evaluation where
  minDepth : Nat
  crewToConsider : List (Option Crew)
deriving DecidableEq, Repr

/-- The members that `calculate` and `fillSlot` mutate.

* `workingTree` holds the non-null entries of the vector `considered`, the entry
  `considered[thread][slot]` under the key `(thread, slot)`;
* `inUse` holds the pairs `(a, thread)` for which `roster[a].considered[thread]` is set;
* both vectors have `maxDepth` allocated entries;
* `evaluated`, `accepted`, `dupeErrors` and `sweeps` record what happened, in the order
  in which it happened: every call of the evaluator, every call whose complement was
  stored into `bestconsidered`, the number of lines `ERROR - DUPE CREW IN RESULT`, and
  the lines `depth d`. -/
structure SearchState where
  maxDepth : Nat
  workingTree : List ((Nat × Nat) × Crew)
  inUse : List (Nat × Nat)
  bestconsidered : List (Option Crew)
  bestscore : Int
  fault : Option Fault
  evaluated : List Evaluation
  accepted : List Evaluation
  dupeErrors : Nat
  sweeps : List SweepRecord

/-- The pointer `considered[thread][slot]`; `none` is the null pointer. -/
def SearchState.considered (st : SearchState) (thread slot : Nat) : Option Crew :=
  st.workingTree.lookup (thread, slot)

/-- The flag `roster[a].considered[thread]`. -/
def SearchState.crewConsidered (st : SearchState) (a thread : Nat) : Bool :=
  st.inUse.contains (a, thread)

/-- The assignment `considered[thread][slot] = &crew`. -/
def SearchState.setConsidered (st : SearchState) (thread slot : Nat) (crew : Crew) :
    SearchState :=
  { st with workingTree :=
      ((thread, slot), crew) :: st.workingTree.filter (fun entry => entry.1 != (thread, slot)) }

/-- The assignment `crew.original->considered[thread] = b`. -/
def SearchState.setCrewConsidered (st : SearchState) (a thread : Nat) (b : Bool) :
    SearchState :=
  { st with inUse :=
      if b then (a, thread) :: st.inUse.filter (fun mark => mark != (a, thread))
      else st.inUse.filter (fun mark => mark != (a, thread)) }

/-- Dereference every pointer of a complement; `none` when one of them is null. -/
def deref : List (Option Crew) → Option (List Crew)
  | [] => some []
  | none :: _ => none
  | some crew :: rest =>
    match deref rest with
    | none => none
    | some crews => some (crew :: crews)

/-- The number of pairs `i < j` with `crewToConsider[i]->original ==
crewToConsider[j]->original`, one error line each in the sanity scan. -/
def dupePairs : List Crew → Nat
  | [] => 0
  | crew :: rest =>
    (rest.filter (fun other => crew.original = other.original)).length + dupePairs rest

/-- The `else` branch at the last slot of `fillSlot`: copy the working tree of the
thread, compute its duration and replace the best result when it is exceeded (the test
is made twice in the C++ code, outside and inside the lock; the progress callback and
the repeated call with `debug` set do not change the state). -/
def evaluate (c : VoyageCalculator) (minDepth thread : Nat) (st : SearchState) :
    SearchState :=
  let crewToConsider := (List.range c.SLOT_COUNT).map (st.considered thread)
  let st := { st with evaluated := st.evaluated ++ [⟨minDepth, crewToConsider⟩] }
  match deref crewToConsider with
  | none => { st with fault := some Fault.nullDeref }
  | some complement =>
    let score := c.calculateDuration complement
    if score > st.bestscore then
      { st with
        dupeErrors := st.dupeErrors + dupePairs complement
        bestconsidered := crewToConsider
        bestscore := score
        accepted := st.accepted ++ [⟨minDepth, crewToConsider⟩] }
    else st

/-- The slot visited at position `iSlot`. -/
def slotAt (iSlot seedSlot : Nat) : Nat :=
  if iSlot = 0 then seedSlot else if iSlot = seedSlot then 0 else iSlot

/-- The loop over `iCrew` of `fillSlot`, from candidate `iCrew` on; `recurse thread`
is the call `fillSlot(iSlot + 1, minScore, minDepth, seedSlot, thread)`. -/
def scanSlot (c : VoyageCalculator) (minScore minDepth seedSlot slot : Nat)
    (recurse : Nat → SearchState → SearchState) :
    List Crew → Nat → Nat → SearchState → SearchState
  | [], _, _, st => st
  | crew :: rest, iCrew, thread, st =>
    if minDepth ≤ iCrew ∧ crew.score < minScore then st
    else
      let thread := if slot = seedSlot then iCrew else thread
      if st.maxDepth ≤ thread then { st with fault := some Fault.outOfBounds }
      else if slot ≠ seedSlot ∧ st.crewConsidered crew.original thread = true then
        scanSlot c minScore minDepth seedSlot slot recurse rest (iCrew + 1) thread st
      else
        let st := (st.setConsidered thread slot crew).setCrewConsidered crew.original thread true
        let st := if slot < c.SLOT_COUNT - 1 then recurse thread st
                  else evaluate c minDepth thread st
        if st.fault.isSome then st
        else
          let st := if slot ≠ seedSlot then st.setCrewConsidered crew.original thread false
                    else st
          scanSlot c minScore minDepth seedSlot slot recurse rest (iCrew + 1) thread st

/-- The method `VoyageCalculator::fillSlot`. The first argument bounds the depth of the
recursion; `SLOT_COUNT + 1` is always enough. A state that carries a fault is left as
it is. -/
def fillSlot (c : VoyageCalculator) (minScore minDepth seedSlot : Nat) :
    Nat → Nat → Nat → SearchState → SearchState
  | 0, _, _, st => if st.fault.isSome then st else { st with fault := some Fault.fuel }
  | fuel + 1, iSlot, thread, st =>
    if st.fault.isSome then st
    else if c.SLOT_COUNT ≤ slotAt iSlot seedSlot then
      { st with fault := some Fault.outOfBounds }
    else
      scanSlot c minScore minDepth seedSlot (slotAt iSlot seedSlot)
        (fun thread st => fillSlot c minScore minDepth seedSlot fuel (iSlot + 1) thread st)
        (c.slotRoster (slotAt iSlot seedSlot)) 0 thread st

/-! ## `calculate` -/

/-- The vector `slotCrewScores` after the first loop of `calculate`. -/
def slotCrewScores (c : VoyageCalculator) : List Nat :=
  (List.range c.SLOT_COUNT).flatMap (fun iSlot => (c.slotRoster iSlot).map Crew.score)

/-- The call `std::sort(..., std::greater<unsigned int>())`. -/
def sortDescending (scores : List Nat) : List Nat :=
  List.insertionSort (fun a b => a ≥ b) scores

/-- The `size_t` expression `size - 1`, which wraps around at zero. -/
def sizeMinusOne (size : Nat) : Nat :=
  if size = 0 then 2 ^ 64 - 1 else size - 1

/-- The index `std::min(slotCrewScores.size() - 1, sortedRoster.depth * SLOT_COUNT)`. -/
def minScoreIndex (c : VoyageCalculator) : Nat :=
  min (sizeMinusOne (slotCrewScores c).length) (c.depth * c.SLOT_COUNT)

/-- The pruning bound `minScore`; `none` when the index is outside the vector. -/
def minScore (c : VoyageCalculator) : Option Nat :=
  (sortDescending (slotCrewScores c))[minScoreIndex c]?

/-- The inner loop of the search for the deepest slot: the value of `iCrew` when the
loop over one ranked list is left. -/
def scanCount (minDepth minScore : Nat) : List Crew → Nat → Nat
  | [], iCrew => iCrew
  | crew :: rest, iCrew =>
    if minDepth ≤ iCrew ∧ crew.score < minScore then iCrew
    else scanCount minDepth minScore rest (iCrew + 1)

/-- The loop "find the deepest slot": the pair `(deepSlot, maxDepth)`. -/
def deepestSlot (c : VoyageCalculator) (minScore : Nat) : Nat × Nat :=
  (List.range c.SLOT_COUNT).foldl
    (fun best iSlot =>
      let iCrew := scanCount MIN_SCAN_DEPTH minScore (c.slotRoster iSlot) 0
      if iCrew > best.2 then (iSlot, iCrew) else best)
    (0, 0)

/-- The state after "initialize depth vectors": `maxDepth` entries everywhere, no crew
in any working tree and no crew in use. -/
def initialState (c : VoyageCalculator) (maxDepth : Nat) : SearchState :=
  { maxDepth := maxDepth
    workingTree := []
    inUse := []
    bestconsidered := c.bestconsidered
    bestscore := c.bestscore
    fault := none
    evaluated := []
    accepted := []
    dupeErrors := 0
    sweeps := [] }

/-- The driving loop `for (iMinDepth = minDepth; iMinDepth < MAX_SCAN_DEPTH; ++iMinDepth)`
with `remaining = MAX_SCAN_DEPTH - iMinDepth` iterations left. The last argument of
`fillSlot`, whose default value is declared in the header, is overwritten at the seed
slot before it is read; it is 0 here. -/
def depthSweep (c : VoyageCalculator) (minScore deepSlot : Nat) :
    Nat → Nat → SearchState → SearchState
  | 0, _, st => st
  | remaining + 1, iMinDepth, st =>
    let st := fillSlot c minScore iMinDepth deepSlot (c.SLOT_COUNT + 1) 0 0 st
    let st := { st with sweeps := st.sweeps ++ [⟨iMinDepth, minScore, deepSlot, st.bestscore⟩] }
    if st.bestscore > 0 then st
    else depthSweep c minScore deepSlot remaining (iMinDepth + 1) st

/-- The method `VoyageCalculator::calculate`. -/
def calculate (c : VoyageCalculator) : SearchState :=
  match minScore c with
  | none => { initialState c 0 with fault := some Fault.outOfBounds }
  | some minScore =>
    let deep := deepestSlot c minScore
    depthSweep c minScore deep.1 (MAX_SCAN_DEPTH - MIN_SCAN_DEPTH) MIN_SCAN_DEPTH
      (initialState c deep.2)

/-! ## Predicates used to state the properties of the search -/

/-- The entry `crew` is a candidate of the ranked list of `slot` that the scan with depth
bound `minDepth` and pruning bound `minScore` does not prune: its index is below the
depth bound or its score is not below `minScore`. -/
def Scanned (c : VoyageCalculator) (minScore minDepth slot : Nat) (crew : Crew) : Prop :=
  ∃ k, (c.slotRoster slot)[k]? = some crew ∧ (k < minDepth ∨ minScore ≤ crew.score)

/-- A complement is complete and distinct: no pointer is null, there is one entry per
slot, the underlying roster entries are pairwise distinct, and the entry of every slot
is a scanned candidate of that slot. -/
def CompleteDistinct (c : VoyageCalculator) (minScore minDepth : Nat)
    (x : List (Option Crew)) : Prop :=
  ∃ crews : List Crew, x = crews.map some ∧ crews.length = c.SLOT_COUNT
    ∧ (crews.map Crew.original).Nodup
    ∧ ∀ slot crew, crews[slot]? = some crew → Scanned c minScore minDepth slot crew

/-- What has been evaluated and accepted so far is sound: every accepted complement and
every evaluated complement without a null entry is complete and distinct, a complement
with a null entry has been evaluated only under the condition `seedLast`, and no
duplicate has been reported. -/
structure Sound (c : VoyageCalculator) (minScore : Nat) (seedLast : Prop) (st : SearchState) :
    Prop where
  accepted_ok : ∀ e ∈ st.accepted, CompleteDistinct c minScore e.minDepth e.crewToConsider
  evaluated_ok : ∀ e ∈ st.evaluated, deref e.crewToConsider ≠ none →
    CompleteDistinct c minScore e.minDepth e.crewToConsider
  partial_ok : ∀ e ∈ st.evaluated, deref e.crewToConsider = none → seedLast
  no_dupe : st.dupeErrors = 0

/-- The working tree of `thread` holds the choices of the positions below `p`: each of
them is a scanned candidate marked in use, the marks of the thread are exactly these
choices, and they are pairwise distinct roster entries. -/
def PathInv (c : VoyageCalculator) (minScore minDepth seedSlot : Nat) (st : SearchState)
    (thread p : Nat) : Prop :=
  (∀ q < p, ∃ crew, st.considered thread (slotAt q seedSlot) = some crew
      ∧ st.crewConsidered crew.original thread = true
      ∧ Scanned c minScore minDepth (slotAt q seedSlot) crew)
  ∧ (∀ a, st.crewConsidered a thread = true →
      ∃ q < p, ∃ crew, st.considered thread (slotAt q seedSlot) = some crew ∧ crew.original = a)
  ∧ (∀ q q' crew crew', q < p → q' < p →
      st.considered thread (slotAt q seedSlot) = some crew →
      st.considered thread (slotAt q' seedSlot) = some crew' →
      crew.original = crew'.original → q = q')

/-- The state `st'` differs from `st` neither in the in-use marks, nor in the working
trees of the other threads, nor in the entries of `thread` at the positions below `p`. -/
def Frame (seedSlot : Nat) (st st' : SearchState) (thread p : Nat) : Prop :=
  st'.maxDepth = st.maxDepth ∧ st'.crewConsidered = st.crewConsidered
  ∧ ∀ t slot, (t ≠ thread ∨ ∃ q < p, slot = slotAt q seedSlot) →
      st'.considered t slot = st.considered t slot

/-- Between two units of work: a mark of thread `t` can only be on the roster entry of
candidate `t` of the seed slot, and when the seed slot is the last of several slots no
working tree has an entry for slot 0. -/
def SeedInv (c : VoyageCalculator) (seedSlot : Nat) (st : SearchState) : Prop :=
  (∀ a t, st.crewConsidered a t = true →
      ∃ crew, (c.slotRoster seedSlot)[t]? = some crew ∧ crew.original = a)
  ∧ (seedSlot ≠ 0 → seedSlot + 1 = c.SLOT_COUNT → ∀ t, st.considered t 0 = none)

/-- The best result is the one the calculator started with as long as nothing has been
accepted, and the complement of the last accepted evaluation afterwards. -/
def BestTracks (c : VoyageCalculator) (st : SearchState) : Prop :=
  (st.accepted = [] ∧ st.bestconsidered = c.bestconsidered ∧ st.bestscore = c.bestscore)
  ∨ ∃ e, st.accepted.getLast? = some e ∧ st.bestconsidered = e.crewToConsider

/-! ## The best-update step -/

/-- The members that the best-update step of `fillSlot` reads and writes. -/
structure BestResult where
  bestconsidered : List (Option Crew)
  bestscore : Int
  dupeErrors : Nat
deriving DecidableEq, Repr

/-- The statement `if (score > bestscore) { ... }` of `fillSlot` for a complement without
null entries: the sanity scan writes one error line for every pair of slots with the
same underlying crew, then `bestconsidered` and `bestscore` are replaced. -/
def bestUpdate (best : BestResult) (complement : List Crew) (score : Int) : BestResult :=
  if score > best.bestscore then
    { bestconsidered := complement.map some
      bestscore := score
      dupeErrors := best.dupeErrors + dupePairs complement }
  else best

/-- The best-update step applied to a sequence of completed evaluations, in the order in
which they complete. -/
def bestFold (best : BestResult) (evals : List (List Crew × Int)) : BestResult :=
  evals.foldl (fun b p => bestUpdate b p.1 p.2) best

/-- The best result held by a search state. -/
def SearchState.best (st : SearchState) : BestResult :=
  ⟨st.bestconsidered, st.bestscore, st.dupeErrors⟩

/-- The evaluations of a trace that were given a complement without null entries, each
with the duration of its complement. -/
def completed (c : VoyageCalculator) (evals : List Evaluation) : List (List Crew × Int) :=
  evals.filterMap (fun e =>
    (deref e.crewToConsider).map (fun complement => (complement, c.calculateDuration complement)))

/-! ## The objective evaluator `calculateDuration`

The integer part (the totals over the complement) is translated as it stands. The
floating-point part reads nothing but these totals, the primary and the secondary
skill, the counter `extend` and the current estimate `endVoySkill`; it is a parameter
of the embedding, over an arbitrary type `V` of values. -/

/-- The `constexpr unsigned int ANTIMATTER_FOR_SKILL_MATCH = 25`. -/
def ANTIMATTER_FOR_SKILL_MATCH : Nat := 25

/-- The integer aggregates `shipAM`, `totals.skills` and `totalProfRange`. The range of a
proficiency is a difference of two stored values and is kept as an integer. -/
structure Totals where
  shipAM : Nat
  skills : List Nat
  totalProfRange : List Int
deriving DecidableEq, Repr

/-- The aggregates before the loop over the slots. -/
def Totals.start (shipAntiMatter : Nat) : Totals :=
  ⟨shipAntiMatter, List.replicate SKILL_COUNT 0, List.replicate SKILL_COUNT 0⟩

/-- The body of the loop over `iSlot`: add the skills and proficiency ranges of the crew
in the slot, and the antimatter bonus when the crew carries the trait of the slot. -/
def Totals.addSlot (cfg : Config) (totals : Totals) (iSlot : Nat) (crew : Crew) : Totals :=
  { shipAM :=
      if cfg.slotTraits iSlot ∈ crew.traits then totals.shipAM + ANTIMATTER_FOR_SKILL_MATCH
      else totals.shipAM
    skills := (List.range SKILL_COUNT).map (fun iSkill =>
      totals.skills.getD iSkill 0 + crew.skills.getD iSkill 0)
    totalProfRange := (List.range SKILL_COUNT).map (fun iSkill =>
      totals.totalProfRange.getD iSkill 0
        + ((crew.skillMaxProfs.getD iSkill 0 : Int) - (crew.skillMinProfs.getD iSkill 0 : Int))) }

/-- The loop `for (iSlot = 0; iSlot < SLOT_COUNT; ++iSlot)` of `calculateDuration`. -/
def computeTotals (cfg : Config) (complement : List Crew) : Totals :=
  (List.range cfg.SLOT_COUNT).foldl
    (fun totals iSlot =>
      match complement[iSlot]? with
      | some crew => totals.addSlot cfg iSlot crew
      | none => totals)
    (Totals.start cfg.shipAntiMatter)

/-- The number of slots whose crew carries the trait of the slot. -/
def traitMatches (cfg : Config) (complement : List Crew) : Nat :=
  ((List.range cfg.SLOT_COUNT).filter (fun iSlot =>
    match complement[iSlot]? with
    | some crew => decide (cfg.slotTraits iSlot ∈ crew.traits)
    | none => false)).length

/-- The floating-point part of `calculateDuration`, as functions of what it reads.

* `zero` is the value `0`;
* `endVoySkill primarySkill secondarySkill totals` is the first estimate
  `MaxSkill * (1 + hazSkillVariance[primarySkill])`;
* `pass primarySkill secondarySkill totals extend endVoySkill` is one pass of the body of
  the converging loop: the new `voyTime`, the refined `endVoySkill` and the outcome of
  the test `std::abs(timeLeft) > 0.001f`. -/
structure Numerics (V : Type) where
  zero : V
  endVoySkill : Nat → Nat → Totals → V
  pass : Nat → Nat → Totals → Nat → V → V × V × Bool

/-- How the converging loop was left. -/
structure LoopEnd (V : Type) where
  voyTime : V
  endVoySkill : V
  tries : Nat
  /-- The line `something went wrong!` was written. -/
  capped : Bool
  /-- The recursion budget of the embedding ran out (never the case from `tries = 0`
  with a budget of 100). -/
  exhausted : Bool

/-- The loop `for (;;)` of `calculateDuration`: count the try, leave at the 100th,
otherwise make one pass and go on while the correction is above the threshold. -/
def convergingLoop {V : Type} (pass : V → V × V × Bool) : Nat → Nat → V → V → LoopEnd V
  | 0, tries, endVoySkill, voyTime => ⟨voyTime, endVoySkill, tries, false, true⟩
  | budget + 1, tries, endVoySkill, voyTime =>
    if tries + 1 = 100 then ⟨voyTime, endVoySkill, tries + 1, true, false⟩
    else
      let r := pass endVoySkill
      if r.2.2 then convergingLoop pass budget (tries + 1) r.2.1 r.1
      else ⟨r.1, endVoySkill, tries + 1, false, false⟩

/-- What a call of `calculateDuration` did: the value it returned, the number of passes
of the converging loop body, whether the line `something went wrong!` was written, and
the number of iterations of the extension loop that were started. -/
structure DurationRun (V : Type) where
  result : V
  refinements : Nat
  capped : Bool
  exhausted : Bool
  extensions : Nat

/-- The loop `for (extend = 0; extend <= maxExtends; extend++)`, from `extend` on: its
body ends with `return voyTime`, and `return 0` follows the loop. -/
def extensionLoop {V : Type} (num : Numerics V) (primarySkill secondarySkill : Nat)
    (totals : Totals) (maxExtends extend : Nat) (endVoySkill voyTime : V) : DurationRun V :=
  if extend ≤ maxExtends then
    let r := convergingLoop (num.pass primarySkill secondarySkill totals extend) 100 0
      endVoySkill voyTime
    { result := r.voyTime
      refinements := if r.capped then r.tries - 1 else r.tries
      capped := r.capped
      exhausted := r.exhausted
      extensions := 1 }
  else
    { result := num.zero, refinements := 0, capped := false, exhausted := false,
      extensions := 0 }

/-- The method `VoyageCalculator::calculateDuration`, with what it did. -/
def calculateDurationRun {V : Type} (num : Numerics V) (cfg : Config)
    (complement : List Crew) : DurationRun V :=
  let totals := computeTotals cfg complement
  let maxExtends := 0
  extensionLoop num cfg.primarySkill cfg.secondarySkill totals maxExtends 0
    (num.endVoySkill cfg.primarySkill cfg.secondarySkill totals) num.zero

/-- The value returned by `VoyageCalculator::calculateDuration`. -/
def calculateDuration {V : Type} (num : Numerics V) (cfg : Config) (complement : List Crew) :
    V :=
  (calculateDurationRun num cfg complement).result

/-- The refined estimate `endVoySkill` after `n` passes that all asked for another one. -/
def refined {V : Type} (pass : V → V × V × Bool) : Nat → V → V
  | 0, endVoySkill => endVoySkill
  | n + 1, endVoySkill => refined pass n (pass endVoySkill).2.1

/-! ## The floating-point part of `calculateDuration` in exact arithmetic

The statements of `calculateDuration` after the totals, with every `float` taken as an
exact rational number: the constants of the duration estimate, the variance of every
skill, the first estimate, and one pass of the body of the converging loop. The
members `elapsedHours` and `elapsedHazSkill` are the constant 0 of the source. A skill
total of 0 makes the source divide by zero; the rational quotient is 0 there. -/

/-- The constant `cyclesPerHour = 60 * 60 / (float)cycleSeconds`, with `cycleSeconds`
the product of `ticksPerCycle = 28` and `secondsPerTick = 20`. -/
def cyclesPerHour : ℚ := 60 * 60 / (28 * 20)

/-- The constant `hazPerHour = hazPerCycle * cyclesPerHour - dilemmasPerHour`. -/
def hazPerHour : ℚ := 6 * cyclesPerHour - 1 / 2

/-- The constant `hazSkillPerHour`. -/
def hazSkillPerHour : ℚ := 1250

/-- The constant `hazAmPass`. -/
def hazAmPass : ℚ := 5

/-- The constant `hazAmFail`. -/
def hazAmFail : ℚ := 30

/-- The constant `activityAmPerHour = activityPerCycle * cyclesPerHour`. -/
def activityAmPerHour : ℚ := 18 * cyclesPerHour

/-- The constant `psChance = 0.35f`. -/
def psChance : ℚ := 35 / 100

/-- The constant `ssChance = 0.25f`. -/
def ssChance : ℚ := 25 / 100

/-- The constant `osChance = 0.1f`. -/
def osChance : ℚ := 1 / 10

/-- The entry `hazSkillVariance[iSkill]`: half the proficiency range over the skill. -/
def hazSkillVariance (totals : Totals) (iSkill : Nat) : ℚ :=
  (totals.totalProfRange.getD iSkill 0 : ℚ) / 2 / (totals.skills.getD iSkill 0 : ℚ)

/-- The value of `MaxSkill` after the loop over the skills. -/
def maxSkill (totals : Totals) : Nat :=
  (List.range SKILL_COUNT).foldl
    (fun best iSkill => if totals.skills.getD iSkill 0 > best then totals.skills.getD iSkill 0
      else best) 0

/-- The entry `skillChances[iSkill]`. -/
def skillChance (primarySkill secondarySkill iSkill : Nat) : ℚ :=
  if iSkill = primarySkill then psChance
  else if iSkill = secondarySkill then ssChance
  else osChance

/-- The first estimate `endVoySkill = MaxSkill * (1 + hazSkillVariance[primarySkill])`. -/
def firstEndVoySkill (primarySkill : Nat) (totals : Totals) : ℚ :=
  (maxSkill totals : ℚ) * (1 + hazSkillVariance totals primarySkill)

/-- The body of the loop over `iSkill` inside the converging loop: the antimatter `am`
after the hazards of one skill. -/
def amAfterSkill (primarySkill secondarySkill : Nat) (totals : Totals) (endVoySkill : ℚ)
    (am : ℚ) (iSkill : Nat) : ℚ :=
  let skill : ℚ := (totals.skills.getD iSkill 0 : ℚ)
  let chance := skillChance primarySkill secondarySkill iSkill
  let passSkill := min endVoySkill (skill * (1 - hazSkillVariance totals iSkill))
  let skillRngRange := skill * hazSkillVariance totals iSkill * 2
  let lostRngProportion : ℚ :=
    if skillRngRange > 0 then
      max 0 (min 1 ((skill * (1 + hazSkillVariance totals iSkill) - endVoySkill) / skillRngRange))
    else 0
  let skillPassRngProportion := 1 - lostRngProportion * lostRngProportion
  let passSkill := passSkill + skillRngRange * skillPassRngProportion / 2
  let am := am + passSkill * chance / hazSkillPerHour * hazPerHour * hazAmPass
  let failSkill := max 0 (endVoySkill - skill * (1 + hazSkillVariance totals iSkill))
  let skillFailRngProportion := (1 - lostRngProportion) * (1 - lostRngProportion)
  let failSkill := failSkill + skillRngRange * skillFailRngProportion / 2
  am - failSkill * chance / hazSkillPerHour * hazPerHour * hazAmFail

/-- One pass of the body of the converging loop: the new `voyTime`, the refined
`endVoySkill` and the outcome of the test `std::abs(timeLeft) > 0.001f`. -/
def exactPass (primarySkill secondarySkill : Nat) (totals : Totals) (extend : Nat)
    (endVoySkill : ℚ) : ℚ × ℚ × Bool :=
  let am : ℚ := ((totals.shipAM + totals.shipAM * extend : Nat) : ℚ)
  let am := (List.range SKILL_COUNT).foldl
    (amAfterSkill primarySkill secondarySkill totals endVoySkill) am
  let amLeft := am - endVoySkill / hazSkillPerHour * activityAmPerHour
  let timeLeft := amLeft / (hazPerHour * hazAmFail + activityAmPerHour)
  let voyTime := endVoySkill / hazSkillPerHour + timeLeft + 0
  (voyTime, (voyTime - 0) * hazSkillPerHour, decide (|timeLeft| > 1 / 1000))

/-- The floating-point part of `calculateDuration` of the source, in exact arithmetic. -/
def exactNumerics : Numerics ℚ :=
  { zero := 0
    endVoySkill := fun primarySkill _ totals => firstEndVoySkill primarySkill totals
    pass := exactPass }

/-- A duration in millionths of an hour, rounded down: the scale on which the search
compares durations. -/
def microHours (voyTime : ℚ) : Int := ⌊voyTime * 1000000⌋

/-! ## Sample inputs -/

/-- The multiplier `1`. -/
def unitMultiplier : Multiplier := ⟨1, 1, by decide⟩

/-- A pool entry with the given identifier, skill values and traits. -/
def poolCrew (id : Nat) (skills traits : List Nat) : Crew :=
  ⟨id, skills, skills, skills, traits, 0, 0⟩

/-- Six slots, slot `i` governed by skill `i`, all multipliers `1`, no trait bonus. -/
def plainCfg (depth : Nat) (roster : List Crew) : Config :=
  { SLOT_COUNT := 6, primarySkill := 0, secondarySkill := 1,
    config_skillPrimaryMultiplier := unitMultiplier,
    config_skillSecondaryMultiplier := unitMultiplier,
    config_skillMatchingMultiplier := unitMultiplier, config_traitScoreBoost := 0,
    shipAntiMatter := 2500, depth := depth, slotSkills := fun i => i,
    slotTraits := fun _ => 0, roster := roster }

/-- Three crew members; the third one has no skill but the last. With search depth 2 the
last slot is the deepest one. -/
def seedLastPool : List Crew :=
  [poolCrew 0 [10, 10, 10, 10, 10, 10] [], poolCrew 1 [10, 10, 10, 10, 10, 10] [],
   poolCrew 2 [0, 0, 0, 0, 0, 50] []]

/-- The calculator for `seedLastPool`, search depth 2, every duration equal to 1. -/
def seedLastCalc : VoyageCalculator := construct (plainCfg 2 seedLastPool) (fun _ => 1)

/-- Three crew members, two strong ones and a weak one. With search depth 1 every slot
needs two candidates only. -/
def narrowPool : List Crew :=
  [poolCrew 0 [10, 10, 10, 10, 10, 10] [], poolCrew 1 [10, 10, 10, 10, 10, 10] [],
   poolCrew 2 [1, 1, 1, 1, 1, 1] []]

/-- The calculator for `narrowPool`, search depth 1, every duration equal to 1. -/
def narrowCalc : VoyageCalculator := construct (plainCfg 1 narrowPool) (fun _ => 1)

/-- A single crew member for six slots. -/
def singleCalc : VoyageCalculator :=
  construct (plainCfg 1 [poolCrew 0 [10, 10, 10, 10, 10, 10] []]) (fun _ => 1)

/-- Six crew members, none of them with any value in the skill of the last slot. -/
def zeroSkillPool : List Crew :=
  [poolCrew 0 [10, 0, 0, 0, 0, 0] [], poolCrew 1 [0, 10, 0, 0, 0, 0] [],
   poolCrew 2 [0, 0, 10, 0, 0, 0] [], poolCrew 3 [0, 0, 0, 10, 0, 0] [],
   poolCrew 4 [0, 0, 0, 0, 10, 0] [], poolCrew 5 [1, 1, 1, 1, 1, 0] []]

/-- The calculator for `zeroSkillPool`, search depth 1, every duration equal to 1. -/
def zeroSkillCalc : VoyageCalculator := construct (plainCfg 1 zeroSkillPool) (fun _ => 1)

/-- One crew member with six different skill values, every duration equal to 0. -/
def sixSkillCalc : VoyageCalculator :=
  construct (plainCfg 1 [poolCrew 0 [1, 2, 3, 4, 5, 6] []]) (fun _ => 0)

/-- A candidate of some slot whose underlying roster entry is `original`. -/
def slotCrew (original : Nat) : Crew :=
  ⟨original, [10, 10, 10, 10, 10, 10], [10, 10, 10, 10, 10, 10], [10, 10, 10, 10, 10, 10], [],
    60, original⟩

/-- A search state in which the working tree of thread 0 holds the roster entries
`0, 0, 1, 2, 3, 4`: slots 0 and 1 hold the same crew member. -/
def dupeState : SearchState :=
  (List.range 6).foldl (fun st slot => st.setConsidered 0 slot (slotCrew (slot - 1)))
    (initialState zeroSkillCalc 1)

/-- The complement held by thread 0 of `dupeState`. -/
def dupeComplement : List Crew := (List.range 6).map (fun slot => slotCrew (slot - 1))

/-- The state of `zeroSkillCalc` in which thread 0 has taken the first candidate of the
seed slot 0 and nothing else. -/
def seededState : SearchState :=
  match (zeroSkillCalc.slotRoster 0)[0]? with
  | some crew =>
    ((initialState zeroSkillCalc 2).setConsidered 0 0 crew).setCrewConsidered crew.original 0 true
  | none => initialState zeroSkillCalc 2

/-- A pool entry with skills, proficiency bounds and traits of its own. -/
def voyageCrew (id : Nat) (traits : List Nat) : Crew :=
  ⟨id, [10 + id, 20, 0, 5, 0, 1], [8, 6 + id, 0, 4, 0, 2], [3, 2, 0, 1, 0, 2], traits, 0, 0⟩

/-- Six crew members with traits. -/
def traitPool : List Crew :=
  [voyageCrew 0 [0, 1], voyageCrew 1 [0, 1], voyageCrew 2 [5], voyageCrew 3 [3],
   voyageCrew 4 [], voyageCrew 5 []]

/-- Six slots, slot `i` governed by skill `i` and looking for trait `i`. -/
def traitCfg : Config := { plainCfg 1 traitPool with slotTraits := fun i => i }

/-- Pool entry `i` in slot `i`. -/
def straightComplement : List Crew :=
  traitPool.enum.map (fun p => slotCandidate traitCfg p.1 p.1 p.2)

/-- The same six crew members with the first two in each other's slot. -/
def crossedComplement : List Crew :=
  [slotCandidate traitCfg 0 1 (voyageCrew 1 [0, 1]), slotCandidate traitCfg 1 0 (voyageCrew 0 [0, 1])]
    ++ straightComplement.drop 2

/-- A floating-point part whose passes halve the estimate and settle once it is below 2. -/
def settlingNumerics : Numerics Int :=
  { zero := 0
    endVoySkill := fun primarySkill _ totals => totals.skills.getD primarySkill 0 + totals.shipAM
    pass := fun _ _ _ _ endVoySkill => (endVoySkill / 2, endVoySkill / 2, decide (2 ≤ endVoySkill / 2)) }

/-- Six crew members without proficiency range whose skill totals are 62000 for every
skill but skill 2, where the total is 100. -/
def slowPool : List Crew :=
  [poolCrew 0 [32000, 30000, 0, 0, 0, 0] [], poolCrew 1 [0, 32000, 50, 0, 0, 0] [],
   poolCrew 2 [0, 0, 50, 30000, 0, 0] [], poolCrew 3 [0, 0, 0, 32000, 30000, 0] [],
   poolCrew 4 [0, 0, 0, 0, 32000, 30000] [], poolCrew 5 [30000, 0, 0, 0, 0, 32000] []]

/-- The configuration for `slowPool`: search depth 1 and a ship antimatter of 100. -/
def slowCfg : Config := { plainCfg 1 slowPool with shipAntiMatter := 100 }

/-- The calculator for `slowPool`, with the durations of the source in exact arithmetic. -/
def slowCalc : VoyageCalculator :=
  construct slowCfg (fun complement =>
    microHours (calculateDuration exactNumerics slowCfg complement))

/-- The complement of `slowCalc` with crew member `i` in slot `i`. -/
def slowComplement : List Crew :=
  slowPool.enum.map (fun p => slotCandidate slowCfg p.1 p.1 p.2)

/-- A search state of `slowCalc` in which the working tree of thread 0 holds
`slowComplement`. -/
def slowState : SearchState :=
  slowComplement.enum.foldl (fun st p => st.setConsidered 0 p.1 p.2) (initialState slowCalc 2)

/-- Six crew members: five with one skill each, none of them skill 5, and one with a
value in every skill. -/
def lowSkillPool : List Crew :=
  [poolCrew 0 [10, 0, 0, 0, 0, 0] [], poolCrew 1 [0, 10, 0, 0, 0, 0] [],
   poolCrew 2 [0, 0, 10, 0, 0, 0] [], poolCrew 3 [0, 0, 0, 10, 0, 0] [],
   poolCrew 4 [0, 0, 0, 0, 10, 0] [], poolCrew 5 [1, 1, 1, 1, 1, 7] []]

/-- The calculator for `lowSkillPool`, search depth 1, with the durations of the source
in exact arithmetic. -/
def lowSkillCalc : VoyageCalculator :=
  construct (plainCfg 1 lowSkillPool) (fun complement =>
    microHours (calculateDuration exactNumerics (plainCfg 1 lowSkillPool) complement))

/-- The candidate of crew member 0 in the ranked list of slot 5 of `lowSkillCalc`. -/
def lowSkillCandidate : Crew :=
  ⟨0, [10, 0, 0, 0, 0, 0], [10, 0, 0, 0, 0, 0], [10, 0, 0, 0, 0, 0], [], 0, 0⟩

/-- Ten crew members: three specialists of skill 0, two generalists of skills 1 to 3, a
specialist of skill 1, a weak specialist of skill 3, two specialists of skill 4 and one of
skill 5. -/
def widePool : List Crew :=
  [poolCrew 0 [150, 0, 0, 0, 0, 0] [], poolCrew 1 [149, 0, 0, 0, 0, 0] [],
   poolCrew 2 [148, 0, 0, 0, 0, 0] [], poolCrew 3 [0, 40, 30, 30, 0, 0] [],
   poolCrew 4 [0, 33, 33, 33, 0, 0] [], poolCrew 5 [0, 50, 0, 0, 0, 0] [],
   poolCrew 6 [0, 0, 0, 5, 0, 0] [], poolCrew 7 [0, 0, 0, 0, 200, 0] [],
   poolCrew 8 [0, 0, 0, 0, 190, 0] [], poolCrew 9 [0, 0, 0, 0, 0, 200] []]

/-- A duration that is the total of skill 3 over the complement. -/
def wideDuration (complement : List Crew) : Int :=
  ((complement.map (fun crew => crew.skills.getD 3 0)).sum : Nat)

/-- The calculator for `widePool` with the given search depth. -/
def wideCalc (depth : Nat) : VoyageCalculator :=
  construct (plainCfg depth widePool) wideDuration

/-- The crew member that stands for a missing entry. -/
def noCrew : Crew := ⟨0, [], [], [], [], 0, 0⟩

/-- Seven crew members: six with two neighbouring skills each and a weak specialist of
skill 0. -/
def ringPool : List Crew :=
  [poolCrew 0 [20, 10, 0, 0, 0, 0] [], poolCrew 1 [0, 21, 10, 0, 0, 0] [],
   poolCrew 2 [0, 0, 22, 10, 0, 0] [], poolCrew 3 [0, 0, 0, 23, 10, 0] [],
   poolCrew 4 [0, 0, 0, 0, 24, 10] [], poolCrew 5 [10, 0, 0, 0, 0, 25] [],
   poolCrew 6 [5, 0, 0, 0, 0, 0] []]

/-! ## Further predicates -/

/-- The state `st` is reached from `st0` by some evaluations, and its best result is the
one of `st0` folded through the best-update step over those of them that had a complement
without null entries. -/
def FoldsFrom (c : VoyageCalculator) (st0 st : SearchState) : Prop :=
  ∃ new, st.evaluated = st0.evaluated ++ new ∧ st.best = bestFold st0.best (completed c new)

/-- The working tree of `thread` holds the entries of `target` at the positions below
`p`. -/
def Agree (seedSlot : Nat) (st : SearchState) (thread p : Nat) (target : Nat → Crew) : Prop :=
  ∀ q < p, st.considered thread (slotAt q seedSlot) = some (target (slotAt q seedSlot))

/-- An assignment of a crew member to every slot is within reach of the scan with depth
bound `minDepth` and pruning bound `minScore`: the entry of every slot stands in the
ranked list of the slot below the index at which the scan is left, and the underlying
roster entries are pairwise distinct. -/
def Reachable (c : VoyageCalculator) (minScore minDepth : Nat) (target : Nat → Crew) : Prop :=
  (∀ slot, slot < c.SLOT_COUNT →
    ∃ k, (c.slotRoster slot)[k]? = some (target slot)
      ∧ k < scanCount minDepth minScore (c.slotRoster slot) 0)
  ∧ ∀ i j, i < c.SLOT_COUNT → j < c.SLOT_COUNT →
      (target i).original = (target j).original → i = j

/-- The complement that an assignment puts into the slots. -/
def complementOf (c : VoyageCalculator) (target : Nat → Crew) : List Crew :=
  (List.range c.SLOT_COUNT).map target

/-- The best score bounds the duration of every complement without null entries that
has been evaluated. -/
def Bounded (c : VoyageCalculator) (st : SearchState) : Prop :=
  ∀ e ∈ st.evaluated, ∀ complement, deref e.crewToConsider = some complement →
    c.calculateDuration complement ≤ st.bestscore

/-! # Theorems -/

/-! ## Scoring and ranking -/

theorem rankSlot_perm (cfg : Config) (iSlot : Nat) :
    (rankSlot cfg iSlot).Perm (cfg.roster.enum.map (fun p => slotCandidate cfg iSlot p.1 p.2)) :=
  List.perm_insertionSort _ _


theorem rankSlot_sorted (cfg : Config) (iSlot : Nat) :
    (rankSlot cfg iSlot).Sorted scoreGE :=
  List.sorted_insertionSort _ _

theorem mem_rankSlot (cfg : Config) (iSlot : Nat) (cand : Crew) :
    cand ∈ rankSlot cfg iSlot ↔
      ∃ iCrew crew, cfg.roster[iCrew]? = some crew ∧ cand = slotCandidate cfg iSlot iCrew crew := by
  rw [(rankSlot_perm cfg iSlot).mem_iff]
  simp only [List.mem_map, Prod.exists]
  constructor
  · rintro ⟨i, crew, hmem, rfl⟩
    exact ⟨i, crew, (List.mem_enum_iff_getElem?).1 hmem, rfl⟩
  · rintro ⟨i, crew, hget, rfl⟩
    exact ⟨i, crew, (List.mem_enum_iff_getElem?).2 hget, rfl⟩

theorem rankSlot_originals (cfg : Config) (iSlot : Nat) :
    ((rankSlot cfg iSlot).map Crew.original).Perm (List.range cfg.roster.length) := by
  have h := (rankSlot_perm cfg iSlot).map Crew.original
  have e : (cfg.roster.enum.map (fun p => slotCandidate cfg iSlot p.1 p.2)).map Crew.original
      = List.range cfg.roster.length := by
    rw [List.map_map, ← List.enum_map_fst]
    rfl
  rw [e] at h
  exact h

theorem rankSlot_score_le (cfg : Config) (iSlot a b : Nat) (left right : Crew) (hab : a < b)
    (ha : (rankSlot cfg iSlot)[a]? = some left) (hb : (rankSlot cfg iSlot)[b]? = some right) :
    right.score ≤ left.score := by
  have hs : (rankSlot cfg iSlot).Pairwise scoreGE := rankSlot_sorted cfg iSlot
  obtain ⟨ha', rfl⟩ := List.getElem?_eq_some_iff.1 ha
  obtain ⟨hb', rfl⟩ := List.getElem?_eq_some_iff.1 hb
  exact (List.pairwise_iff_getElem.1 hs) a b ha' hb' hab

/-- C4. After construction the ranked list of every slot is a permutation of the pool
(one candidate per pool entry, `original` pointing at it), every candidate carries the
score `computeScore` gives its pool entry for the slot, and scores never increase along
the list. -/
theorem construct_slotRoster_ranked (cfg : Config) (calculateDuration : List Crew → Int)
    (iSlot : Nat) :
    ((construct cfg calculateDuration).slotRoster iSlot).Perm
        (cfg.roster.enum.map (fun p => slotCandidate cfg iSlot p.1 p.2))
    ∧ (((construct cfg calculateDuration).slotRoster iSlot).map Crew.original).Perm
        (List.range cfg.roster.length)
    ∧ (∀ cand ∈ (construct cfg calculateDuration).slotRoster iSlot,
        ∃ crew, cfg.roster[cand.original]? = some crew
          ∧ cand = { crew with original := cand.original, score := cand.score }
          ∧ cand.score = computeScore cfg crew (cfg.slotSkills iSlot) (cfg.slotTraits iSlot))
    ∧ (∀ (a b : Nat) (left right : Crew), a < b →
        ((construct cfg calculateDuration).slotRoster iSlot)[a]? = some left →
        ((construct cfg calculateDuration).slotRoster iSlot)[b]? = some right →
        right.score ≤ left.score) := by
  refine ⟨rankSlot_perm cfg iSlot, rankSlot_originals cfg iSlot, ?_, ?_⟩
  · intro cand hcand
    obtain ⟨iCrew, crew, hget, rfl⟩ := (mem_rankSlot cfg iSlot cand).1 hcand
    exact ⟨crew, hget, rfl, rfl⟩
  · intro a b left right hab ha hb
    exact rankSlot_score_le cfg iSlot a b left right hab ha hb

theorem construct_slotRoster_ranked_witness :
    ((sixSkillCalc.slotRoster 3).map Crew.original).Perm (List.range 1)
    ∧ (sixSkillCalc.slotRoster 3).map Crew.score = [21] :=
  ⟨(construct_slotRoster_ranked (plainCfg 1 [poolCrew 0 [1, 2, 3, 4, 5, 6] []])
      (fun _ => 0) 3).2.1, by decide⟩

theorem length_rankSlot (cfg : Config) (iSlot : Nat) :
    (rankSlot cfg iSlot).length = cfg.roster.length := by
  rw [(rankSlot_perm cfg iSlot).length_eq]
  simp

theorem length_flatMap_range (f : Nat → List Nat) (len : Nat)
    (h : ∀ i, (f i).length = len) (n : Nat) :
    ((List.range n).flatMap f).length = n * len := by
  induction n with
  | zero => simp
  | succ n ih =>
    rw [List.range_succ, List.flatMap_append, List.length_append, ih]
    simp [h, Nat.succ_mul]

theorem length_slotCrewScores_construct (cfg : Config) (calculateDuration : List Crew → Int) :
    (slotCrewScores (construct cfg calculateDuration)).length
      = cfg.SLOT_COUNT * cfg.roster.length := by
  unfold slotCrewScores
  apply length_flatMap_range
  intro i
  simp [construct, length_rankSlot]

theorem sortDescending_perm (scores : List Nat) : (sortDescending scores).Perm scores :=
  List.perm_insertionSort _ _

theorem sortDescending_sorted (scores : List Nat) :
    (sortDescending scores).Pairwise (fun a b => b ≤ a) :=
  List.sorted_insertionSort (fun a b : Nat => a ≥ b) scores

/-! ## The pruning bound -/

theorem sortDescending_last_le (scores : List Nat) (v s : Nat)
    (hv : (sortDescending scores)[scores.length - 1]? = some v) (hs : s ∈ scores) :
    v ≤ s := by
  have hlen : (sortDescending scores).length = scores.length :=
    (sortDescending_perm scores).length_eq
  have hs' : s ∈ sortDescending scores := (sortDescending_perm scores).mem_iff.2 hs
  obtain ⟨j, hj, rfl⟩ := List.getElem_of_mem hs'
  obtain ⟨hi, rfl⟩ := List.getElem?_eq_some_iff.1 hv
  rcases Nat.lt_or_ge j (scores.length - 1) with hlt | hge
  · exact (List.pairwise_iff_getElem.1 (sortDescending_sorted scores)) j _ hj hi hlt
  · have : j = scores.length - 1 := by omega
    subst this
    exact le_refl _

/-- C5. For a non-empty pool the index `min(size - 1, depth * N)` lies inside the
vector of all candidate scores (`size = N * pool size`), `minScore` is the entry at
that index of the scores sorted in non-increasing order, and it is the smallest score
overall whenever `depth * N >= size - 1`. -/
theorem minScore_spec (cfg : Config) (calculateDuration : List Crew → Int)
    (hpool : cfg.roster ≠ []) (hslots : 0 < cfg.SLOT_COUNT) :
    (slotCrewScores (construct cfg calculateDuration)).length
        = cfg.SLOT_COUNT * cfg.roster.length
    ∧ (sortDescending (slotCrewScores (construct cfg calculateDuration))).Perm
        (slotCrewScores (construct cfg calculateDuration))
    ∧ (sortDescending (slotCrewScores (construct cfg calculateDuration))).Pairwise
        (fun a b => b ≤ a)
    ∧ minScoreIndex (construct cfg calculateDuration)
        = min (cfg.SLOT_COUNT * cfg.roster.length - 1) (cfg.depth * cfg.SLOT_COUNT)
    ∧ minScoreIndex (construct cfg calculateDuration)
        < (sortDescending (slotCrewScores (construct cfg calculateDuration))).length
    ∧ ∃ v, minScore (construct cfg calculateDuration) = some v
        ∧ (sortDescending (slotCrewScores (construct cfg calculateDuration)))[
            min (cfg.SLOT_COUNT * cfg.roster.length - 1) (cfg.depth * cfg.SLOT_COUNT)]? = some v
        ∧ (cfg.SLOT_COUNT * cfg.roster.length - 1 ≤ cfg.depth * cfg.SLOT_COUNT →
            ∀ s ∈ slotCrewScores (construct cfg calculateDuration), v ≤ s) := by
  have hlen := length_slotCrewScores_construct cfg calculateDuration
  have hpos : 0 < cfg.SLOT_COUNT * cfg.roster.length :=
    Nat.mul_pos hslots (List.length_pos.2 hpool)
  have hslen : (sortDescending (slotCrewScores (construct cfg calculateDuration))).length
      = cfg.SLOT_COUNT * cfg.roster.length := by
    rw [(sortDescending_perm _).length_eq, hlen]
  have hidx : minScoreIndex (construct cfg calculateDuration)
      = min (cfg.SLOT_COUNT * cfg.roster.length - 1) (cfg.depth * cfg.SLOT_COUNT) := by
    unfold minScoreIndex sizeMinusOne
    rw [hlen, if_neg (Nat.pos_iff_ne_zero.1 hpos)]
    rfl
  have hlt : minScoreIndex (construct cfg calculateDuration)
      < (sortDescending (slotCrewScores (construct cfg calculateDuration))).length := by
    rw [hidx, hslen]
    exact lt_of_le_of_lt (Nat.min_le_left _ _) (by omega)
  refine ⟨hlen, sortDescending_perm _, sortDescending_sorted _, hidx, hlt, ?_⟩
  refine ⟨(sortDescending (slotCrewScores (construct cfg calculateDuration)))[
      minScoreIndex (construct cfg calculateDuration)], ?_, ?_, ?_⟩
  · unfold minScore
    exact List.getElem?_eq_getElem hlt
  · rw [← hidx]
    exact List.getElem?_eq_getElem hlt
  · intro hwide s hs
    apply sortDescending_last_le _ _ _ _ hs
    rw [hlen]
    have : minScoreIndex (construct cfg calculateDuration)
        = cfg.SLOT_COUNT * cfg.roster.length - 1 := by
      rw [hidx]; exact Nat.min_eq_left hwide
    rw [← this]
    exact List.getElem?_eq_getElem hlt

theorem minScore_spec_witness :
    (plainCfg 1 [poolCrew 0 [1, 2, 3, 4, 5, 6] []]).roster ≠ []
    ∧ 0 < (plainCfg 1 [poolCrew 0 [1, 2, 3, 4, 5, 6] []]).SLOT_COUNT
    ∧ (slotCrewScores (construct (plainCfg 1 [poolCrew 0 [1, 2, 3, 4, 5, 6] []])
        (fun _ => 0))).length = 6 * 1
    ∧ minScoreIndex (construct (plainCfg 1 [poolCrew 0 [1, 2, 3, 4, 5, 6] []]) (fun _ => 0))
        = min (6 * 1 - 1) (1 * 6) :=
  ⟨by decide, by decide,
   (minScore_spec (plainCfg 1 [poolCrew 0 [1, 2, 3, 4, 5, 6] []]) (fun _ => 0)
      (by decide) (by decide)).1,
   (minScore_spec (plainCfg 1 [poolCrew 0 [1, 2, 3, 4, 5, 6] []]) (fun _ => 0)
      (by decide) (by decide)).2.2.2.1⟩

/-! ## The deepest slot -/

theorem scanCount_spec (minDepth minScore : Nat) (list : List Crew) (iCrew : Nat) :
    iCrew ≤ scanCount minDepth minScore list iCrew
    ∧ scanCount minDepth minScore list iCrew ≤ iCrew + list.length
    ∧ (∀ j crew, iCrew + j < scanCount minDepth minScore list iCrew →
        list[j]? = some crew → ¬ (minDepth ≤ iCrew + j ∧ crew.score < minScore))
    ∧ (scanCount minDepth minScore list iCrew < iCrew + list.length →
        minDepth ≤ scanCount minDepth minScore list iCrew
        ∧ ∃ crew, list[scanCount minDepth minScore list iCrew - iCrew]? = some crew
            ∧ crew.score < minScore) := by
  induction list generalizing iCrew with
  | nil =>
    refine ⟨le_refl _, le_refl _, ?_, ?_⟩
    · intro j crew _ h; simp at h
    · intro h; simp [scanCount] at h
  | cons head rest ih =>
    by_cases hb : minDepth ≤ iCrew ∧ head.score < minScore
    · have e : scanCount minDepth minScore (head :: rest) iCrew = iCrew := by
        simp only [scanCount, if_pos hb]
      rw [e]
      refine ⟨le_refl _, by simp, ?_, ?_⟩
      · intro j crew h _; omega
      · intro _
        exact ⟨hb.1, head, by simp, hb.2⟩
    · have e : scanCount minDepth minScore (head :: rest) iCrew
          = scanCount minDepth minScore rest (iCrew + 1) := by
        simp only [scanCount, if_neg hb]
      rw [e]
      obtain ⟨h1, h2, h3, h4⟩ := ih (iCrew + 1)
      refine ⟨by omega, by simp only [List.length_cons]; omega, ?_, ?_⟩
      · intro j crew hj hget
        cases j with
        | zero =>
          simp only [List.getElem?_cons_zero, Option.some.injEq] at hget
          subst hget
          simpa using hb
        | succ j =>
          simp only [List.getElem?_cons_succ] at hget
          have := h3 j crew (by omega) hget
          rwa [show iCrew + 1 + j = iCrew + (j + 1) by omega] at this
      · intro hlt
        simp only [List.length_cons] at hlt
        obtain ⟨h5, crew, h6, h7⟩ := h4 (by omega)
        refine ⟨h5, crew, ?_, h7⟩
        have e2 : scanCount minDepth minScore rest (iCrew + 1) - iCrew
            = (scanCount minDepth minScore rest (iCrew + 1) - (iCrew + 1)) + 1 := by omega
        rw [e2, List.getElem?_cons_succ]
        exact h6

/-- The loop over the slots of `deepestSlot`, started from the pair `best`. -/
theorem deepest_foldl_spec (count : Nat → Nat) (n : Nat) :
    ∀ best : Nat × Nat,
    let r := (List.range n).foldl
      (fun best iSlot => if count iSlot > best.2 then (iSlot, count iSlot) else best) best
    best.2 ≤ r.2
    ∧ (∀ i < n, count i ≤ r.2)
    ∧ (r = best ∨ (r.1 < n ∧ count r.1 = r.2 ∧ best.2 < r.2 ∧ ∀ i < r.1, count i < r.2)) := by
  induction n with
  | zero => intro best; simp
  | succ n ih =>
    intro best
    rw [List.range_succ, List.foldl_append]
    obtain ⟨h1, h2, h3⟩ := ih best
    simp only [List.foldl_cons, List.foldl_nil]
    generalize (List.range n).foldl
      (fun best iSlot => if count iSlot > best.2 then (iSlot, count iSlot) else best) best = r
      at h1 h2 h3
    by_cases hc : count n > r.2
    · rw [if_pos hc]
      dsimp only
      refine ⟨by omega, ?_, Or.inr ⟨by omega, rfl, by omega, ?_⟩⟩
      · intro i hi
        rcases Nat.lt_succ_iff_lt_or_eq.1 hi with h | h
        · have := h2 i h
          omega
        · subst h; exact le_refl _
      · intro i hi
        have := h2 i hi
        omega
    · rw [if_neg hc]
      refine ⟨h1, ?_, ?_⟩
      · intro i hi
        rcases Nat.lt_succ_iff_lt_or_eq.1 hi with h | h
        · exact h2 i h
        · subst h; omega
      · rcases h3 with h | ⟨h4, h5, h6, h7⟩
        · exact Or.inl h
        · exact Or.inr ⟨by omega, h5, h6, h7⟩

theorem deepestSlot_fst_lt (c : VoyageCalculator) (minScore : Nat) (hpos : 0 < c.SLOT_COUNT) :
    (deepestSlot c minScore).1 < c.SLOT_COUNT := by
  obtain ⟨_, _, h3⟩ := deepest_foldl_spec
    (fun iSlot => scanCount MIN_SCAN_DEPTH minScore (c.slotRoster iSlot) 0) c.SLOT_COUNT (0, 0)
  have hdef : deepestSlot c minScore = (List.range c.SLOT_COUNT).foldl
      (fun best iSlot =>
        if (fun iSlot => scanCount MIN_SCAN_DEPTH minScore (c.slotRoster iSlot) 0) iSlot > best.2
        then (iSlot, (fun iSlot => scanCount MIN_SCAN_DEPTH minScore (c.slotRoster iSlot) 0) iSlot)
        else best) (0, 0) := rfl
  rw [← hdef] at h3
  rcases h3 with h | ⟨h4, _⟩
  · rw [h]; exact hpos
  · exact h4

/-- C6. For every slot the count of the deepest-slot loop is the smallest index `k`
with `k >= MIN_SCAN_DEPTH` and a score below `minScore`, or the length of the list when
there is none; `maxDepth` is the largest count and `deepSlot` the lowest-numbered slot
that attains it (slot 0 with `maxDepth` 0 when every count is zero). -/
theorem deepestSlot_spec (c : VoyageCalculator) (minScore : Nat) :
    (∀ iSlot,
        scanCount MIN_SCAN_DEPTH minScore (c.slotRoster iSlot) 0 ≤ (c.slotRoster iSlot).length
        ∧ (∀ k crew, k < scanCount MIN_SCAN_DEPTH minScore (c.slotRoster iSlot) 0 →
            (c.slotRoster iSlot)[k]? = some crew →
            ¬ (MIN_SCAN_DEPTH ≤ k ∧ crew.score < minScore))
        ∧ (scanCount MIN_SCAN_DEPTH minScore (c.slotRoster iSlot) 0
              < (c.slotRoster iSlot).length →
            MIN_SCAN_DEPTH ≤ scanCount MIN_SCAN_DEPTH minScore (c.slotRoster iSlot) 0
            ∧ ∃ crew, (c.slotRoster iSlot)[
                  scanCount MIN_SCAN_DEPTH minScore (c.slotRoster iSlot) 0]? = some crew
                ∧ crew.score < minScore))
    ∧ (∀ iSlot < c.SLOT_COUNT,
        scanCount MIN_SCAN_DEPTH minScore (c.slotRoster iSlot) 0 ≤ (deepestSlot c minScore).2)
    ∧ (0 < c.SLOT_COUNT →
        (deepestSlot c minScore).1 < c.SLOT_COUNT
        ∧ scanCount MIN_SCAN_DEPTH minScore (c.slotRoster (deepestSlot c minScore).1) 0
            = (deepestSlot c minScore).2
        ∧ ∀ iSlot < (deepestSlot c minScore).1,
            scanCount MIN_SCAN_DEPTH minScore (c.slotRoster iSlot) 0
              < (deepestSlot c minScore).2)
    ∧ ((∀ iSlot < c.SLOT_COUNT, c.slotRoster iSlot = []) → deepestSlot c minScore = (0, 0)) := by
  have hfold := deepest_foldl_spec
    (fun iSlot => scanCount MIN_SCAN_DEPTH minScore (c.slotRoster iSlot) 0) c.SLOT_COUNT (0, 0)
  obtain ⟨_, h2, h3⟩ := hfold
  have hdef : deepestSlot c minScore = (List.range c.SLOT_COUNT).foldl
      (fun best iSlot =>
        if (fun iSlot => scanCount MIN_SCAN_DEPTH minScore (c.slotRoster iSlot) 0) iSlot > best.2
        then (iSlot, (fun iSlot => scanCount MIN_SCAN_DEPTH minScore (c.slotRoster iSlot) 0) iSlot)
        else best) (0, 0) := rfl
  rw [← hdef] at h2 h3
  refine ⟨?_, h2, ?_, ?_⟩
  · intro iSlot
    obtain ⟨_, h5, h6, h7⟩ := scanCount_spec MIN_SCAN_DEPTH minScore (c.slotRoster iSlot) 0
    refine ⟨by simpa using h5, ?_, ?_⟩
    · intro k crew hk hget
      simpa using h6 k crew (by simpa using hk) hget
    · intro hlt
      simpa using h7 (by simpa using hlt)
  · intro hpos
    rcases h3 with h | ⟨h4, h5, _, h7⟩
    · rw [h]
      refine ⟨hpos, ?_, ?_⟩
      · have := h2 0 hpos
        rw [h] at this
        simpa using this
      · intro i hi; simp at hi
    · exact ⟨h4, h5, h7⟩
  · intro hempty
    rcases h3 with h | ⟨h4, h5, h6, _⟩
    · exact h
    · rw [hempty _ h4] at h5
      simp [scanCount] at h5
      omega

theorem deepestSlot_spec_witness :
    0 < sixSkillCalc.SLOT_COUNT
    ∧ (deepestSlot sixSkillCalc 21).1 < sixSkillCalc.SLOT_COUNT
    ∧ scanCount MIN_SCAN_DEPTH 21 (sixSkillCalc.slotRoster (deepestSlot sixSkillCalc 21).1) 0
        = (deepestSlot sixSkillCalc 21).2 :=
  ⟨by decide,
   ((deepestSlot_spec sixSkillCalc 21).2.2.1 (by decide)).1,
   ((deepestSlot_spec sixSkillCalc 21).2.2.1 (by decide)).2.1⟩

/-! ## Properties that every step of the search preserves -/

theorem scanSlot_preserves (c : VoyageCalculator) (P : SearchState → Prop)
    (hcons : ∀ st t s crew, P st → P (st.setConsidered t s crew))
    (hcc : ∀ st a t b, P st → P (st.setCrewConsidered a t b))
    (hfault : ∀ (st : SearchState), P st → P { st with fault := some Fault.outOfBounds })
    (minScore minDepth : Nat)
    (heval : ∀ st t, P st → P (evaluate c minDepth t st))
    (seedSlot slot : Nat) (recurse : Nat → SearchState → SearchState)
    (hrec : ∀ t st, P st → P (recurse t st)) :
    ∀ (cands : List Crew) (iCrew thread : Nat) (st : SearchState), P st →
      P (scanSlot c minScore minDepth seedSlot slot recurse cands iCrew thread st) := by
  intro cands
  induction cands with
  | nil => intro iCrew thread st h; exact h
  | cons crew rest ih =>
    intro iCrew thread st h
    simp only [scanSlot]
    generalize (if slot = seedSlot then iCrew else thread) = t
    split_ifs
    all_goals first
      | exact h
      | exact hfault _ h
      | exact ih _ _ _ h
      | exact hrec _ _ (hcc _ _ _ _ (hcons _ _ _ _ h))
      | exact ih _ _ _ (hcc _ _ _ _ (hrec _ _ (hcc _ _ _ _ (hcons _ _ _ _ h))))
      | exact ih _ _ _ (hrec _ _ (hcc _ _ _ _ (hcons _ _ _ _ h)))
      | exact heval _ _ (hcc _ _ _ _ (hcons _ _ _ _ h))
      | exact ih _ _ _ (hcc _ _ _ _ (heval _ _ (hcc _ _ _ _ (hcons _ _ _ _ h))))
      | exact ih _ _ _ (heval _ _ (hcc _ _ _ _ (hcons _ _ _ _ h)))

theorem fillSlot_preserves (c : VoyageCalculator) (P : SearchState → Prop)
    (hcons : ∀ st t s crew, P st → P (st.setConsidered t s crew))
    (hcc : ∀ st a t b, P st → P (st.setCrewConsidered a t b))
    (hfault : ∀ (st : SearchState) f, P st → P { st with fault := some f })
    (minScore minDepth : Nat)
    (heval : ∀ st t, P st → P (evaluate c minDepth t st))
    (seedSlot : Nat) :
    ∀ (fuel iSlot thread : Nat) (st : SearchState), P st →
      P (fillSlot c minScore minDepth seedSlot fuel iSlot thread st) := by
  intro fuel
  induction fuel with
  | zero =>
    intro iSlot thread st h
    simp only [fillSlot]
    split_ifs
    · exact h
    · exact hfault _ _ h
  | succ fuel ih =>
    intro iSlot thread st h
    simp only [fillSlot]
    split_ifs
    · exact h
    · exact hfault _ _ h
    · exact scanSlot_preserves c P hcons hcc (fun st h => hfault st _ h) minScore minDepth
        heval _ _ _
        (fun t st hst => ih _ _ _ hst) _ _ _ _ h

theorem evaluate_sweeps (c : VoyageCalculator) (minDepth thread : Nat) (st : SearchState) :
    (evaluate c minDepth thread st).sweeps = st.sweeps := by
  unfold evaluate
  dsimp only
  split
  · rfl
  · split_ifs <;> rfl

theorem fillSlot_sweeps (c : VoyageCalculator) (minScore minDepth seedSlot fuel iSlot thread : Nat)
    (st : SearchState) :
    (fillSlot c minScore minDepth seedSlot fuel iSlot thread st).sweeps = st.sweeps :=
  fillSlot_preserves c (fun st' => st'.sweeps = st.sweeps)
    (fun _ _ _ _ h => h) (fun _ _ _ _ h => h) (fun _ _ h => h) minScore minDepth
    (fun st' t h => (evaluate_sweeps c minDepth t st').trans h) _ _ _ _ _ rfl

/-! ## The recursion budget is never exhausted -/

theorem minScore_none_of_no_slots (c : VoyageCalculator) (h : c.SLOT_COUNT = 0) :
    minScore c = none := by
  simp [minScore, slotCrewScores, sortDescending, h]

theorem calculate_sweeps_length (c : VoyageCalculator) :
    (calculate c).sweeps.length ≤ MAX_SCAN_DEPTH - MIN_SCAN_DEPTH := by
  cases hm : minScore c with
  | none => simp [calculate, hm, initialState]
  | some ms =>
    simp only [calculate, hm]
    have hpres : ∀ (remaining d : Nat) (st : SearchState),
        (depthSweep c ms (deepestSlot c ms).1 remaining d st).sweeps.length
          ≤ st.sweeps.length + remaining := by
      intro remaining
      induction remaining with
      | zero => intro d st; simp [depthSweep]
      | succ remaining ih =>
        intro d st
        have hsw := fillSlot_sweeps c ms d (deepestSlot c ms).1 (c.SLOT_COUNT + 1) 0 0 st
        simp only [depthSweep]
        generalize fillSlot c ms d (deepestSlot c ms).1 (c.SLOT_COUNT + 1) 0 0 st = st1 at hsw
        split_ifs
        · simp [hsw]
        · refine le_trans (ih _ _) ?_
          simp [hsw]
          omega
    simpa [initialState] using hpres (MAX_SCAN_DEPTH - MIN_SCAN_DEPTH) MIN_SCAN_DEPTH
      (initialState c (deepestSlot c ms).2)

/-! ## The depth sweep -/

theorem lookup_filter_ne (key other : Nat × Nat) (tree : List ((Nat × Nat) × Crew))
    (h : key ≠ other) :
    (tree.filter (fun entry => entry.1 != other)).lookup key = tree.lookup key := by
  induction tree with
  | nil => rfl
  | cons entry rest ih =>
    obtain ⟨k, v⟩ := entry
    by_cases hk : k = other
    · subst hk
      have hne : (key == k) = false := by simpa using h
      simp [List.filter, List.lookup, hne, ih]
    · have hk' : (k != other) = true := by simpa using hk
      simp only [List.filter, hk', List.lookup]
      rw [ih]

theorem considered_setConsidered (st : SearchState) (thread slot : Nat) (crew : Crew)
    (t s : Nat) :
    (st.setConsidered thread slot crew).considered t s
      = if t = thread ∧ s = slot then some crew else st.considered t s := by
  unfold SearchState.setConsidered SearchState.considered
  by_cases h : t = thread ∧ s = slot
  · obtain ⟨rfl, rfl⟩ := h
    simp [List.lookup]
  · rw [if_neg h]
    have hne : (t, s) ≠ (thread, slot) := fun e => h ⟨congrArg Prod.fst e, congrArg Prod.snd e⟩
    have hb : ((t, s) == (thread, slot)) = false := by simpa using hne
    simp only [List.lookup, hb]
    exact lookup_filter_ne _ _ _ hne

theorem crewConsidered_setCrewConsidered (st : SearchState) (a thread : Nat) (b : Bool)
    (a' t : Nat) :
    (st.setCrewConsidered a thread b).crewConsidered a' t
      = if a' = a ∧ t = thread then b else st.crewConsidered a' t := by
  unfold SearchState.setCrewConsidered SearchState.crewConsidered
  by_cases h : a' = a ∧ t = thread
  · obtain ⟨rfl, rfl⟩ := h
    cases b <;> simp
  · rw [if_neg h]
    have hne : (a', t) ≠ (a, thread) := fun e => h ⟨congrArg Prod.fst e, congrArg Prod.snd e⟩
    cases b <;> simp [List.contains_iff_exists_mem_beq, hne]

theorem crewConsidered_setConsidered (st : SearchState) (thread slot : Nat) (crew : Crew) :
    (st.setConsidered thread slot crew).crewConsidered = st.crewConsidered := rfl

theorem considered_setCrewConsidered (st : SearchState) (a thread : Nat) (b : Bool) :
    (st.setCrewConsidered a thread b).considered = st.considered := rfl

/-! ## Soundness of the search: complete and distinct complements -/

theorem slotAt_involutive (i s : Nat) : slotAt (slotAt i s) s = i := by
  unfold slotAt
  split_ifs <;> omega

theorem slotAt_injective (q q' s : Nat) (h : slotAt q s = slotAt q' s) : q = q' := by
  have := congrArg (fun x => slotAt x s) h
  simpa [slotAt_involutive] using this

theorem slotAt_lt (i s n : Nat) (hi : i < n) (hs : s < n) : slotAt i s < n := by
  unfold slotAt
  split_ifs <;> omega

theorem slotAt_eq_seed (p s : Nat) : slotAt p s = s ↔ p = 0 := by
  unfold slotAt
  split_ifs <;> omega

theorem deref_map_some (crews : List Crew) : deref (crews.map some) = some crews := by
  induction crews with
  | nil => rfl
  | cons crew rest ih => simp [deref, ih]

theorem deref_eq_some (x : List (Option Crew)) (crews : List Crew)
    (h : deref x = some crews) : x = crews.map some := by
  induction x generalizing crews with
  | nil => simp [deref] at h; subst h; rfl
  | cons head rest ih =>
    cases head with
    | none => simp [deref] at h
    | some crew =>
      simp only [deref] at h
      cases hr : deref rest with
      | none => rw [hr] at h; simp at h
      | some crews' =>
        rw [hr] at h
        simp only [Option.some.injEq] at h
        subst h
        simp [ih crews' hr]

theorem deref_eq_none_of_mem (x : List (Option Crew)) (h : none ∈ x) : deref x = none := by
  induction x with
  | nil => simp at h
  | cons head rest ih =>
    cases head with
    | none => rfl
    | some crew =>
      have : none ∈ rest := by simpa using h
      simp [deref, ih this]

theorem dupePairs_eq_zero (crews : List Crew) (h : (crews.map Crew.original).Nodup) :
    dupePairs crews = 0 := by
  induction crews with
  | nil => rfl
  | cons crew rest ih =>
    simp only [List.map_cons, List.nodup_cons] at h
    simp only [dupePairs, ih h.2, Nat.add_zero, List.length_eq_zero, List.filter_eq_nil_iff]
    intro other hmem
    simp only [decide_eq_true_eq]
    intro heq
    exact h.1 (heq ▸ List.mem_map_of_mem _ hmem)

/-- A working tree whose choices cover every position is a complete and distinct
complement. -/
theorem pathInv_complete (c : VoyageCalculator) (minScore minDepth seedSlot : Nat)
    (st : SearchState) (thread : Nat) (hs : seedSlot < c.SLOT_COUNT)
    (h : PathInv c minScore minDepth seedSlot st thread c.SLOT_COUNT) :
    CompleteDistinct c minScore minDepth
      ((List.range c.SLOT_COUNT).map (st.considered thread)) := by
  obtain ⟨ha, _, hc⟩ := h
  have hall : ∀ i < c.SLOT_COUNT, ∃ crew, st.considered thread i = some crew
      ∧ Scanned c minScore minDepth i crew := by
    intro i hi
    obtain ⟨crew, h1, _, h3⟩ := ha (slotAt i seedSlot) (slotAt_lt _ _ _ hi hs)
    rw [slotAt_involutive] at h1 h3
    exact ⟨crew, h1, h3⟩
  have hd : Inhabited Crew := ⟨⟨0, [], [], [], [], 0, 0⟩⟩
  refine ⟨(List.range c.SLOT_COUNT).map (fun i => (st.considered thread i).getD default),
    ?_, by simp, ?_, ?_⟩
  · rw [List.map_map]
    apply List.map_congr_left
    intro i hi
    obtain ⟨crew, h1, _⟩ := hall i (List.mem_range.1 hi)
    simp [h1]
  · rw [List.map_map]
    apply List.Nodup.map_on _ (List.nodup_range _)
    intro i hi j hj heq
    have hi' := List.mem_range.1 hi
    have hj' := List.mem_range.1 hj
    obtain ⟨ci, h1, _⟩ := hall i hi'
    obtain ⟨cj, h2, _⟩ := hall j hj'
    simp only [Function.comp, h1, h2, Option.getD_some] at heq
    have := hc (slotAt i seedSlot) (slotAt j seedSlot) ci cj (slotAt_lt _ _ _ hi' hs)
      (slotAt_lt _ _ _ hj' hs) (by rw [slotAt_involutive]; exact h1)
      (by rw [slotAt_involutive]; exact h2) heq
    exact slotAt_injective _ _ _ this
  · intro slot crew hget
    rw [List.getElem?_map] at hget
    rcases Nat.lt_or_ge slot c.SLOT_COUNT with hlt | hge
    · rw [List.getElem?_range hlt] at hget
      obtain ⟨crew', h1, h3⟩ := hall slot hlt
      simp only [Option.map_some', h1, Option.getD_some, Option.some.injEq] at hget
      subst hget
      exact h3
    · rw [List.getElem?_eq_none (by simpa using hge)] at hget
      simp at hget

theorem sound_of_eq {c : VoyageCalculator} {minScore : Nat} {Q : Prop} {st st' : SearchState}
    (h : Sound c minScore Q st) (h1 : st'.accepted = st.accepted)
    (h2 : st'.evaluated = st.evaluated) (h3 : st'.dupeErrors = st.dupeErrors) :
    Sound c minScore Q st' :=
  ⟨by rw [h1]; exact h.accepted_ok, by rw [h2]; exact h.evaluated_ok,
    by rw [h2]; exact h.partial_ok, by rw [h3]; exact h.no_dupe⟩

theorem evaluate_sound (c : VoyageCalculator) (minScore : Nat) (Q : Prop) (d thread : Nat)
    (st : SearchState) (hs : Sound c minScore Q st)
    (h : deref ((List.range c.SLOT_COUNT).map (st.considered thread)) ≠ none →
      CompleteDistinct c minScore d ((List.range c.SLOT_COUNT).map (st.considered thread)))
    (hQ : deref ((List.range c.SLOT_COUNT).map (st.considered thread)) = none → Q) :
    Sound c minScore Q (evaluate c d thread st) := by
  have hpart : ∀ e ∈ st.evaluated ++
        [(⟨d, (List.range c.SLOT_COUNT).map (st.considered thread)⟩ : Evaluation)],
      deref e.crewToConsider = none → Q := by
    intro e he hnone
    rcases List.mem_append.1 he with he | he
    · exact hs.partial_ok e he hnone
    · simp only [List.mem_singleton] at he
      subst he
      exact hQ hnone
  unfold evaluate
  dsimp only
  cases hd : deref ((List.range c.SLOT_COUNT).map (st.considered thread)) with
  | none =>
    dsimp only
    refine ⟨hs.accepted_ok, ?_, hpart, hs.no_dupe⟩
    intro e he hne
    rcases List.mem_append.1 he with he | he
    · exact hs.evaluated_ok e he hne
    · simp only [List.mem_singleton] at he
      subst he
      exact absurd hd hne
  | some complement =>
    dsimp only
    have hcd := h (by rw [hd]; simp)
    have hev : ∀ e ∈ st.evaluated ++
          [(⟨d, (List.range c.SLOT_COUNT).map (st.considered thread)⟩ : Evaluation)],
        deref e.crewToConsider ≠ none →
          CompleteDistinct c minScore e.minDepth e.crewToConsider := by
      intro e he hne
      rcases List.mem_append.1 he with he | he
      · exact hs.evaluated_ok e he hne
      · simp only [List.mem_singleton] at he
        subst he
        exact hcd
    split_ifs
    · refine ⟨?_, hev, hpart, ?_⟩
      · intro e he
        rcases List.mem_append.1 he with he | he
        · exact hs.accepted_ok e he
        · simp only [List.mem_singleton] at he
          subst he
          exact hcd
      · obtain ⟨crews, h1, _, h3, _⟩ := hcd
        rw [h1, deref_map_some] at hd
        simp only [Option.some.injEq] at hd
        subst hd
        show st.dupeErrors + dupePairs crews = 0
        rw [hs.no_dupe, dupePairs_eq_zero crews h3]
    · exact ⟨hs.accepted_ok, hev, hpart, hs.no_dupe⟩

theorem completeDistinct_deref {c : VoyageCalculator} {minScore d : Nat}
    {x : List (Option Crew)} (h : CompleteDistinct c minScore d x) : deref x ≠ none := by
  obtain ⟨crews, h1, _⟩ := h
  rw [h1, deref_map_some]
  simp

theorem evaluate_frame (c : VoyageCalculator) (d thread : Nat) (st : SearchState) :
    (evaluate c d thread st).maxDepth = st.maxDepth
    ∧ (evaluate c d thread st).crewConsidered = st.crewConsidered
    ∧ (evaluate c d thread st).considered = st.considered := by
  unfold evaluate
  dsimp only
  split
  · exact ⟨rfl, rfl, rfl⟩
  · split_ifs <;> exact ⟨rfl, rfl, rfl⟩

theorem evaluate_fault_of_null (c : VoyageCalculator) (d thread : Nat) (st : SearchState)
    (h : deref ((List.range c.SLOT_COUNT).map (st.considered thread)) = none) :
    (evaluate c d thread st).fault = some Fault.nullDeref := by
  unfold evaluate
  dsimp only
  rw [h]

theorem frame_refl (s : Nat) (st : SearchState) (t p : Nat) : Frame s st st t p :=
  ⟨rfl, rfl, fun _ _ _ => rfl⟩

theorem frame_trans {s : Nat} {st st' st'' : SearchState} {t p : Nat}
    (h : Frame s st st' t p) (h' : Frame s st' st'' t p) : Frame s st st'' t p :=
  ⟨h'.1.trans h.1, h'.2.1.trans h.2.1, fun t' slot hx => (h'.2.2 t' slot hx).trans (h.2.2 t' slot hx)⟩

theorem pathInv_of_frame {c : VoyageCalculator} {minScore d s : Nat} {st st' : SearchState}
    {t p : Nat} (h : PathInv c minScore d s st t p) (hf : Frame s st st' t p) :
    PathInv c minScore d s st' t p := by
  obtain ⟨ha, hb, hc⟩ := h
  obtain ⟨_, hcc, hcons⟩ := hf
  refine ⟨?_, ?_, ?_⟩
  · intro q hq
    obtain ⟨crew, h1, h2, h3⟩ := ha q hq
    exact ⟨crew, by rw [hcons _ _ (Or.inr ⟨q, hq, rfl⟩)]; exact h1, by rw [hcc]; exact h2, h3⟩
  · intro a hmark
    rw [hcc] at hmark
    obtain ⟨q, hq, crew, h1, h2⟩ := hb a hmark
    exact ⟨q, hq, crew, by rw [hcons _ _ (Or.inr ⟨q, hq, rfl⟩)]; exact h1, h2⟩
  · intro q q' crew crew' hq hq' h1 h2 heq
    rw [hcons _ _ (Or.inr ⟨q, hq, rfl⟩)] at h1
    rw [hcons _ _ (Or.inr ⟨q', hq', rfl⟩)] at h2
    exact hc q q' crew crew' hq hq' h1 h2 heq

/-- Choosing a candidate that is not in use extends the path by one position. -/
theorem pathInv_extend {c : VoyageCalculator} {minScore d s : Nat} {st : SearchState}
    {t p : Nat} {crew : Crew} (h : PathInv c minScore d s st t p)
    (hfree : ¬ st.crewConsidered crew.original t = true)
    (hscan : Scanned c minScore d (slotAt p s) crew) :
    PathInv c minScore d s
      ((st.setConsidered t (slotAt p s) crew).setCrewConsidered crew.original t true)
      t (p + 1) := by
  obtain ⟨ha, hb, hc⟩ := h
  have hcons : ∀ q, q < p →
      ((st.setConsidered t (slotAt p s) crew).setCrewConsidered crew.original t true).considered
        t (slotAt q s) = st.considered t (slotAt q s) := by
    intro q hq
    have : slotAt q s ≠ slotAt p s := fun e => by
      have := slotAt_injective _ _ _ e; omega
    simp [considered_setCrewConsidered, considered_setConsidered, this]
  have hnew :
      ((st.setConsidered t (slotAt p s) crew).setCrewConsidered crew.original t true).considered
        t (slotAt p s) = some crew := by
    simp [considered_setCrewConsidered, considered_setConsidered]
  have hmark : ∀ a,
      ((st.setConsidered t (slotAt p s) crew).setCrewConsidered crew.original t true).crewConsidered
        a t = true ↔ (a = crew.original ∨ st.crewConsidered a t = true) := by
    intro a
    rw [crewConsidered_setCrewConsidered, crewConsidered_setConsidered]
    by_cases ha : a = crew.original <;> simp [ha]
  refine ⟨?_, ?_, ?_⟩
  · intro q hq
    rcases Nat.lt_succ_iff_lt_or_eq.1 hq with hlt | heq
    · obtain ⟨crew', h1, h2, h3⟩ := ha q hlt
      exact ⟨crew', by rw [hcons q hlt]; exact h1, (hmark _).2 (Or.inr h2), h3⟩
    · subst heq
      exact ⟨crew, hnew, (hmark _).2 (Or.inl rfl), hscan⟩
  · intro a hm
    rcases (hmark a).1 hm with h | h
    · exact ⟨p, Nat.lt_succ_self p, crew, hnew, h.symm⟩
    · obtain ⟨q, hq, crew', h1, h2⟩ := hb a h
      exact ⟨q, Nat.lt_succ_of_lt hq, crew', by rw [hcons q hq]; exact h1, h2⟩
  · intro q q' c1 c2 hq hq' h1 h2 heq
    rcases Nat.lt_succ_iff_lt_or_eq.1 hq with hlt | he
    · rcases Nat.lt_succ_iff_lt_or_eq.1 hq' with hlt' | he'
      · rw [hcons q hlt] at h1
        rw [hcons q' hlt'] at h2
        exact hc q q' c1 c2 hlt hlt' h1 h2 heq
      · subst he'
        rw [hcons q hlt] at h1
        rw [hnew] at h2
        simp only [Option.some.injEq] at h2
        subst h2
        obtain ⟨crew', h1', h2', _⟩ := ha q hlt
        rw [h1'] at h1
        simp only [Option.some.injEq] at h1
        subst h1
        rw [heq] at h2'
        exact absurd h2' hfree
    · subst he
      rcases Nat.lt_succ_iff_lt_or_eq.1 hq' with hlt' | he'
      · rw [hcons q' hlt'] at h2
        rw [hnew] at h1
        simp only [Option.some.injEq] at h1
        subst h1
        obtain ⟨crew', h1', h2', _⟩ := ha q' hlt'
        rw [h1'] at h2
        simp only [Option.some.injEq] at h2
        subst h2
        rw [← heq] at h2'
        exact absurd h2' hfree
      · exact he'.symm

/-- Undoing the mark after the recursion has returned restores the frame of the
position. -/
theorem frame_after_unmark {s : Nat} {st st' : SearchState} {t p : Nat} {crew : Crew}
    (hfree : ¬ st.crewConsidered crew.original t = true)
    (hf : Frame s ((st.setConsidered t (slotAt p s) crew).setCrewConsidered crew.original t true)
      st' t (p + 1)) :
    Frame s st (st'.setCrewConsidered crew.original t false) t p := by
  obtain ⟨h1, h2, h3⟩ := hf
  refine ⟨h1, ?_, ?_⟩
  · funext a t'
    rw [crewConsidered_setCrewConsidered, h2, crewConsidered_setCrewConsidered,
      crewConsidered_setConsidered]
    by_cases hx : a = crew.original ∧ t' = t
    · obtain ⟨rfl, rfl⟩ := hx
      simp only [and_self, if_true]
      exact (Bool.eq_false_iff.2 hfree).symm
    · simp [hx]
  · intro t' slot hx
    show st'.considered t' slot = st.considered t' slot
    have hx' : t' ≠ t ∨ ∃ q < p + 1, slot = slotAt q s := by
      rcases hx with h | ⟨q, hq, h⟩
      · exact Or.inl h
      · exact Or.inr ⟨q, Nat.lt_succ_of_lt hq, h⟩
    rw [h3 t' slot hx', considered_setCrewConsidered, considered_setConsidered]
    have : ¬ (t' = t ∧ slot = slotAt p s) := by
      rintro ⟨rfl, rfl⟩
      rcases hx with h | ⟨q, hq, h⟩
      · exact h rfl
      · have := slotAt_injective _ _ _ h; omega
    simp [this]

/-- The scan of a slot at a position `p >= 1`, given the property of the recursive
call. -/
theorem scanSlot_inner (c : VoyageCalculator) (minScore : Nat) (Q : Prop) (d s p t : Nat)
    (hp : 1 ≤ p) (hs : s < c.SLOT_COUNT) (hslot : slotAt p s < c.SLOT_COUNT)
    (recurse : Nat → SearchState → SearchState)
    (hrec : ∀ st1, PathInv c minScore d s st1 t (p + 1) → Sound c minScore Q st1 →
      Sound c minScore Q (recurse t st1)
      ∧ ((recurse t st1).fault = none → Frame s st1 (recurse t st1) t (p + 1))) :
    ∀ (cands : List Crew) (k : Nat) (st : SearchState),
      (∀ j crew, cands[j]? = some crew → (c.slotRoster (slotAt p s))[k + j]? = some crew) →
      PathInv c minScore d s st t p → Sound c minScore Q st →
      Sound c minScore Q (scanSlot c minScore d s (slotAt p s) recurse cands k t st)
      ∧ ((scanSlot c minScore d s (slotAt p s) recurse cands k t st).fault = none →
          Frame s st (scanSlot c minScore d s (slotAt p s) recurse cands k t st) t p) := by
  have hne : slotAt p s ≠ s := fun e => by
    have := (slotAt_eq_seed p s).1 e; omega
  intro cands
  induction cands with
  | nil =>
    intro k st _ _ hsound
    exact ⟨hsound, fun _ => frame_refl _ _ _ _⟩
  | cons crew rest ih =>
    intro k st hidx hpath hsound
    have hrest : ∀ j crew', rest[j]? = some crew' →
        (c.slotRoster (slotAt p s))[k + 1 + j]? = some crew' := by
      intro j crew' hj
      have := hidx (j + 1) crew' (by simpa using hj)
      rwa [show k + (j + 1) = k + 1 + j by omega] at this
    simp only [scanSlot, ne_eq, hne, not_false_eq_true, true_and, if_false]
    by_cases hprune : d ≤ k ∧ crew.score < minScore
    · rw [if_pos hprune]
      exact ⟨hsound, fun _ => frame_refl _ _ _ _⟩
    rw [if_neg hprune]
    by_cases hoob : st.maxDepth ≤ t
    · rw [if_pos hoob]
      exact ⟨sound_of_eq hsound rfl rfl rfl, fun h => by simp at h⟩
    rw [if_neg hoob]
    by_cases hused : st.crewConsidered crew.original t = true
    · rw [if_pos hused]
      exact ih (k + 1) st hrest hpath hsound
    rw [if_neg hused]
    have hscan : Scanned c minScore d (slotAt p s) crew := by
      refine ⟨k, by simpa using hidx 0 crew (by simp), ?_⟩
      by_cases hk : k < d
      · exact Or.inl hk
      · right
        by_contra hlt
        exact hprune ⟨not_lt.1 hk, not_le.1 hlt⟩
    have hpath' := pathInv_extend hpath hused hscan
    have hsound' : Sound c minScore Q
        ((st.setConsidered t (slotAt p s) crew).setCrewConsidered crew.original t true) :=
      sound_of_eq hsound rfl rfl rfl
    generalize hsa :
      (st.setConsidered t (slotAt p s) crew).setCrewConsidered crew.original t true = sta
      at hpath' hsound'
    -- the recursive call, or the evaluation at the last slot
    have hstep : Sound c minScore Q
          (if slotAt p s < c.SLOT_COUNT - 1 then recurse t sta else evaluate c d t sta)
        ∧ ((if slotAt p s < c.SLOT_COUNT - 1 then recurse t sta else evaluate c d t sta).fault
              = none →
            Frame s sta
              (if slotAt p s < c.SLOT_COUNT - 1 then recurse t sta else evaluate c d t sta)
              t (p + 1)) := by
      by_cases hlast : slotAt p s < c.SLOT_COUNT - 1
      · rw [if_pos hlast]
        exact hrec sta hpath' hsound'
      · rw [if_neg hlast]
        have hpN : p + 1 = c.SLOT_COUNT := by
          unfold slotAt at hlast hslot
          split_ifs at hlast hslot <;> omega
        have hcd := pathInv_complete c minScore d s sta t hs (hpN ▸ hpath')
        refine ⟨evaluate_sound c minScore Q d t sta hsound' (fun _ => hcd)
          (fun hnone => absurd hnone (completeDistinct_deref hcd)), fun _ => ?_⟩
        · obtain ⟨h1, h2, h3⟩ := evaluate_frame c d t sta
          exact ⟨h1, h2, fun t' slot _ => by rw [h3]⟩
    generalize (if slotAt p s < c.SLOT_COUNT - 1 then recurse t sta else evaluate c d t sta) = stb
      at hstep
    obtain ⟨hsb, hfb⟩ := hstep
    by_cases hfault : stb.fault.isSome = true
    · rw [if_pos hfault]
      refine ⟨hsb, fun h => ?_⟩
      rw [h] at hfault
      simp at hfault
    rw [if_neg hfault]
    have hnone : stb.fault = none := by
      cases hf : stb.fault with
      | none => rfl
      | some f => rw [hf] at hfault; simp at hfault
    have hframe : Frame s st (stb.setCrewConsidered crew.original t false) t p := by
      apply frame_after_unmark hused
      rw [hsa]
      exact hfb hnone
    obtain ⟨h1, h2⟩ := ih (k + 1) (stb.setCrewConsidered crew.original t false) hrest
      (pathInv_of_frame hpath hframe) (sound_of_eq hsb rfl rfl rfl)
    exact ⟨h1, fun h => frame_trans hframe (h2 h)⟩

/-- The search from a position `p >= 1` keeps what was evaluated and accepted sound,
and when it returns without a fault it has restored the in-use marks and left the
earlier entries of the working tree alone. -/
theorem fillSlot_inner (c : VoyageCalculator) (minScore : Nat) (Q : Prop) (d s : Nat)
    (hs : s < c.SLOT_COUNT) :
    ∀ (fuel p t : Nat) (st : SearchState), 1 ≤ p →
      PathInv c minScore d s st t p → Sound c minScore Q st →
      Sound c minScore Q (fillSlot c minScore d s fuel p t st)
      ∧ ((fillSlot c minScore d s fuel p t st).fault = none →
          Frame s st (fillSlot c minScore d s fuel p t st) t p) := by
  intro fuel
  induction fuel with
  | zero =>
    intro p t st _ _ hsound
    simp only [fillSlot]
    split_ifs with h
    · exact ⟨hsound, fun _ => frame_refl _ _ _ _⟩
    · exact ⟨sound_of_eq hsound rfl rfl rfl, fun h => by simp at h⟩
  | succ fuel ih =>
    intro p t st hp hpath hsound
    simp only [fillSlot]
    split_ifs with h1 h2
    · exact ⟨hsound, fun _ => frame_refl _ _ _ _⟩
    · exact ⟨sound_of_eq hsound rfl rfl rfl, fun h => by simp at h⟩
    · exact scanSlot_inner c minScore Q d s p t hp hs (not_le.1 h2) _
        (fun st1 hp1 hs1 => ih (p + 1) t st1 (by omega) hp1 hs1)
        _ 0 st (fun j crew hj => by rw [Nat.zero_add]; exact hj) hpath hsound

/-- The scan of the seed slot at position 0, given the property of the recursive
call. -/
theorem scanSlot_seed (c : VoyageCalculator) (minScore d s : Nat)
    (Q : Prop) (hQ : s ≠ 0 → s + 1 = c.SLOT_COUNT → Q)
    (hs : s < c.SLOT_COUNT) (recurse : Nat → SearchState → SearchState)
    (hrec : ∀ t st1, PathInv c minScore d s st1 t 1 → Sound c minScore Q st1 →
      Sound c minScore Q (recurse t st1)
      ∧ ((recurse t st1).fault = none → Frame s st1 (recurse t st1) t 1)) :
    ∀ (cands : List Crew) (k thread : Nat) (st : SearchState),
      (∀ j crew, cands[j]? = some crew → (c.slotRoster s)[k + j]? = some crew) →
      Sound c minScore Q st → SeedInv c s st →
      Sound c minScore Q (scanSlot c minScore d s s recurse cands k thread st)
      ∧ ((scanSlot c minScore d s s recurse cands k thread st).fault = none →
          SeedInv c s (scanSlot c minScore d s s recurse cands k thread st)) := by
  intro cands
  induction cands with
  | nil =>
    intro k thread st _ hsound hseed
    exact ⟨hsound, fun _ => hseed⟩
  | cons crew rest ih =>
    intro k thread st hidx hsound hseed
    have hrest : ∀ j crew', rest[j]? = some crew' →
        (c.slotRoster s)[k + 1 + j]? = some crew' := by
      intro j crew' hj
      have := hidx (j + 1) crew' (by simpa using hj)
      rwa [show k + (j + 1) = k + 1 + j by omega] at this
    have hk : (c.slotRoster s)[k]? = some crew := by simpa using hidx 0 crew (by simp)
    simp only [scanSlot, ne_eq, not_true_eq_false, false_and, if_false, if_true]
    by_cases hprune : d ≤ k ∧ crew.score < minScore
    · rw [if_pos hprune]
      exact ⟨hsound, fun _ => hseed⟩
    rw [if_neg hprune]
    by_cases hoob : st.maxDepth ≤ k
    · rw [if_pos hoob]
      exact ⟨sound_of_eq hsound rfl rfl rfl, fun h => by simp at h⟩
    rw [if_neg hoob]
    have hscan : Scanned c minScore d s crew := by
      refine ⟨k, hk, ?_⟩
      by_cases hkd : k < d
      · exact Or.inl hkd
      · right
        by_contra hlt
        exact hprune ⟨not_lt.1 hkd, not_le.1 hlt⟩
    have hmark : ∀ a t,
        ((st.setConsidered k s crew).setCrewConsidered crew.original k true).crewConsidered a t
          = true →
        ∃ crew', (c.slotRoster s)[t]? = some crew' ∧ crew'.original = a := by
      intro a t hm
      rw [crewConsidered_setCrewConsidered, crewConsidered_setConsidered] at hm
      by_cases hx : a = crew.original ∧ t = k
      · obtain ⟨rfl, rfl⟩ := hx
        exact ⟨crew, hk, rfl⟩
      · rw [if_neg hx] at hm
        exact hseed.1 a t hm
    have hpath' : PathInv c minScore d s
        ((st.setConsidered k s crew).setCrewConsidered crew.original k true) k 1 := by
      have h0 : slotAt 0 s = s := (slotAt_eq_seed 0 s).2 rfl
      have hnew : ((st.setConsidered k s crew).setCrewConsidered crew.original k
          true).considered k s = some crew := by
        simp [considered_setCrewConsidered, considered_setConsidered]
      refine ⟨?_, ?_, ?_⟩
      · intro q hq
        have : q = 0 := by omega
        subst this
        rw [h0]
        exact ⟨crew, hnew, by simp [crewConsidered_setCrewConsidered], hscan⟩
      · intro a hm
        obtain ⟨crew', h1, h2⟩ := hmark a k hm
        rw [hk] at h1
        simp only [Option.some.injEq] at h1
        subst h1
        exact ⟨0, by omega, crew, by rw [h0]; exact hnew, h2⟩
      · intro q q' _ _ hq hq' _ _ _
        omega
    have hsound' : Sound c minScore Q
        ((st.setConsidered k s crew).setCrewConsidered crew.original k true) :=
      sound_of_eq hsound rfl rfl rfl
    have hzero : s ≠ 0 → s + 1 = c.SLOT_COUNT → ∀ t,
        ((st.setConsidered k s crew).setCrewConsidered crew.original k true).considered t 0
          = none := by
      intro h0 hN t
      have := hseed.2 h0 hN t
      rw [considered_setCrewConsidered, considered_setConsidered,
        if_neg (fun h => h0 h.2.symm)]
      exact this
    generalize hsa : (st.setConsidered k s crew).setCrewConsidered crew.original k true = sta
      at hpath' hsound' hmark hzero
    have hstep : Sound c minScore Q
          (if s < c.SLOT_COUNT - 1 then recurse k sta else evaluate c d k sta)
        ∧ ((if s < c.SLOT_COUNT - 1 then recurse k sta else evaluate c d k sta).fault = none →
            SeedInv c s (if s < c.SLOT_COUNT - 1 then recurse k sta else evaluate c d k sta)) := by
      by_cases hlast : s < c.SLOT_COUNT - 1
      · rw [if_pos hlast]
        obtain ⟨h1, h2⟩ := hrec k sta hpath' hsound'
        refine ⟨h1, fun hnf => ⟨?_, fun _ hN => by omega⟩⟩
        intro a t hm
        rw [(h2 hnf).2.1] at hm
        exact hmark a t hm
      · rw [if_neg hlast]
        have hN : s + 1 = c.SLOT_COUNT := by omega
        by_cases h0 : s = 0
        · have h1 : c.SLOT_COUNT = 1 := by omega
          have hcd : CompleteDistinct c minScore d
              ((List.range c.SLOT_COUNT).map (sta.considered k)) := by
            apply pathInv_complete c minScore d s sta k hs
            rw [h1]; exact hpath'
          refine ⟨evaluate_sound c minScore Q d k sta hsound' (fun _ => hcd)
            (fun hnone => absurd hnone (completeDistinct_deref hcd)), fun _ => ⟨?_, ?_⟩⟩
          · intro a t hm
            rw [(evaluate_frame c d k sta).2.1] at hm
            exact hmark a t hm
          · intro h; exact absurd h0 h
        · have hnull : deref ((List.range c.SLOT_COUNT).map (sta.considered k)) = none := by
            apply deref_eq_none_of_mem
            rw [List.mem_map]
            exact ⟨0, List.mem_range.2 (by omega), hzero h0 hN k⟩
          refine ⟨evaluate_sound c minScore Q d k sta hsound' (fun h => absurd hnull h)
            (fun _ => hQ h0 hN), ?_⟩
          intro hnf
          rw [evaluate_fault_of_null c d k sta hnull] at hnf
          simp at hnf
    generalize (if s < c.SLOT_COUNT - 1 then recurse k sta else evaluate c d k sta) = stb
      at hstep
    obtain ⟨hsb, hfb⟩ := hstep
    by_cases hfault : stb.fault.isSome = true
    · rw [if_pos hfault]
      refine ⟨hsb, fun h => ?_⟩
      rw [h] at hfault
      simp at hfault
    rw [if_neg hfault]
    have hnone : stb.fault = none := by
      cases hf : stb.fault with
      | none => rfl
      | some f => rw [hf] at hfault; simp at hfault
    exact ih (k + 1) k stb hrest hsb (hfb hnone)

/-- One search from position 0 keeps what was evaluated and accepted sound, whatever the
seed slot. -/
theorem fillSlot_seed (c : VoyageCalculator) (minScore d s : Nat)
    (Q : Prop) (hQ : s ≠ 0 → s + 1 = c.SLOT_COUNT → Q) (fuel thread : Nat) (st : SearchState) (hsound : Sound c minScore Q st)
    (hseed : st.fault = none → SeedInv c s st) :
    Sound c minScore Q (fillSlot c minScore d s fuel 0 thread st)
    ∧ ((fillSlot c minScore d s fuel 0 thread st).fault = none →
        SeedInv c s (fillSlot c minScore d s fuel 0 thread st)) := by
  cases fuel with
  | zero =>
    simp only [fillSlot]
    split_ifs with h
    · exact ⟨hsound, hseed⟩
    · exact ⟨sound_of_eq hsound rfl rfl rfl, fun h => by simp at h⟩
  | succ fuel =>
    simp only [fillSlot]
    have h0 : slotAt 0 s = s := (slotAt_eq_seed 0 s).2 rfl
    rw [h0]
    split_ifs with h1 h2
    · exact ⟨hsound, hseed⟩
    · exact ⟨sound_of_eq hsound rfl rfl rfl, fun h => by simp at h⟩
    · have hnone : st.fault = none := by
        cases hf : st.fault with
        | none => rfl
        | some f => rw [hf] at h1; simp at h1
      exact scanSlot_seed c minScore d s Q hQ (not_le.1 h2) _
        (fun t st1 hp1 hs1 => fillSlot_inner c minScore Q d s (not_le.1 h2) fuel 1 t st1
          (le_refl _) hp1 hs1)
        _ 0 thread st (fun j crew hj => by rw [Nat.zero_add]; exact hj) hsound (hseed hnone)

theorem depthSweep_sound (c : VoyageCalculator) (minScore s : Nat) :
    ∀ (remaining d : Nat) (st : SearchState),
      Sound c minScore (s ≠ 0 ∧ s + 1 = c.SLOT_COUNT) st →
      (st.fault = none → SeedInv c s st) →
      Sound c minScore (s ≠ 0 ∧ s + 1 = c.SLOT_COUNT)
        (depthSweep c minScore s remaining d st) := by
  intro remaining
  induction remaining with
  | zero => intro d st h _; exact h
  | succ remaining ih =>
    intro d st hsound hseed
    obtain ⟨h1, h2⟩ := fillSlot_seed c minScore d s _ (fun h0 hN => ⟨h0, hN⟩)
      (c.SLOT_COUNT + 1) 0 st hsound hseed
    simp only [depthSweep]
    generalize fillSlot c minScore d s (c.SLOT_COUNT + 1) 0 0 st = st1 at h1 h2
    have hs1 : Sound c minScore (s ≠ 0 ∧ s + 1 = c.SLOT_COUNT)
        { st1 with sweeps := st1.sweeps ++ [⟨d, minScore, s, st1.bestscore⟩] } :=
      sound_of_eq h1 rfl rfl rfl
    split_ifs
    · exact hs1
    · exact ih (d + 1) { st1 with sweeps := st1.sweeps ++ [⟨d, minScore, s, st1.bestscore⟩] }
        hs1 h2

theorem initialState_sound (c : VoyageCalculator) (minScore s maxDepth : Nat) (Q : Prop) :
    Sound c minScore Q (initialState c maxDepth) ∧ SeedInv c s (initialState c maxDepth) :=
  ⟨⟨by simp [initialState], by simp [initialState], by simp [initialState], rfl⟩,
   ⟨by simp [initialState, SearchState.crewConsidered], fun _ _ _ => rfl⟩⟩

theorem calculate_sound (c : VoyageCalculator) :
    Sound c ((minScore c).getD 0)
      ((deepestSlot c ((minScore c).getD 0)).1 ≠ 0
        ∧ (deepestSlot c ((minScore c).getD 0)).1 + 1 = c.SLOT_COUNT)
      (calculate c) := by
  cases hm : minScore c with
  | none =>
    simp only [calculate, hm]
    exact sound_of_eq (initialState_sound c 0 0 0 _).1 rfl rfl rfl
  | some ms =>
    simp only [calculate, hm, Option.getD_some]
    exact depthSweep_sound c ms (deepestSlot c ms).1 _ _ _ (initialState_sound c ms 0 _ _).1
      (fun _ => (initialState_sound c ms _ _ True).2)

theorem evaluate_bestTracks (c : VoyageCalculator) (d thread : Nat) (st : SearchState)
    (h : BestTracks c st) : BestTracks c (evaluate c d thread st) := by
  unfold evaluate
  dsimp only
  split
  · exact h
  · split_ifs
    · exact Or.inr ⟨_, List.getLast?_concat _, rfl⟩
    · exact h

theorem fillSlot_bestTracks (c : VoyageCalculator) (minScore minDepth seedSlot fuel iSlot
    thread : Nat) (st : SearchState) (h : BestTracks c st) :
    BestTracks c (fillSlot c minScore minDepth seedSlot fuel iSlot thread st) :=
  fillSlot_preserves c (BestTracks c) (fun _ _ _ _ h => h) (fun _ _ _ _ h => h)
    (fun _ _ h => h) minScore minDepth (fun st' t h => evaluate_bestTracks c minDepth t st' h)
    _ _ _ _ _ h

theorem depthSweep_bestTracks (c : VoyageCalculator) (minScore s : Nat) :
    ∀ (remaining d : Nat) (st : SearchState), BestTracks c st →
      BestTracks c (depthSweep c minScore s remaining d st) := by
  intro remaining
  induction remaining with
  | zero => intro d st h; exact h
  | succ remaining ih =>
    intro d st h
    have h1 := fillSlot_bestTracks c minScore d s (c.SLOT_COUNT + 1) 0 0 st h
    simp only [depthSweep]
    generalize fillSlot c minScore d s (c.SLOT_COUNT + 1) 0 0 st = st1 at h1
    have h2 : BestTracks c
        { st1 with sweeps := st1.sweeps ++ [⟨d, minScore, s, st1.bestscore⟩] } := h1
    split_ifs
    · exact h2
    · exact ih _ _ h2

theorem calculate_bestTracks (c : VoyageCalculator) : BestTracks c (calculate c) := by
  have h0 : ∀ m, BestTracks c (initialState c m) := fun m => Or.inl ⟨rfl, rfl, rfl⟩
  cases hm : minScore c with
  | none =>
    simp only [calculate, hm]
    exact h0 0
  | some ms =>
    simp only [calculate, hm]
    exact depthSweep_bestTracks c ms _ _ _ _ (h0 _)

/-- C1. Whatever the pool, the slots, the search depth and the seed slot, every
complement that `fillSlot` stores into `bestconsidered` during the depth sweep of
`calculate` has one non-null entry per slot and `SLOT_COUNT` pairwise distinct
underlying roster entries, and the sanity scan never reports a duplicate. -/
theorem accepted_pairwise_distinct (c : VoyageCalculator) (minScore seedSlot maxDepth : Nat) :
    ((∀ e ∈ (depthSweep c minScore seedSlot (MAX_SCAN_DEPTH - MIN_SCAN_DEPTH) MIN_SCAN_DEPTH
            (initialState c maxDepth)).accepted,
        ∃ crews : List Crew, e.crewToConsider = crews.map some
          ∧ crews.length = c.SLOT_COUNT ∧ (crews.map Crew.original).Nodup)
      ∧ (depthSweep c minScore seedSlot (MAX_SCAN_DEPTH - MIN_SCAN_DEPTH) MIN_SCAN_DEPTH
            (initialState c maxDepth)).dupeErrors = 0)
    ∧ ((∀ e ∈ (calculate c).accepted,
        ∃ crews : List Crew, e.crewToConsider = crews.map some
          ∧ crews.length = c.SLOT_COUNT ∧ (crews.map Crew.original).Nodup)
      ∧ (calculate c).dupeErrors = 0
      ∧ ((calculate c).bestconsidered = c.bestconsidered
          ∨ ∃ crews : List Crew, (calculate c).bestconsidered = crews.map some
              ∧ crews.length = c.SLOT_COUNT ∧ (crews.map Crew.original).Nodup)) := by
  have hsweep := depthSweep_sound c minScore seedSlot (MAX_SCAN_DEPTH - MIN_SCAN_DEPTH)
    MIN_SCAN_DEPTH (initialState c maxDepth) (initialState_sound c minScore 0 _ _).1
    (fun _ => (initialState_sound c minScore _ _ True).2)
  have hcalc := calculate_sound c
  refine ⟨⟨?_, hsweep.no_dupe⟩, ?_, hcalc.no_dupe, ?_⟩
  · intro e he
    obtain ⟨crews, h1, h2, h3, _⟩ := hsweep.accepted_ok e he
    exact ⟨crews, h1, h2, h3⟩
  · intro e he
    obtain ⟨crews, h1, h2, h3, _⟩ := hcalc.accepted_ok e he
    exact ⟨crews, h1, h2, h3⟩
  · rcases calculate_bestTracks c with h | ⟨e, he, hb⟩
    · exact Or.inl h.2.1
    · right
      obtain ⟨crews, h1, h2, h3, _⟩ := hcalc.accepted_ok e (List.mem_of_getLast?_eq_some he)
      exact ⟨crews, hb.trans h1, h2, h3⟩

theorem accepted_pairwise_distinct_witness :
    ((calculate zeroSkillCalc).accepted.map
        (fun e => e.crewToConsider.map (fun o => o.map Crew.original)))
      = [[some 0, some 5, some 2, some 3, some 4, some 1]]
    ∧ (calculate zeroSkillCalc).dupeErrors = 0 :=
  ⟨by decide!, (accepted_pairwise_distinct zeroSkillCalc 5 0 2).2.2.1⟩

/-- The evaluator receives a complement with a null entry only when the seed slot is the
last of several slots. -/
theorem evaluated_complete_unless_seed_last (c : VoyageCalculator)
    (minScore seedSlot maxDepth : Nat) :
    ∀ e ∈ (depthSweep c minScore seedSlot (MAX_SCAN_DEPTH - MIN_SCAN_DEPTH) MIN_SCAN_DEPTH
        (initialState c maxDepth)).evaluated,
      deref e.crewToConsider = none → seedSlot ≠ 0 ∧ seedSlot + 1 = c.SLOT_COUNT :=
  (depthSweep_sound c minScore seedSlot (MAX_SCAN_DEPTH - MIN_SCAN_DEPTH)
    MIN_SCAN_DEPTH (initialState c maxDepth) (initialState_sound c minScore 0 _ _).1
    (fun _ => (initialState_sound c minScore _ _ True).2)).partial_ok

/-- C2, at the failing input. With three crew members and search depth 2 the last slot
is the seed slot; the first candidate of the seed slot is evaluated at once, with the
five other entries of the working tree still null. -/
theorem seed_last_evaluates_partial :
    minScore seedLastCalc = some 50
    ∧ deepestSlot seedLastCalc 50 = (5, 3)
    ∧ ((calculate seedLastCalc).evaluated.map
          (fun e => e.crewToConsider.map (fun o => o.map Crew.original)))
        = [[none, none, none, none, none, some 0]]
    ∧ (calculate seedLastCalc).fault = some Fault.nullDeref := by
  decide!

/-- C7, at the failing input. With two strong crew members and a weak one every slot
counts two candidates, so two worker states are allocated; the search at depth bound 2
finds nothing, and at depth bound 3 the third candidate of the seed slot becomes
worker 2, outside the allocated states. -/
theorem worker_identity_out_of_bounds :
    minScore narrowCalc = some 60
    ∧ deepestSlot narrowCalc 60 = (0, 2)
    ∧ (fillSlot narrowCalc 60 2 0 7 0 0 (initialState narrowCalc 2)).fault = none
    ∧ (fillSlot narrowCalc 60 2 0 7 0 0 (initialState narrowCalc 2)).bestscore = 0
    ∧ (fillSlot narrowCalc 60 3 0 7 0 0
        (fillSlot narrowCalc 60 2 0 7 0 0 (initialState narrowCalc 2))).fault
        = some Fault.outOfBounds
    ∧ (calculate narrowCalc).fault = some Fault.outOfBounds := by
  decide!

/-! ## Pools with fewer crew members than slots -/

theorem scanned_original_lt (cfg : Config) (calculateDuration : List Crew → Int)
    (minScore d slot : Nat) (crew : Crew)
    (h : Scanned (construct cfg calculateDuration) minScore d slot crew) :
    crew.original < cfg.roster.length := by
  obtain ⟨k, hk, _⟩ := h
  have hmem : crew ∈ rankSlot cfg slot := List.getElem?_mem hk
  obtain ⟨iCrew, crew', hget, rfl⟩ := (mem_rankSlot cfg slot crew).1 hmem
  exact (List.getElem?_eq_some_iff.1 hget).1

theorem not_completeDistinct_of_short_pool (cfg : Config)
    (calculateDuration : List Crew → Int) (minScore d : Nat) (x : List (Option Crew))
    (hshort : cfg.roster.length < cfg.SLOT_COUNT) :
    ¬ CompleteDistinct (construct cfg calculateDuration) minScore d x := by
  rintro ⟨crews, _, hlen, hnodup, hscan⟩
  have hsub : crews.map Crew.original ⊆ List.range cfg.roster.length := by
    intro a ha
    obtain ⟨crew, hmem, rfl⟩ := List.mem_map.1 ha
    obtain ⟨i, hi, rfl⟩ := List.getElem_of_mem hmem
    exact List.mem_range.2 (scanned_original_lt cfg calculateDuration minScore d i _
      (hscan i _ (List.getElem?_eq_getElem hi)))
  have hle := (List.subperm_of_subset hnodup hsub).length_le
  simp only [List.length_map, List.length_range] at hle
  have : (construct cfg calculateDuration).SLOT_COUNT = cfg.SLOT_COUNT := rfl
  omega

/-- C9, as amended. With fewer crew members than slots `calculate` never accepts a
complement and never evaluates a complete one: `bestscore` keeps its initial value,
`bestconsidered` is not written, and at most eight searches are started. -/
theorem short_pool_best_unchanged (cfg : Config) (calculateDuration : List Crew → Int)
    (hshort : cfg.roster.length < cfg.SLOT_COUNT) :
    (calculate (construct cfg calculateDuration)).accepted = []
    ∧ (calculate (construct cfg calculateDuration)).bestscore
        = (construct cfg calculateDuration).bestscore
    ∧ (calculate (construct cfg calculateDuration)).bestconsidered
        = (construct cfg calculateDuration).bestconsidered
    ∧ (∀ e ∈ (calculate (construct cfg calculateDuration)).evaluated,
        deref e.crewToConsider = none)
    ∧ (calculate (construct cfg calculateDuration)).sweeps.length
        ≤ MAX_SCAN_DEPTH - MIN_SCAN_DEPTH := by
  have hsound := calculate_sound (construct cfg calculateDuration)
  have hacc : (calculate (construct cfg calculateDuration)).accepted = [] := by
    apply List.eq_nil_iff_forall_not_mem.2
    intro e he
    exact not_completeDistinct_of_short_pool cfg calculateDuration _ _ _ hshort
      (hsound.accepted_ok e he)
  refine ⟨hacc, ?_, ?_, ?_, calculate_sweeps_length _⟩
  · rcases calculate_bestTracks (construct cfg calculateDuration) with h | ⟨e, he, _⟩
    · exact h.2.2
    · rw [hacc] at he; simp at he
  · rcases calculate_bestTracks (construct cfg calculateDuration) with h | ⟨e, he, _⟩
    · exact h.2.1
    · rw [hacc] at he; simp at he
  · intro e he
    by_contra hne
    exact not_completeDistinct_of_short_pool cfg calculateDuration _ _ _ hshort
      (hsound.evaluated_ok e he hne)

theorem short_pool_best_unchanged_witness :
    (plainCfg 1 [poolCrew 0 [10, 10, 10, 10, 10, 10] []]).roster.length
      < (plainCfg 1 [poolCrew 0 [10, 10, 10, 10, 10, 10] []]).SLOT_COUNT
    ∧ (calculate singleCalc).accepted = []
    ∧ (calculate singleCalc).bestscore = 0 :=
  ⟨by decide,
   (short_pool_best_unchanged (plainCfg 1 [poolCrew 0 [10, 10, 10, 10, 10, 10] []])
      (fun _ => 1) (by decide)).1,
   (short_pool_best_unchanged (plainCfg 1 [poolCrew 0 [10, 10, 10, 10, 10, 10] []])
      (fun _ => 1) (by decide)).2.1⟩

/-- C9 as stated fails. With one crew member for six slots `calculate` runs its eight
searches and returns normally with nothing reported: the best result is the zero-valued,
empty one of a fresh calculator and no other member says that no assignment exists.
With the three crew members of `seedLastPool` the evaluator is called on a complement
with five null entries, with those of `narrowPool` the run leaves the allocated worker
states, and with the empty pool `minScore` is read outside the empty score vector. -/
theorem short_pool_no_signal :
    ((calculate singleCalc).fault = none
      ∧ (calculate singleCalc).bestscore = singleCalc.bestscore
      ∧ (calculate singleCalc).bestscore = 0
      ∧ (calculate singleCalc).bestconsidered = [none, none, none, none, none, none]
      ∧ (calculate singleCalc).evaluated = []
      ∧ (calculate singleCalc).accepted = []
      ∧ (calculate singleCalc).dupeErrors = 0
      ∧ (calculate singleCalc).sweeps.length = 8)
    ∧ (seedLastPool.length < seedLastCalc.SLOT_COUNT
      ∧ (calculate seedLastCalc).evaluated.map (fun e => deref e.crewToConsider) = [none]
      ∧ (calculate seedLastCalc).fault = some Fault.nullDeref)
    ∧ (narrowPool.length < narrowCalc.SLOT_COUNT
      ∧ (calculate narrowCalc).fault = some Fault.outOfBounds)
    ∧ (calculate (construct (plainCfg 1 []) (fun _ => 1))).fault = some Fault.outOfBounds := by
  decide!

/-! ## Crew members without the skill of a slot -/

theorem rankSlot_zero_skill (cfg : Config) (iSlot : Nat) (cand crew : Crew)
    (hcand : cand ∈ rankSlot cfg iSlot) (hcrew : cfg.roster[cand.original]? = some crew)
    (hzero : crew.skills.getD (cfg.slotSkills iSlot) 0 = 0) : cand.score = 0 := by
  obtain ⟨iCrew, crew', hget, rfl⟩ := (mem_rankSlot cfg iSlot cand).1 hcand
  have : crew' = crew := by
    have h := hget.symm.trans hcrew
    simpa using h
  subst this
  show computeScore cfg crew' (cfg.slotSkills iSlot) (cfg.slotTraits iSlot) = 0
  unfold computeScore
  rw [if_pos hzero]

theorem accepted_entry_scanned (c : VoyageCalculator) (e : Evaluation) (iSlot : Nat)
    (cand : Crew) (he : e ∈ (calculate c).accepted)
    (hcand : e.crewToConsider[iSlot]? = some (some cand)) :
    ∃ ms, minScore c = some ms ∧ Scanned c ms e.minDepth iSlot cand := by
  have hsound := calculate_sound c
  cases hm : minScore c with
  | none =>
    have : (calculate c).accepted = [] := by simp [calculate, hm, initialState]
    rw [this] at he
    simp at he
  | some ms =>
    rw [hm] at hsound
    obtain ⟨crews, h1, _, _, h4⟩ := hsound.accepted_ok e he
    rw [h1, List.getElem?_map] at hcand
    cases hc : crews[iSlot]? with
    | none => rw [hc] at hcand; simp at hcand
    | some crew =>
      rw [hc] at hcand
      simp only [Option.map_some', Option.some.injEq] at hcand
      subst hcand
      exact ⟨ms, rfl, h4 iSlot crew hc⟩

theorem evaluate_accepted_depth (c : VoyageCalculator) (lo hi d thread : Nat)
    (st : SearchState) (hd : lo ≤ d ∧ d ≤ hi)
    (h : ∀ e ∈ st.accepted, lo ≤ e.minDepth ∧ e.minDepth ≤ hi) :
    ∀ e ∈ (evaluate c d thread st).accepted, lo ≤ e.minDepth ∧ e.minDepth ≤ hi := by
  unfold evaluate
  dsimp only
  split
  · exact h
  · split_ifs
    · intro e he
      rcases List.mem_append.1 he with he | he
      · exact h e he
      · simp only [List.mem_singleton] at he
        subst he
        exact hd
    · exact h

theorem depthSweep_accepted_depth (c : VoyageCalculator) (minScore s lo hi : Nat) :
    ∀ (remaining d : Nat) (st : SearchState), lo ≤ d → d + remaining ≤ hi + 1 →
      (∀ e ∈ st.accepted, lo ≤ e.minDepth ∧ e.minDepth ≤ hi) →
      ∀ e ∈ (depthSweep c minScore s remaining d st).accepted,
        lo ≤ e.minDepth ∧ e.minDepth ≤ hi := by
  intro remaining
  induction remaining with
  | zero => intro d st _ _ h; exact h
  | succ remaining ih =>
    intro d st hlo hhi h
    have h1 := fillSlot_preserves c
      (fun st' => ∀ e ∈ st'.accepted, lo ≤ e.minDepth ∧ e.minDepth ≤ hi)
      (fun _ _ _ _ h => h) (fun _ _ _ _ h => h) (fun _ _ h => h) minScore d
      (fun st' t h => evaluate_accepted_depth c lo hi d t st' ⟨hlo, by omega⟩ h)
      s (c.SLOT_COUNT + 1) 0 0 st h
    simp only [depthSweep]
    generalize fillSlot c minScore d s (c.SLOT_COUNT + 1) 0 0 st = st1 at h1
    split_ifs
    · exact h1
    · exact ih (d + 1) _ (by omega) (by omega) h1

theorem calculate_accepted_depth (c : VoyageCalculator) :
    ∀ e ∈ (calculate c).accepted, MIN_SCAN_DEPTH ≤ e.minDepth ∧ e.minDepth < MAX_SCAN_DEPTH := by
  cases hm : minScore c with
  | none => simp [calculate, hm, initialState]
  | some ms =>
    simp only [calculate, hm]
    intro e he
    have := depthSweep_accepted_depth c ms (deepestSlot c ms).1 MIN_SCAN_DEPTH
      (MAX_SCAN_DEPTH - 1) (MAX_SCAN_DEPTH - MIN_SCAN_DEPTH) MIN_SCAN_DEPTH
      (initialState c (deepestSlot c ms).2) (le_refl _) (by decide)
      (by simp [initialState]) e he
    have h10 : MAX_SCAN_DEPTH = 10 := rfl
    omega

/-- C10, as amended. A crew member whose value in the skill of slot `iSlot` is 0 has a
candidate of score 0 in the ranked list of the slot, behind every candidate with a
positive score; it is the entry of that slot in an accepted complement only if
`minScore` is 0 or its index in the ranked list is below the depth bound of the search
that accepted the complement (a bound between `MIN_SCAN_DEPTH` and
`MAX_SCAN_DEPTH - 1`). -/
theorem zero_skill_candidate (cfg : Config) (calculateDuration : List Crew → Int)
    (iSlot : Nat) (cand crew : Crew)
    (hcand : cand ∈ (construct cfg calculateDuration).slotRoster iSlot)
    (hcrew : cfg.roster[cand.original]? = some crew)
    (hzero : crew.skills.getD (cfg.slotSkills iSlot) 0 = 0) :
    cand.score = 0
    ∧ (∀ (k k' : Nat) (other : Crew),
        ((construct cfg calculateDuration).slotRoster iSlot)[k]? = some other →
        0 < other.score →
        ((construct cfg calculateDuration).slotRoster iSlot)[k']? = some cand → k < k')
    ∧ (∀ e ∈ (calculate (construct cfg calculateDuration)).accepted,
        e.crewToConsider[iSlot]? = some (some cand) →
        MIN_SCAN_DEPTH ≤ e.minDepth ∧ e.minDepth < MAX_SCAN_DEPTH
        ∧ (minScore (construct cfg calculateDuration) = some 0
          ∨ ∃ k, k < e.minDepth
              ∧ ((construct cfg calculateDuration).slotRoster iSlot)[k]? = some cand)) := by
  have hscore : cand.score = 0 := rankSlot_zero_skill cfg iSlot cand crew hcand hcrew hzero
  refine ⟨hscore, ?_, ?_⟩
  · intro k k' other hk hpos hk'
    by_contra hnot
    have hle : k' ≤ k := not_lt.1 hnot
    rcases Nat.lt_or_eq_of_le hle with hlt | heq
    · have := rankSlot_score_le cfg iSlot k' k cand other hlt hk' hk
      omega
    · subst heq
      rw [hk] at hk'
      simp only [Option.some.injEq] at hk'
      subst hk'
      omega
  · intro e he hplaced
    have hdepth := calculate_accepted_depth _ e he
    obtain ⟨ms, hms, k, hk, hor⟩ :=
      accepted_entry_scanned (construct cfg calculateDuration) e iSlot cand he hplaced
    refine ⟨hdepth.1, hdepth.2, ?_⟩
    rcases hor with hlt | hge
    · exact Or.inr ⟨k, hlt, hk⟩
    · left
      rw [hms]
      congr
      omega

theorem zero_skill_candidate_witness :
    lowSkillCandidate ∈ lowSkillCalc.slotRoster 5
    ∧ (plainCfg 1 lowSkillPool).roster[lowSkillCandidate.original]?
        = some (poolCrew 0 [10, 0, 0, 0, 0, 0] [])
    ∧ (poolCrew 0 [10, 0, 0, 0, 0, 0] []).skills.getD ((plainCfg 1 lowSkillPool).slotSkills 5) 0
        = 0
    ∧ lowSkillCandidate.score = 0
    ∧ (∀ e ∈ (calculate lowSkillCalc).accepted,
        e.crewToConsider[5]? = some (some lowSkillCandidate) →
        MIN_SCAN_DEPTH ≤ e.minDepth ∧ e.minDepth < MAX_SCAN_DEPTH
        ∧ (minScore lowSkillCalc = some 0
          ∨ ∃ k, k < e.minDepth ∧ (lowSkillCalc.slotRoster 5)[k]? = some lowSkillCandidate)) :=
  ⟨by decide!, by decide, by decide,
   (zero_skill_candidate (plainCfg 1 lowSkillPool)
      (fun complement =>
        microHours (calculateDuration exactNumerics (plainCfg 1 lowSkillPool) complement)) 5
      lowSkillCandidate (poolCrew 0 [10, 0, 0, 0, 0, 0] []) (by decide!)
      (by decide) (by decide)).1,
   (zero_skill_candidate (plainCfg 1 lowSkillPool)
      (fun complement =>
        microHours (calculateDuration exactNumerics (plainCfg 1 lowSkillPool) complement)) 5
      lowSkillCandidate (poolCrew 0 [10, 0, 0, 0, 0, 0] []) (by decide!)
      (by decide) (by decide)).2.2⟩

/-- C10 as stated fails. Crew member 0 of `lowSkillPool` has no value in skill 5, the
skill of slot 5; its candidate is the second one of that slot, with score 0, behind the
only candidate with a positive score. Every skill has a positive total over the pool, and
the duration of the source for the six crew members is about 1.996 hours. The search at
depth bound 2 (with `minScore` 10) scans the second candidate of slot 5 and stores crew
member 0 in slot 5 of the complement it accepts. -/
theorem zero_skill_accepted :
    (plainCfg 1 lowSkillPool).roster[0]? = some (poolCrew 0 [10, 0, 0, 0, 0, 0] [])
    ∧ (poolCrew 0 [10, 0, 0, 0, 0, 0] []).skills.getD ((plainCfg 1 lowSkillPool).slotSkills 5) 0
        = 0
    ∧ minScore lowSkillCalc = some 10
    ∧ ((lowSkillCalc.slotRoster 5).map (fun cand => (cand.original, cand.score)))
        = [(5, 12), (0, 0), (1, 0), (2, 0), (3, 0), (4, 0)]
    ∧ (lowSkillCalc.slotRoster 5)[1]? = some lowSkillCandidate
    ∧ (calculate lowSkillCalc).fault = none
    ∧ ((calculate lowSkillCalc).accepted.map (fun e =>
          (e.minDepth, e.crewToConsider.map (fun o => o.map Crew.original))))
        = [(2, [some 5, some 1, some 2, some 3, some 4, some 0])]
    ∧ ((calculate lowSkillCalc).bestconsidered.map (fun o => o.map Crew.original))
        = [some 5, some 1, some 2, some 3, some 4, some 0]
    ∧ (calculate lowSkillCalc).bestconsidered[5]? = some (some lowSkillCandidate)
    ∧ (computeTotals (plainCfg 1 lowSkillPool)
          ((deref (calculate lowSkillCalc).bestconsidered).getD [])).skills
        = [11, 11, 11, 11, 11, 7]
    ∧ (calculate lowSkillCalc).bestscore = 1996490 := by
  decide!
/-! ## The best-update step -/

theorem evaluate_best (c : VoyageCalculator) (minDepth thread : Nat) (st : SearchState)
    (complement : List Crew)
    (h : deref ((List.range c.SLOT_COUNT).map (st.considered thread)) = some complement) :
    (evaluate c minDepth thread st).best
      = bestUpdate st.best complement (c.calculateDuration complement) := by
  have hx := deref_eq_some _ _ h
  simp only [evaluate, h, bestUpdate, SearchState.best]
  split_ifs
  · simp only [hx]
  · rfl

theorem evaluate_best_of_null (c : VoyageCalculator) (minDepth thread : Nat) (st : SearchState)
    (h : deref ((List.range c.SLOT_COUNT).map (st.considered thread)) = none) :
    (evaluate c minDepth thread st).best = st.best := by
  simp only [evaluate, h, SearchState.best]

theorem evaluate_evaluated (c : VoyageCalculator) (minDepth thread : Nat) (st : SearchState) :
    (evaluate c minDepth thread st).evaluated
      = st.evaluated ++ [⟨minDepth, (List.range c.SLOT_COUNT).map (st.considered thread)⟩] := by
  simp only [evaluate]
  split
  · rfl
  · split_ifs <;> rfl

theorem nodup_of_dupePairs_eq_zero (crews : List Crew) (hz : dupePairs crews = 0) :
    (crews.map Crew.original).Nodup := by
  induction crews with
  | nil => simp
  | cons crew rest ih =>
    simp only [dupePairs, Nat.add_eq_zero, List.length_eq_zero, List.filter_eq_nil_iff,
      decide_eq_true_eq] at hz
    simp only [List.map_cons, List.nodup_cons, List.mem_map, not_exists, not_and]
    exact ⟨fun other hmem heq => hz.1 other hmem heq.symm, ih hz.2⟩

theorem dupePairs_pos (crews : List Crew) (h : ¬ (crews.map Crew.original).Nodup) :
    0 < dupePairs crews := by
  by_contra hz
  exact h (nodup_of_dupePairs_eq_zero crews (by omega))

/-- Claim C12 (as amended): a complement without null entries in which two slots hold the
same underlying crew member is reported by the sanity scan but not rejected. When its
duration exceeds `bestscore`, the step counts one error for each of its duplicate pairs
(at least one) and stores the complement and its duration as the best result; when it
does not, the best result and the error count stay as they were. -/
theorem dupe_reported_and_stored (c : VoyageCalculator) (minDepth thread : Nat)
    (st : SearchState) (complement : List Crew)
    (hbuf : deref ((List.range c.SLOT_COUNT).map (st.considered thread)) = some complement)
    (hdupe : ¬ (complement.map Crew.original).Nodup) :
    (c.calculateDuration complement > st.bestscore →
      (evaluate c minDepth thread st).bestconsidered = complement.map some
      ∧ (evaluate c minDepth thread st).bestscore = c.calculateDuration complement
      ∧ (evaluate c minDepth thread st).dupeErrors = st.dupeErrors + dupePairs complement
      ∧ 0 < dupePairs complement)
    ∧ (c.calculateDuration complement ≤ st.bestscore →
      (evaluate c minDepth thread st).bestconsidered = st.bestconsidered
      ∧ (evaluate c minDepth thread st).bestscore = st.bestscore
      ∧ (evaluate c minDepth thread st).dupeErrors = st.dupeErrors) := by
  have hb := evaluate_best c minDepth thread st complement hbuf
  simp only [SearchState.best, bestUpdate] at hb
  constructor
  · intro hgt
    rw [if_pos hgt] at hb
    injection hb with h1 h2 h3
    exact ⟨h1, h2, h3, dupePairs_pos complement hdupe⟩
  · intro hle
    rw [if_neg (not_lt.mpr hle)] at hb
    injection hb with h1 h2 h3
    exact ⟨h1, h2, h3⟩

theorem dupe_reported_and_stored_witness :
    (evaluate zeroSkillCalc 2 0 dupeState).bestconsidered = dupeComplement.map some
    ∧ (evaluate zeroSkillCalc 2 0 dupeState).bestscore = 1
    ∧ (evaluate zeroSkillCalc 2 0 dupeState).dupeErrors = 1 := by
  have h := (dupe_reported_and_stored zeroSkillCalc 2 0 dupeState dupeComplement
    (by decide!) (by decide!)).1 (by decide!)
  refine ⟨h.1, h.2.1, ?_⟩
  rw [h.2.2.1]
  decide!

/-- Claim C12 (as stated) fails: thread 0 of `dupeState` holds a complement in which slots
0 and 1 have the same underlying crew member, its duration 1 exceeds the best score 0,
and the best-update step replaces the best result by it, reporting one error. -/
theorem dupe_complement_accepted :
    deref ((List.range zeroSkillCalc.SLOT_COUNT).map (dupeState.considered 0))
      = some dupeComplement
    ∧ (dupeComplement.map Crew.original) = [0, 0, 1, 2, 3, 4]
    ∧ dupeState.bestscore = 0
    ∧ dupeState.bestconsidered = List.replicate 6 none
    ∧ zeroSkillCalc.calculateDuration dupeComplement = 1
    ∧ (evaluate zeroSkillCalc 2 0 dupeState).bestscore = 1
    ∧ (evaluate zeroSkillCalc 2 0 dupeState).bestconsidered = dupeComplement.map some
    ∧ (evaluate zeroSkillCalc 2 0 dupeState).dupeErrors = 1 := by
  decide!
/-! ## Folding evaluations through the best-update step -/

theorem bestUpdate_bestscore_le (best : BestResult) (complement : List Crew) (score : Int) :
    best.bestscore ≤ (bestUpdate best complement score).bestscore
    ∧ score ≤ (bestUpdate best complement score).bestscore := by
  unfold bestUpdate
  split_ifs with h
  · exact ⟨le_of_lt h, le_refl _⟩
  · exact ⟨le_refl _, not_lt.mp h⟩

/-- The fold keeps the best result as long as no score exceeds it; otherwise it ends with
one of the folded pairs, and its score bounds every score seen. -/
theorem bestFold_spec (evals : List (List Crew × Int)) :
    ∀ best : BestResult,
      best.bestscore ≤ (bestFold best evals).bestscore
      ∧ (∀ p ∈ evals, p.2 ≤ (bestFold best evals).bestscore)
      ∧ ((bestFold best evals = best ∧ ∀ p ∈ evals, p.2 ≤ best.bestscore)
        ∨ ∃ p ∈ evals, (bestFold best evals).bestconsidered = p.1.map some
            ∧ (bestFold best evals).bestscore = p.2 ∧ best.bestscore < p.2) := by
  induction evals with
  | nil =>
    intro best
    exact ⟨le_refl _, by simp, Or.inl ⟨rfl, by simp⟩⟩
  | cons head rest ih =>
    intro best
    have e : bestFold best (head :: rest) = bestFold (bestUpdate best head.1 head.2) rest := rfl
    rw [e]
    obtain ⟨h1, h2, h3⟩ := ih (bestUpdate best head.1 head.2)
    have hu := bestUpdate_bestscore_le best head.1 head.2
    refine ⟨le_trans hu.1 h1, ?_, ?_⟩
    · intro p hp
      rcases List.mem_cons.mp hp with rfl | hp
      · exact le_trans hu.2 h1
      · exact h2 p hp
    · rcases h3 with ⟨heq, hle⟩ | ⟨p, hp, hc, hs, hlt⟩
      · by_cases hgt : head.2 > best.bestscore
        · right
          refine ⟨head, List.mem_cons_self _ _, ?_, ?_, hgt⟩
          · rw [heq]; simp only [bestUpdate, if_pos hgt]
          · rw [heq]; simp only [bestUpdate, if_pos hgt]
        · left
          have hb : bestUpdate best head.1 head.2 = best := by
            simp only [bestUpdate, if_neg hgt]
          rw [hb] at heq hle ⊢
          refine ⟨heq, ?_⟩
          intro p hp
          rcases List.mem_cons.mp hp with rfl | hp
          · exact not_lt.mp hgt
          · exact hle p hp
      · right
        exact ⟨p, List.mem_cons_of_mem _ hp, hc, hs, lt_of_le_of_lt hu.1 hlt⟩

/-- When the fold raises the best score, the result is the first folded pair that has the
final score: every pair before it has a smaller score. -/
theorem bestFold_first (evals : List (List Crew × Int)) :
    ∀ best : BestResult, best.bestscore < (bestFold best evals).bestscore →
      ∃ pre p post, evals = pre ++ p :: post
        ∧ (bestFold best evals).bestconsidered = p.1.map some
        ∧ p.2 = (bestFold best evals).bestscore
        ∧ ∀ q ∈ pre, q.2 < (bestFold best evals).bestscore := by
  induction evals with
  | nil => intro best h; exact absurd h (lt_irrefl _)
  | cons head rest ih =>
    intro best h
    have e : bestFold best (head :: rest) = bestFold (bestUpdate best head.1 head.2) rest := rfl
    rw [e] at h ⊢
    have hu := bestUpdate_bestscore_le best head.1 head.2
    obtain ⟨h1, _, h3⟩ := bestFold_spec rest (bestUpdate best head.1 head.2)
    by_cases hlt : (bestUpdate best head.1 head.2).bestscore
        < (bestFold (bestUpdate best head.1 head.2) rest).bestscore
    · obtain ⟨pre, p, post, hsplit, hc, hs, hpre⟩ := ih _ hlt
      refine ⟨head :: pre, p, post, by rw [hsplit]; rfl, hc, hs, ?_⟩
      intro q hq
      rcases List.mem_cons.mp hq with rfl | hq
      · exact lt_of_le_of_lt hu.2 hlt
      · exact hpre q hq
    · have heq : bestFold (bestUpdate best head.1 head.2) rest = bestUpdate best head.1 head.2 := by
        rcases h3 with ⟨heq, _⟩ | ⟨p, _, _, hs, hp⟩
        · exact heq
        · exact absurd (hs ▸ hp) hlt
      rw [heq] at h ⊢
      have hgt : head.2 > best.bestscore := by
        by_contra hn
        simp only [bestUpdate, if_neg hn] at h
        exact lt_irrefl _ h
      refine ⟨[], head, rest, rfl, ?_, ?_, by simp⟩
      · simp only [bestUpdate, if_pos hgt]
      · simp only [bestUpdate, if_pos hgt]

theorem completed_append (c : VoyageCalculator) (a b : List Evaluation) :
    completed c (a ++ b) = completed c a ++ completed c b := by
  simp only [completed, List.filterMap_append]

theorem bestFold_append (best : BestResult) (a b : List (List Crew × Int)) :
    bestFold best (a ++ b) = bestFold (bestFold best a) b := by
  simp only [bestFold, List.foldl_append]

theorem mem_completed (c : VoyageCalculator) (evals : List Evaluation) (p : List Crew × Int)
    (h : p ∈ completed c evals) :
    p.2 = c.calculateDuration p.1 ∧ ∃ e ∈ evals, e.crewToConsider = p.1.map some := by
  simp only [completed, List.mem_filterMap, Option.map_eq_some'] at h
  obtain ⟨e, he, complement, hd, rfl⟩ := h
  exact ⟨rfl, e, he, deref_eq_some _ _ hd⟩

theorem foldsFrom_refl (c : VoyageCalculator) (st : SearchState) : FoldsFrom c st st :=
  ⟨[], by simp, rfl⟩

theorem foldsFrom_trans (c : VoyageCalculator) (st0 st1 st2 : SearchState)
    (h1 : FoldsFrom c st0 st1) (h2 : FoldsFrom c st1 st2) : FoldsFrom c st0 st2 := by
  obtain ⟨n1, e1, b1⟩ := h1
  obtain ⟨n2, e2, b2⟩ := h2
  refine ⟨n1 ++ n2, ?_, ?_⟩
  · rw [e2, e1, List.append_assoc]
  · rw [b2, b1, completed_append, bestFold_append]

theorem evaluate_foldsFrom (c : VoyageCalculator) (minDepth thread : Nat) (st : SearchState) :
    FoldsFrom c st (evaluate c minDepth thread st) := by
  refine ⟨[⟨minDepth, (List.range c.SLOT_COUNT).map (st.considered thread)⟩],
    evaluate_evaluated c minDepth thread st, ?_⟩
  cases hd : deref ((List.range c.SLOT_COUNT).map (st.considered thread)) with
  | none =>
    rw [evaluate_best_of_null c minDepth thread st hd]
    simp [completed, hd, bestFold]
  | some complement =>
    rw [evaluate_best c minDepth thread st complement hd]
    simp [completed, hd, bestFold]

theorem fillSlot_foldsFrom (c : VoyageCalculator) (minScore minDepth seedSlot : Nat)
    (fuel iSlot thread : Nat) (st : SearchState) :
    FoldsFrom c st (fillSlot c minScore minDepth seedSlot fuel iSlot thread st) := by
  refine fillSlot_preserves c (FoldsFrom c st) ?_ ?_ ?_ minScore minDepth ?_ seedSlot
    fuel iSlot thread st (foldsFrom_refl c st)
  · intro st1 t s crew h; exact h
  · intro st1 a t b h; exact h
  · intro st1 f h; exact h
  · intro st1 t h; exact foldsFrom_trans c _ _ _ h (evaluate_foldsFrom c minDepth t st1)

theorem depthSweep_foldsFrom (c : VoyageCalculator) (minScore s : Nat) :
    ∀ (remaining d : Nat) (st : SearchState),
      FoldsFrom c st (depthSweep c minScore s remaining d st) := by
  intro remaining
  induction remaining with
  | zero => intro d st; exact foldsFrom_refl c st
  | succ remaining ih =>
    intro d st
    have h1 := fillSlot_foldsFrom c minScore d s (c.SLOT_COUNT + 1) 0 0 st
    simp only [depthSweep]
    generalize fillSlot c minScore d s (c.SLOT_COUNT + 1) 0 0 st = st1 at h1
    have h2 : FoldsFrom c st
        { st1 with sweeps := st1.sweeps ++ [⟨d, minScore, s, st1.bestscore⟩] } := h1
    split_ifs
    · exact h2
    · exact foldsFrom_trans c _ _ _ h2 (ih _ _)

theorem calculate_foldsFrom (c : VoyageCalculator) :
    (calculate c).best
      = bestFold ⟨c.bestconsidered, c.bestscore, 0⟩ (completed c (calculate c).evaluated) := by
  cases hm : minScore c with
  | none =>
    simp only [calculate, hm]
    rfl
  | some ms =>
    simp only [calculate, hm]
    obtain ⟨new, he, hb⟩ := depthSweep_foldsFrom c ms (deepestSlot c ms).1
      (MAX_SCAN_DEPTH - MIN_SCAN_DEPTH) MIN_SCAN_DEPTH (initialState c (deepestSlot c ms).2)
    rw [hb, he]
    rfl
/-- Claim C20 (as amended): best-result tracking. For every call of `fillSlot` (so for the
search of every depth bound, and for every part of it), with `new` the evaluations made
during the call: `bestscore` does not decrease; it bounds the duration of every complete
complement evaluated during the call and is either its value before the call or one of
these durations; while it keeps its value `bestconsidered` keeps its value too; once it
has been raised, `bestconsidered` is a complete complement evaluated during the call whose
duration is `bestscore`, namely the first one evaluated with that duration: every complete
complement evaluated before it has a smaller duration, and a later one with an equal
duration does not replace it. For the whole run of `calculate`: either nothing has been
accepted and the best result is the initial one, or `bestconsidered` is a complete
complement that was evaluated, its duration is `bestscore`, and `bestscore` is above its
initial value. -/
theorem best_result_tracking (c : VoyageCalculator) :
    (∀ (minScore minDepth seedSlot fuel iSlot thread : Nat) (st : SearchState),
    ∃ new, (fillSlot c minScore minDepth seedSlot fuel iSlot thread st).evaluated
        = st.evaluated ++ new
      ∧ st.bestscore ≤ (fillSlot c minScore minDepth seedSlot fuel iSlot thread st).bestscore
      ∧ (∀ e ∈ new, ∀ complement, deref e.crewToConsider = some complement →
          c.calculateDuration complement
            ≤ (fillSlot c minScore minDepth seedSlot fuel iSlot thread st).bestscore)
      ∧ ((fillSlot c minScore minDepth seedSlot fuel iSlot thread st).bestscore = st.bestscore
        ∨ ∃ e ∈ new, ∃ complement, deref e.crewToConsider = some complement
            ∧ c.calculateDuration complement
              = (fillSlot c minScore minDepth seedSlot fuel iSlot thread st).bestscore)
      ∧ ((fillSlot c minScore minDepth seedSlot fuel iSlot thread st).bestscore = st.bestscore →
          (fillSlot c minScore minDepth seedSlot fuel iSlot thread st).bestconsidered
            = st.bestconsidered)
      ∧ (st.bestscore < (fillSlot c minScore minDepth seedSlot fuel iSlot thread st).bestscore →
          ∃ pre p post, completed c new = pre ++ p :: post
            ∧ (fillSlot c minScore minDepth seedSlot fuel iSlot thread st).bestconsidered
              = p.1.map some
            ∧ c.calculateDuration p.1
              = (fillSlot c minScore minDepth seedSlot fuel iSlot thread st).bestscore
            ∧ (∀ q ∈ pre, c.calculateDuration q.1
              < (fillSlot c minScore minDepth seedSlot fuel iSlot thread st).bestscore)
            ∧ ∀ q ∈ post, c.calculateDuration q.1
              ≤ (fillSlot c minScore minDepth seedSlot fuel iSlot thread st).bestscore))
    ∧ c.bestscore ≤ (calculate c).bestscore
    ∧ (((calculate c).bestscore = c.bestscore
        ∧ (calculate c).bestconsidered = c.bestconsidered)
      ∨ ∃ e ∈ (calculate c).evaluated, ∃ complement, e.crewToConsider = complement.map some
          ∧ (calculate c).bestconsidered = complement.map some
          ∧ c.calculateDuration complement = (calculate c).bestscore
          ∧ c.bestscore < (calculate c).bestscore) := by
  refine ⟨?_, ?_⟩
  rotate_left
  · have hfold := calculate_foldsFrom c
    obtain ⟨h1, _, h3⟩ := bestFold_spec (completed c (calculate c).evaluated)
      ⟨c.bestconsidered, c.bestscore, 0⟩
    rw [← hfold] at h1 h3
    refine ⟨h1, ?_⟩
    rcases h3 with ⟨heq, _⟩ | ⟨p, hp, hc, hs, hlt⟩
    · left
      exact ⟨congrArg BestResult.bestscore heq, congrArg BestResult.bestconsidered heq⟩
    · right
      obtain ⟨hdur, e, he, hx⟩ := mem_completed c _ p hp
      have hs' : (calculate c).bestscore = p.2 := hs
      exact ⟨e, he, p.1, hx, hc, by rw [← hdur]; exact hs'.symm, by rw [hs']; exact hlt⟩
  intro minScore minDepth seedSlot fuel iSlot thread st
  obtain ⟨new, he, hb⟩ := fillSlot_foldsFrom c minScore minDepth seedSlot fuel iSlot thread st
  generalize fillSlot c minScore minDepth seedSlot fuel iSlot thread st = r at he hb
  have hbs : r.bestscore = (bestFold st.best (completed c new)).bestscore := by
    rw [← hb]; rfl
  have hbc : r.bestconsidered = (bestFold st.best (completed c new)).bestconsidered := by
    rw [← hb]; rfl
  obtain ⟨h1, h2, h3⟩ := bestFold_spec (completed c new) st.best
  have hmem : ∀ e ∈ new, ∀ complement, deref e.crewToConsider = some complement →
      (complement, c.calculateDuration complement) ∈ completed c new := by
    intro e hmem complement hd
    simp only [completed, List.mem_filterMap, Option.map_eq_some']
    exact ⟨e, hmem, complement, hd, rfl⟩
  refine ⟨new, he, ?_, ?_, ?_, ?_, ?_⟩
  · rw [hbs]; exact h1
  · intro e hmem' complement hd
    rw [hbs]
    exact h2 _ (hmem e hmem' complement hd)
  · rcases h3 with ⟨heq, _⟩ | ⟨p, hp, _, hs, _⟩
    · left; rw [hbs, heq]; rfl
    · right
      obtain ⟨hdur, e, hmem', hx⟩ := mem_completed c new p hp
      refine ⟨e, hmem', p.1, ?_, ?_⟩
      · rw [hx]; exact deref_map_some _
      · rw [hbs, hs, hdur]
  · intro heq
    rcases h3 with ⟨heq', _⟩ | ⟨p, _, _, hs, hlt⟩
    · rw [hbc, heq']; rfl
    · rw [hbs, hs] at heq
      exact absurd heq (ne_of_gt hlt)
  · intro hlt
    rw [hbs] at hlt
    obtain ⟨pre, p, post, hsplit, hc, hs, hpre⟩ := bestFold_first (completed c new) st.best hlt
    have hin : ∀ q ∈ completed c new, q.2 = c.calculateDuration q.1 :=
      fun q hq => (mem_completed c new q hq).1
    refine ⟨pre, p, post, hsplit, by rw [hbc]; exact hc, ?_, ?_, ?_⟩
    · rw [hbs, ← hs]
      exact (hin p (by rw [hsplit]; simp)).symm
    · intro q hq
      rw [hbs, ← hin q (by rw [hsplit]; simp [hq])]
      exact hpre q hq
    · intro q hq
      rw [hbs, ← hin q (by rw [hsplit]; simp [hq])]
      exact h2 q (by rw [hsplit]; simp [hq])

/-- Claim C20 (as stated) fails where nothing is accepted: the run of `calculate` on a pool
of one crew member for six slots ends with `bestscore = 0` and a `bestconsidered` of six
null entries, which is no assignment; no complement at all has the duration 0 there,
every duration being 1. -/
theorem best_result_initially_empty :
    (calculate singleCalc).fault = none
    ∧ (calculate singleCalc).bestscore = 0
    ∧ (calculate singleCalc).bestconsidered = List.replicate 6 none
    ∧ deref (calculate singleCalc).bestconsidered = none
    ∧ ∀ complement, singleCalc.calculateDuration complement ≠ (calculate singleCalc).bestscore := by
  have h : (calculate singleCalc).bestscore = 0 := by decide!
  refine ⟨by decide!, h, by decide!, by decide!, ?_⟩
  intro complement
  rw [h]
  show (1 : Int) ≠ 0
  decide
/-! ## Backtracking and the in-use marks -/

theorem fault_none_of_not_isSome (st : SearchState) (h : ¬ st.fault.isSome = true) :
    st.fault = none := by
  cases hf : st.fault with
  | none => rfl
  | some f => rw [hf] at h; simp at h

/-- The scan of a slot other than the seed slot leaves the in-use marks as they were,
when the recursive call does. -/
theorem scanSlot_marks_inner (c : VoyageCalculator) (minScore d s slot : Nat) (hne : slot ≠ s)
    (recurse : Nat → SearchState → SearchState)
    (hrec : ∀ t st, (recurse t st).fault = none →
      (recurse t st).crewConsidered = st.crewConsidered) :
    ∀ (cands : List Crew) (k t : Nat) (st : SearchState),
      (scanSlot c minScore d s slot recurse cands k t st).fault = none →
      (scanSlot c minScore d s slot recurse cands k t st).crewConsidered
        = st.crewConsidered := by
  intro cands
  induction cands with
  | nil => intro k t st _; rfl
  | cons crew rest ih =>
    intro k t st
    simp only [scanSlot, ne_eq, hne, not_false_eq_true, true_and, if_false, if_true]
    by_cases hprune : d ≤ k ∧ crew.score < minScore
    · rw [if_pos hprune]; intro _; rfl
    rw [if_neg hprune]
    by_cases hoob : st.maxDepth ≤ t
    · rw [if_pos hoob]; intro h; simp at h
    rw [if_neg hoob]
    by_cases hused : st.crewConsidered crew.original t = true
    · rw [if_pos hused]; exact ih (k + 1) t st
    rw [if_neg hused]
    have hstep : (if slot < c.SLOT_COUNT - 1
          then recurse t ((st.setConsidered t slot crew).setCrewConsidered crew.original t true)
          else evaluate c d t
            ((st.setConsidered t slot crew).setCrewConsidered crew.original t true)).fault = none →
        (if slot < c.SLOT_COUNT - 1
          then recurse t ((st.setConsidered t slot crew).setCrewConsidered crew.original t true)
          else evaluate c d t
            ((st.setConsidered t slot crew).setCrewConsidered crew.original t true)).crewConsidered
          = ((st.setConsidered t slot crew).setCrewConsidered crew.original t true).crewConsidered := by
      split_ifs
      · exact hrec _ _
      · intro _; exact (evaluate_frame c d t _).2.1
    generalize (if slot < c.SLOT_COUNT - 1
          then recurse t ((st.setConsidered t slot crew).setCrewConsidered crew.original t true)
          else evaluate c d t
            ((st.setConsidered t slot crew).setCrewConsidered crew.original t true)) = stb
      at hstep
    by_cases hfault : stb.fault.isSome = true
    · rw [if_pos hfault]
      intro h
      rw [h] at hfault
      simp at hfault
    rw [if_neg hfault]
    intro h
    rw [ih (k + 1) t _ h]
    funext a t'
    rw [crewConsidered_setCrewConsidered, hstep (fault_none_of_not_isSome stb hfault),
      crewConsidered_setCrewConsidered, crewConsidered_setConsidered]
    by_cases hx : a = crew.original ∧ t' = t
    · obtain ⟨rfl, rfl⟩ := hx
      simp only [and_self, if_true]
      exact (Bool.eq_false_iff.2 hused).symm
    · simp [hx]

/-- A call of `fillSlot` at a position `p >= 1` that returns without a fault leaves the
in-use marks as they were. -/
theorem fillSlot_marks_inner (c : VoyageCalculator) (minScore d s : Nat) :
    ∀ (fuel p t : Nat) (st : SearchState), 1 ≤ p →
      (fillSlot c minScore d s fuel p t st).fault = none →
      (fillSlot c minScore d s fuel p t st).crewConsidered = st.crewConsidered := by
  intro fuel
  induction fuel with
  | zero =>
    intro p t st _
    simp only [fillSlot]
    split_ifs
    · intro _; rfl
    · intro h; simp at h
  | succ fuel ih =>
    intro p t st hp
    simp only [fillSlot]
    split_ifs
    · intro _; rfl
    · intro h; simp at h
    · have hne : slotAt p s ≠ s := fun e => by
        have := (slotAt_eq_seed p s).1 e; omega
      exact scanSlot_marks_inner c minScore d s _ hne _
        (fun t st => ih (p + 1) t st (by omega)) _ 0 t st

/-- The scan of the seed slot leaves one more mark for every candidate it takes: the
mark of thread `k` on the roster entry of candidate `k`. -/
theorem scanSlot_marks_seed (c : VoyageCalculator) (minScore d s : Nat)
    (recurse : Nat → SearchState → SearchState)
    (hrec : ∀ t st, (recurse t st).fault = none →
      (recurse t st).crewConsidered = st.crewConsidered) :
    ∀ (cands : List Crew) (k t : Nat) (st : SearchState),
      (scanSlot c minScore d s s recurse cands k t st).fault = none →
      ∀ a t', (scanSlot c minScore d s s recurse cands k t st).crewConsidered a t' = true ↔
        (st.crewConsidered a t' = true
          ∨ ∃ j crew, cands[j]? = some crew ∧ k + j < scanCount d minScore cands k
              ∧ t' = k + j ∧ crew.original = a) := by
  intro cands
  induction cands with
  | nil =>
    intro k t st _ a t'
    simp [scanSlot]
  | cons crew rest ih =>
    intro k t st
    simp only [scanSlot, ne_eq, not_true_eq_false, false_and, if_false, if_true]
    by_cases hprune : d ≤ k ∧ crew.score < minScore
    · rw [if_pos hprune]
      intro _ a t'
      have e : scanCount d minScore (crew :: rest) k = k := by
        simp only [scanCount, if_pos hprune]
      rw [e]
      constructor
      · intro h; exact Or.inl h
      · rintro (h | ⟨j, _, _, hlt, _⟩)
        · exact h
        · omega
    rw [if_neg hprune]
    have e : scanCount d minScore (crew :: rest) k = scanCount d minScore rest (k + 1) := by
      simp only [scanCount, if_neg hprune]
    rw [e]
    by_cases hoob : st.maxDepth ≤ k
    · rw [if_pos hoob]; intro h; simp at h
    rw [if_neg hoob]
    have hstep : (if s < c.SLOT_COUNT - 1
          then recurse k ((st.setConsidered k s crew).setCrewConsidered crew.original k true)
          else evaluate c d k
            ((st.setConsidered k s crew).setCrewConsidered crew.original k true)).fault = none →
        (if s < c.SLOT_COUNT - 1
          then recurse k ((st.setConsidered k s crew).setCrewConsidered crew.original k true)
          else evaluate c d k
            ((st.setConsidered k s crew).setCrewConsidered crew.original k true)).crewConsidered
          = ((st.setConsidered k s crew).setCrewConsidered crew.original k true).crewConsidered := by
      split_ifs
      · exact hrec _ _
      · intro _; exact (evaluate_frame c d k _).2.1
    generalize (if s < c.SLOT_COUNT - 1
          then recurse k ((st.setConsidered k s crew).setCrewConsidered crew.original k true)
          else evaluate c d k
            ((st.setConsidered k s crew).setCrewConsidered crew.original k true)) = stb
      at hstep
    by_cases hfault : stb.fault.isSome = true
    · rw [if_pos hfault]
      intro h
      rw [h] at hfault
      simp at hfault
    rw [if_neg hfault]
    intro h a t'
    have hlow := (scanCount_spec d minScore rest (k + 1)).1
    rw [ih (k + 1) k stb h a t', hstep (fault_none_of_not_isSome stb hfault),
      crewConsidered_setCrewConsidered, crewConsidered_setConsidered]
    constructor
    · rintro (h1 | ⟨j, crew', hj, hlt, ht, ha⟩)
      · by_cases hx : a = crew.original ∧ t' = k
        · right
          exact ⟨0, crew, by simp, by omega, by omega, hx.1.symm⟩
        · rw [if_neg hx] at h1
          exact Or.inl h1
      · right
        exact ⟨j + 1, crew', by simpa using hj, by omega, by omega, ha⟩
    · rintro (h1 | ⟨j, crew', hj, hlt, ht, ha⟩)
      · left
        by_cases hx : a = crew.original ∧ t' = k
        · rw [if_pos hx]
        · rw [if_neg hx]; exact h1
      · cases j with
        | zero =>
          left
          simp only [List.getElem?_cons_zero, Option.some.injEq] at hj
          subst hj
          rw [if_pos ⟨ha.symm, by omega⟩]
        | succ j =>
          right
          exact ⟨j, crew', by simpa using hj, by omega, by omega, ha⟩

/-- Claim C19: backtracking restores the in-use marks. A call of `fillSlot` at a position
`iSlot >= 1` that returns without a fault leaves the in-use marks of every thread on
every roster entry as they were at entry. A call at position 0 (one unit of work for
every candidate it takes in the seed slot) leaves exactly one more mark for every unit:
the mark of thread `t` on the roster entry of candidate `t` of the seed slot. -/
theorem backtracking_restores_marks (c : VoyageCalculator) (minScore minDepth seedSlot : Nat)
    (fuel iSlot thread : Nat) (st : SearchState)
    (hfault : (fillSlot c minScore minDepth seedSlot fuel iSlot thread st).fault = none) :
    (1 ≤ iSlot →
      ∀ a t, (fillSlot c minScore minDepth seedSlot fuel iSlot thread st).crewConsidered a t
        = st.crewConsidered a t)
    ∧ (iSlot = 0 →
      ∀ a t, (fillSlot c minScore minDepth seedSlot fuel iSlot thread st).crewConsidered a t = true ↔
        (st.crewConsidered a t = true
          ∨ ∃ crew, (c.slotRoster seedSlot)[t]? = some crew
              ∧ t < scanCount minDepth minScore (c.slotRoster seedSlot) 0
              ∧ crew.original = a)) := by
  constructor
  · intro hp a t
    rw [fillSlot_marks_inner c minScore minDepth seedSlot fuel iSlot thread st hp hfault]
  · rintro rfl a t
    cases fuel with
    | zero =>
      simp only [fillSlot] at hfault
      split_ifs at hfault with h
      rw [hfault] at h
      simp at h
    | succ fuel =>
      simp only [fillSlot] at hfault ⊢
      have e0 : slotAt 0 seedSlot = seedSlot := by simp [slotAt]
      rw [e0] at hfault ⊢
      split_ifs at hfault ⊢ with h1 h2
      · have := hfault ▸ h1
        simp at this
      · rw [scanSlot_marks_seed c minScore minDepth seedSlot _
          (fun t st => fillSlot_marks_inner c minScore minDepth seedSlot fuel 1 t st (le_refl _))
          _ 0 thread st hfault a t]
        constructor
        · rintro (h | ⟨j, crew, hj, hlt, ht, ha⟩)
          · exact Or.inl h
          · right
            rw [Nat.zero_add] at hlt ht
            subst ht
            exact ⟨crew, hj, hlt, ha⟩
        · rintro (h | ⟨crew, hj, hlt, ha⟩)
          · exact Or.inl h
          · right
            exact ⟨t, crew, hj, by omega, by omega, ha⟩

theorem backtracking_restores_marks_witness :
    (∀ a t, (fillSlot zeroSkillCalc 5 2 0 6 1 0 seededState).crewConsidered a t
        = seededState.crewConsidered a t)
    ∧ (∀ a t, (fillSlot zeroSkillCalc 5 2 0 7 0 0
          (initialState zeroSkillCalc 2)).crewConsidered a t = true ↔
        ((initialState zeroSkillCalc 2).crewConsidered a t = true
          ∨ ∃ crew, (zeroSkillCalc.slotRoster 0)[t]? = some crew
              ∧ t < scanCount 2 5 (zeroSkillCalc.slotRoster 0) 0
              ∧ crew.original = a)) :=
  ⟨(backtracking_restores_marks zeroSkillCalc 5 2 0 6 1 0 seededState (by decide!)).1
      (by decide),
   (backtracking_restores_marks zeroSkillCalc 5 2 0 7 0 0 (initialState zeroSkillCalc 2)
      (by decide!)).2 rfl⟩
/-! ## The scan of a ranked list -/

/-- In a list sorted by score, the indices below the one at which the scan is left are
those below the depth bound and those with a score of at least the pruning bound. -/
theorem lt_scanCount_iff (d minScore : Nat) (list : List Crew) (hs : list.Pairwise scoreGE)
    (i : Nat) (crew : Crew) (hi : list[i]? = some crew) :
    i < scanCount d minScore list 0 ↔ (i < d ∨ minScore ≤ crew.score) := by
  obtain ⟨_, hle, hno, hstop⟩ := scanCount_spec d minScore list 0
  rw [Nat.zero_add] at hle hstop
  obtain ⟨hil, rfl⟩ := List.getElem?_eq_some_iff.1 hi
  constructor
  · intro hlt
    have := hno i _ (by rw [Nat.zero_add]; exact hlt) hi
    rw [Nat.zero_add] at this
    by_cases hd : i < d
    · exact Or.inl hd
    · right
      by_contra hn
      exact this ⟨not_lt.1 hd, not_le.1 hn⟩
  · intro h
    by_contra hge
    have hn : scanCount d minScore list 0 < list.length := by omega
    obtain ⟨hdn, crew', hc', hlow⟩ := hstop hn
    rw [Nat.sub_zero] at hc'
    obtain ⟨hnl, rfl⟩ := List.getElem?_eq_some_iff.1 hc'
    rcases h with h | h
    · omega
    · rcases Nat.lt_or_ge (scanCount d minScore list 0) i with hlt | hge'
      · have : scoreGE list[scanCount d minScore list 0] list[i] :=
          (List.pairwise_iff_getElem.1 hs) _ _ hnl hil hlt
        unfold scoreGE at this
        omega
      · have e : i = scanCount d minScore list 0 := by omega
        subst e
        omega

theorem getD_map_range {α : Type} (f : Nat → α) (n i : Nat) (d : α) (h : i < n) :
    ((List.range n).map f).getD i d = f i := by
  rw [List.getD_eq_getElem?_getD, List.getElem?_map, List.getElem?_range h]
  rfl

/-- The aggregates after the first `n` slots. -/
theorem totals_upto (cfg : Config) (complement : List Crew) :
    ∀ n, n ≤ complement.length →
      (List.range n).foldl
          (fun totals iSlot =>
            match complement[iSlot]? with
            | some crew => totals.addSlot cfg iSlot crew
            | none => totals)
          (Totals.start cfg.shipAntiMatter)
        = { shipAM := cfg.shipAntiMatter + ANTIMATTER_FOR_SKILL_MATCH *
              ((List.range n).filter (fun iSlot =>
                match complement[iSlot]? with
                | some crew => decide (cfg.slotTraits iSlot ∈ crew.traits)
                | none => false)).length
            skills := (List.range SKILL_COUNT).map (fun iSkill =>
              ((complement.take n).map (fun crew => crew.skills.getD iSkill 0)).sum)
            totalProfRange := (List.range SKILL_COUNT).map (fun iSkill =>
              ((complement.take n).map (fun crew =>
                (crew.skillMaxProfs.getD iSkill 0 : Int) - (crew.skillMinProfs.getD iSkill 0 : Int))).sum) } := by
  intro n
  induction n with
  | zero =>
    intro _
    rfl
  | succ n ih =>
    intro hn
    have hlt : n < complement.length := by omega
    rw [List.range_succ, List.foldl_append, ih (by omega)]
    simp only [List.foldl_cons, List.foldl_nil, List.getElem?_eq_getElem hlt, Totals.addSlot,
      List.filter_append, List.length_append, List.take_succ, Option.toList,
      List.map_append, List.sum_append, List.map_cons, List.map_nil, List.sum_cons,
      List.sum_nil, List.filter_cons, List.filter_nil]
    congr 1
    · by_cases ht : cfg.slotTraits n ∈ complement[n].traits
      · simp only [ht, if_true, decide_True, List.length_cons, List.length_nil]
        ring
      · simp [ht]
    all_goals
      apply List.map_congr_left
      intro iSkill hi
      rw [getD_map_range _ _ _ _ (List.mem_range.1 hi)]
      try rw [add_zero]

/-- The aggregates of a complement with one entry for every slot. -/
theorem computeTotals_eq (cfg : Config) (complement : List Crew)
    (hlen : complement.length = cfg.SLOT_COUNT) :
    computeTotals cfg complement
      = { shipAM := cfg.shipAntiMatter + ANTIMATTER_FOR_SKILL_MATCH * traitMatches cfg complement
          skills := (List.range SKILL_COUNT).map (fun iSkill =>
            (complement.map (fun crew => crew.skills.getD iSkill 0)).sum)
          totalProfRange := (List.range SKILL_COUNT).map (fun iSkill =>
            (complement.map (fun crew =>
              (crew.skillMaxProfs.getD iSkill 0 : Int) - (crew.skillMinProfs.getD iSkill 0 : Int))).sum) } := by
  have h := totals_upto cfg complement cfg.SLOT_COUNT (le_of_eq hlen.symm)
  rw [← hlen, List.take_length] at h
  unfold computeTotals traitMatches
  rw [← hlen]
  exact h
/-- Claim C16: the integer aggregates of `calculateDuration` for a complement with one
entry for every slot. For every skill `iSkill`, `totals.skills[iSkill]` is the sum of
`skills[iSkill]` over the crew of the slots and `totalProfRange[iSkill]` is the sum of
`skillMaxProfs[iSkill] - skillMinProfs[iSkill]` over them; `shipAM` is `shipAntiMatter`
plus 25 for every slot whose crew carries the trait of the slot. -/
theorem integer_aggregates (cfg : Config) (complement : List Crew)
    (hlen : complement.length = cfg.SLOT_COUNT) :
    (∀ iSkill, iSkill < SKILL_COUNT →
      (computeTotals cfg complement).skills.getD iSkill 0
        = (complement.map (fun crew => crew.skills.getD iSkill 0)).sum)
    ∧ (∀ iSkill, iSkill < SKILL_COUNT →
      (computeTotals cfg complement).totalProfRange.getD iSkill 0
        = (complement.map (fun crew =>
            (crew.skillMaxProfs.getD iSkill 0 : Int) - (crew.skillMinProfs.getD iSkill 0 : Int))).sum)
    ∧ (computeTotals cfg complement).shipAM
        = cfg.shipAntiMatter + 25 * ((List.range cfg.SLOT_COUNT).filter (fun iSlot =>
            match complement[iSlot]? with
            | some crew => decide (cfg.slotTraits iSlot ∈ crew.traits)
            | none => false)).length := by
  rw [computeTotals_eq cfg complement hlen]
  refine ⟨?_, ?_, rfl⟩
  · intro iSkill hi
    exact getD_map_range _ _ _ _ hi
  · intro iSkill hi
    exact getD_map_range _ _ _ _ hi

theorem integer_aggregates_witness :
    (∀ iSkill, iSkill < SKILL_COUNT →
      (computeTotals traitCfg straightComplement).skills.getD iSkill 0
        = (straightComplement.map (fun crew => crew.skills.getD iSkill 0)).sum)
    ∧ (computeTotals traitCfg straightComplement).skills = [75, 120, 0, 30, 0, 6]
    ∧ (computeTotals traitCfg straightComplement).totalProfRange = [30, 39, 0, 18, 0, 0]
    ∧ (computeTotals traitCfg straightComplement).shipAM = 2500 + 25 * 3 :=
  ⟨(integer_aggregates traitCfg straightComplement (by decide)).1, by decide!, by decide!,
    by decide!⟩
/-! ## The duration depends on the complement through the aggregates only -/

/-- A candidate of a ranked list carries the skills and proficiency bounds of the roster
entry that `original` points at. -/
theorem rankSlot_copy (cfg : Config) (iSlot : Nat) (cand : Crew) (h : cand ∈ rankSlot cfg iSlot) :
    ∃ crew, cfg.roster[cand.original]? = some crew ∧ cand.skills = crew.skills
      ∧ cand.skillMaxProfs = crew.skillMaxProfs ∧ cand.skillMinProfs = crew.skillMinProfs := by
  obtain ⟨iCrew, crew, hr, rfl⟩ := (mem_rankSlot cfg iSlot cand).1 h
  exact ⟨crew, hr, rfl, rfl, rfl⟩

theorem sum_by_original (cfg : Config) (f : Crew → Int) (x y : List Crew)
    (hx : ∀ p ∈ x.enum, p.2 ∈ rankSlot cfg p.1) (hy : ∀ p ∈ y.enum, p.2 ∈ rankSlot cfg p.1)
    (hf : ∀ cand crew, cfg.roster[cand.original]? = some crew →
      cand.skills = crew.skills → cand.skillMaxProfs = crew.skillMaxProfs →
      cand.skillMinProfs = crew.skillMinProfs → f cand = f crew)
    (hperm : (x.map Crew.original).Perm (y.map Crew.original)) :
    (x.map f).sum = (y.map f).sum := by
  have key : ∀ z : List Crew, (∀ p ∈ z.enum, p.2 ∈ rankSlot cfg p.1) →
      z.map f = (z.map Crew.original).map
        (fun a => match cfg.roster[a]? with | some crew => f crew | none => 0) := by
    intro z hz
    rw [List.map_map]
    apply List.map_congr_left
    intro cand hmem
    obtain ⟨i, hi, rfl⟩ := List.getElem_of_mem hmem
    have hin : (i, z[i]) ∈ z.enum := by
      rw [List.mem_enum_iff_getElem?]
      exact List.getElem?_eq_getElem hi
    obtain ⟨crew, hr, h1, h2, h3⟩ := rankSlot_copy cfg i z[i] (hz _ hin)
    simp only [Function.comp, hr]
    exact hf _ _ hr h1 h2 h3
  rw [key x hx, key y hy]
  exact (hperm.map _).sum_eq

/-- Claim C17: the duration is a function of the final assignment that does not depend on
where the crew members stand. Two complements with one entry for every slot, each entry
a candidate of the ranked list of its slot, that hold the same multiset of roster entries
and have the same number of slots whose crew carries the trait of the slot, have the same
duration; and the duration does not change when the skills required by the slots do. -/
theorem duration_depends_on_aggregates {V : Type} (num : Numerics V) (cfg : Config)
    (x y : List Crew)
    (hx : ∀ p ∈ x.enum, p.2 ∈ rankSlot cfg p.1) (hy : ∀ p ∈ y.enum, p.2 ∈ rankSlot cfg p.1)
    (hlen : x.length = cfg.SLOT_COUNT)
    (hperm : (x.map Crew.original).Perm (y.map Crew.original))
    (hmatch : traitMatches cfg x = traitMatches cfg y) :
    calculateDuration num cfg x = calculateDuration num cfg y
    ∧ computeTotals cfg x = computeTotals cfg y
    ∧ ∀ slotSkills : Nat → Nat,
        calculateDuration num { cfg with slotSkills := slotSkills } x
          = calculateDuration num cfg x := by
  have hleny : y.length = cfg.SLOT_COUNT := by
    have := hperm.length_eq
    simp only [List.length_map] at this
    omega
  have htot : computeTotals cfg x = computeTotals cfg y := by
    rw [computeTotals_eq cfg x hlen, computeTotals_eq cfg y hleny, hmatch]
    congr 1
    · apply List.map_congr_left
      intro iSkill _
      have := sum_by_original cfg (fun crew => ((crew.skills.getD iSkill 0 : Nat) : Int)) x y hx hy
        (fun cand crew _ h1 _ _ => by simp only [h1]) hperm
      have e : ∀ z : List Crew, (z.map (fun crew => ((crew.skills.getD iSkill 0 : Nat) : Int))).sum
          = (((z.map (fun crew => crew.skills.getD iSkill 0)).sum : Nat) : Int) := by
        intro z
        induction z with
        | nil => rfl
        | cons head rest ih => simp only [List.map_cons, List.sum_cons, ih, Nat.cast_add]
      rw [e x, e y] at this
      exact_mod_cast this
    · apply List.map_congr_left
      intro iSkill _
      exact sum_by_original cfg
        (fun crew => (crew.skillMaxProfs.getD iSkill 0 : Int) - (crew.skillMinProfs.getD iSkill 0 : Int))
        x y hx hy (fun cand crew _ _ h2 h3 => by simp only [h2, h3]) hperm
  refine ⟨?_, htot, fun slotSkills => rfl⟩
  unfold calculateDuration calculateDurationRun
  rw [htot]

theorem duration_depends_on_aggregates_witness :
    calculateDuration settlingNumerics traitCfg straightComplement
      = calculateDuration settlingNumerics traitCfg crossedComplement
    ∧ computeTotals traitCfg straightComplement = computeTotals traitCfg crossedComplement :=
  ⟨(duration_depends_on_aggregates settlingNumerics traitCfg straightComplement
      crossedComplement (by decide!) (by decide!) (by decide) (by decide!) (by decide!)).1,
   (duration_depends_on_aggregates settlingNumerics traitCfg straightComplement
      crossedComplement (by decide!) (by decide!) (by decide) (by decide!) (by decide!)).2.1⟩
/-! ## The converging loop of `calculateDuration` -/

/-- The converging loop, entered with `tries < 100` and a budget that reaches the 100th
try, never runs out of budget. It is left either at the 100th try, after passes that all
asked for another one, with the `voyTime` of the last pass; or after the first pass that
does not ask for another one, with the `voyTime` of that pass. -/
theorem convergingLoop_spec {V : Type} (pass : V → V × V × Bool) :
    ∀ (budget tries : Nat) (e v : V), tries < 100 → 100 ≤ tries + budget →
      (convergingLoop pass budget tries e v).exhausted = false
      ∧ (((convergingLoop pass budget tries e v).capped = true
          ∧ (convergingLoop pass budget tries e v).tries = 100
          ∧ (∀ j, j < 99 - tries → (pass (refined pass j e)).2.2 = true)
          ∧ (99 - tries = 0 → (convergingLoop pass budget tries e v).voyTime = v)
          ∧ (∀ m, 99 - tries = m + 1 →
              (convergingLoop pass budget tries e v).voyTime = (pass (refined pass m e)).1))
        ∨ ((convergingLoop pass budget tries e v).capped = false
          ∧ ∃ n, n < 99 - tries
            ∧ (convergingLoop pass budget tries e v).tries = tries + n + 1
            ∧ (∀ j, j < n → (pass (refined pass j e)).2.2 = true)
            ∧ (pass (refined pass n e)).2.2 = false
            ∧ (convergingLoop pass budget tries e v).voyTime = (pass (refined pass n e)).1)) := by
  intro budget
  induction budget with
  | zero => intro tries e v h1 h2; omega
  | succ budget ih =>
    intro tries e v h1 h2
    by_cases hcap : tries + 1 = 100
    · have e1 : convergingLoop pass (budget + 1) tries e v
          = ⟨v, e, tries + 1, true, false⟩ := by
        simp only [convergingLoop, if_pos hcap]
      rw [e1]
      refine ⟨rfl, Or.inl ⟨rfl, hcap, ?_, fun _ => rfl, ?_⟩⟩
      · intro j hj; omega
      · intro m hm; omega
    · by_cases hagain : (pass e).2.2 = true
      · have e1 : convergingLoop pass (budget + 1) tries e v
            = convergingLoop pass budget (tries + 1) (pass e).2.1 (pass e).1 := by
          simp only [convergingLoop, if_neg hcap, hagain, if_true]
        rw [e1]
        obtain ⟨hx, hrest⟩ := ih (tries + 1) (pass e).2.1 (pass e).1 (by omega) (by omega)
        refine ⟨hx, ?_⟩
        rcases hrest with ⟨hc, ht, hall, hzero, hlast⟩ | ⟨hc, n, hn, ht, hall, hstop, hv⟩
        · refine Or.inl ⟨hc, ht, ?_, fun h => by omega, ?_⟩
          · intro j hj
            cases j with
            | zero => exact hagain
            | succ j => exact hall j (by omega)
          · intro m hm
            cases m with
            | zero => exact hzero (by omega)
            | succ m => exact hlast m (by omega)
        · refine Or.inr ⟨hc, n + 1, by omega, by omega, ?_, hstop, hv⟩
          intro j hj
          cases j with
          | zero => exact hagain
          | succ j => exact hall j (by omega)
      · have e1 : convergingLoop pass (budget + 1) tries e v
            = ⟨(pass e).1, e, tries + 1, false, false⟩ := by
          simp only [convergingLoop, if_neg hcap, hagain]
          rfl
        rw [e1]
        refine ⟨rfl, Or.inr ⟨rfl, 0, by omega, rfl, fun j hj => by omega, ?_, rfl⟩⟩
        simpa using hagain

/-- Claim C15: `calculateDuration` terminates. Whatever one pass of the refinement does,
the converging loop is left within its recursion budget after at most 99 passes of its
body, so fewer than 100: either a pass does not ask for another one, or the counter
reaches 100 and the loop is left before a 100th pass, which happens exactly when the
first 99 passes all ask for another one. The extension loop starts one iteration only
(whatever `maxExtends` is, its body returns), and the value returned is the `voyTime` of
the converging loop for `extend = 0`. -/
theorem calculateDuration_terminates {V : Type} (num : Numerics V) (cfg : Config)
    (complement : List Crew) :
    (calculateDurationRun num cfg complement).exhausted = false
    ∧ (calculateDurationRun num cfg complement).refinements ≤ 99
    ∧ (calculateDurationRun num cfg complement).refinements < 100
    ∧ ((calculateDurationRun num cfg complement).capped = true ↔
        ∀ j, j < 99 →
          (num.pass cfg.primarySkill cfg.secondarySkill (computeTotals cfg complement) 0
            (refined (num.pass cfg.primarySkill cfg.secondarySkill (computeTotals cfg complement) 0)
              j (num.endVoySkill cfg.primarySkill cfg.secondarySkill
                (computeTotals cfg complement)))).2.2 = true)
    ∧ ((calculateDurationRun num cfg complement).capped = true →
        (calculateDurationRun num cfg complement).refinements = 99)
    ∧ (calculateDurationRun num cfg complement).extensions = 1
    ∧ (calculateDurationRun num cfg complement).result
        = (convergingLoop
            (num.pass cfg.primarySkill cfg.secondarySkill (computeTotals cfg complement) 0)
            100 0 (num.endVoySkill cfg.primarySkill cfg.secondarySkill
              (computeTotals cfg complement)) num.zero).voyTime
    ∧ ∀ (totals : Totals) (maxExtends : Nat) (e v : V),
        (extensionLoop num cfg.primarySkill cfg.secondarySkill totals maxExtends 0 e v).extensions
          = 1 := by
  have hrun : calculateDurationRun num cfg complement
      = extensionLoop num cfg.primarySkill cfg.secondarySkill (computeTotals cfg complement) 0 0
          (num.endVoySkill cfg.primarySkill cfg.secondarySkill (computeTotals cfg complement))
          num.zero := rfl
  rw [hrun]
  simp only [extensionLoop, Nat.zero_le, if_true]
  generalize num.pass cfg.primarySkill cfg.secondarySkill (computeTotals cfg complement) 0 = pass
  generalize num.endVoySkill cfg.primarySkill cfg.secondarySkill (computeTotals cfg complement) = e
  obtain ⟨hx, hrest⟩ := convergingLoop_spec pass 100 0 e num.zero (by omega) (by omega)
  rcases hrest with ⟨hc, ht, hall, _, _⟩ | ⟨hc, n, hn, ht, hall, hstop, _⟩
  · refine ⟨hx, ?_, ?_, ?_, ?_, trivial, trivial, fun _ _ _ _ => trivial⟩
    · rw [hc, ht]; simp
    · rw [hc, ht]; simp
    · rw [hc]
      simp only [true_iff]
      intro j hj
      exact hall j (by omega)
    · intro _
      rw [hc, ht]; simp
  · refine ⟨hx, ?_, ?_, ?_, ?_, trivial, trivial, fun _ _ _ _ => trivial⟩
    · rw [hc, ht]; simp; omega
    · rw [hc, ht]; simp; omega
    · rw [hc]
      simp only [Bool.false_eq_true, false_iff, not_forall]
      exact ⟨n, by omega, by rw [hstop]; simp⟩
    · intro h
      rw [hc] at h
      simp at h
/-- When the line `something went wrong!` is written, 99 passes have been made and the
value returned is the `voyTime` of the 99th pass. -/
theorem capped_result {V : Type} (num : Numerics V) (cfg : Config) (complement : List Crew)
    (hcap : (calculateDurationRun num cfg complement).capped = true) :
    calculateDuration num cfg complement
        = (num.pass cfg.primarySkill cfg.secondarySkill (computeTotals cfg complement) 0
            (refined (num.pass cfg.primarySkill cfg.secondarySkill (computeTotals cfg complement) 0)
              98 (num.endVoySkill cfg.primarySkill cfg.secondarySkill
                (computeTotals cfg complement)))).1
    ∧ (calculateDurationRun num cfg complement).refinements = 99 := by
  have hrun : calculateDurationRun num cfg complement
      = extensionLoop num cfg.primarySkill cfg.secondarySkill (computeTotals cfg complement) 0 0
          (num.endVoySkill cfg.primarySkill cfg.secondarySkill (computeTotals cfg complement))
          num.zero := rfl
  unfold calculateDuration
  rw [hrun] at hcap ⊢
  simp only [extensionLoop, Nat.zero_le, if_true] at hcap ⊢
  generalize num.pass cfg.primarySkill cfg.secondarySkill (computeTotals cfg complement) 0 = pass
    at hcap ⊢
  generalize num.endVoySkill cfg.primarySkill cfg.secondarySkill (computeTotals cfg complement) = e
    at hcap ⊢
  obtain ⟨_, hrest⟩ := convergingLoop_spec pass 100 0 e num.zero (by omega) (by omega)
  rcases hrest with ⟨hc, ht, _, _, hlast⟩ | ⟨hc, _⟩
  · refine ⟨hlast 98 (by omega), ?_⟩
    rw [hc, ht]; simp
  · rw [hc] at hcap
    simp at hcap

/-- Claim C14 (as amended): when the converging loop reaches its cap (the first 99 passes
all left a correction above the threshold), `calculateDuration` writes the line
`something went wrong!`, makes no 100th pass and returns the last iterate, the `voyTime`
of the 99th pass. The best-update step treats this value as any other duration: it
replaces the best result when the value exceeds `bestscore` and leaves it otherwise. The
floating-point part is any `num`, and `score` is the scale on which the search compares
the durations. -/
theorem capped_duration_is_last_iterate {V : Type} (num : Numerics V) (score : V → Int)
    (c : VoyageCalculator)
    (hdur : c.calculateDuration = fun complement =>
      score (calculateDuration num c.toConfig complement))
    (minDepth thread : Nat) (st : SearchState) (complement : List Crew)
    (hbuf : deref ((List.range c.SLOT_COUNT).map (st.considered thread)) = some complement)
    (hcap : (calculateDurationRun num c.toConfig complement).capped = true) :
    calculateDuration num c.toConfig complement
        = (num.pass c.primarySkill c.secondarySkill (computeTotals c.toConfig complement) 0
            (refined (num.pass c.primarySkill c.secondarySkill (computeTotals c.toConfig complement) 0)
              98 (num.endVoySkill c.primarySkill c.secondarySkill
                (computeTotals c.toConfig complement)))).1
    ∧ c.calculateDuration complement = score (calculateDuration num c.toConfig complement)
    ∧ (calculateDurationRun num c.toConfig complement).refinements = 99
    ∧ (c.calculateDuration complement > st.bestscore →
        (evaluate c minDepth thread st).bestscore = c.calculateDuration complement
        ∧ (evaluate c minDepth thread st).bestconsidered = complement.map some)
    ∧ (c.calculateDuration complement ≤ st.bestscore →
        (evaluate c minDepth thread st).bestscore = st.bestscore
        ∧ (evaluate c minDepth thread st).bestconsidered = st.bestconsidered) := by
  obtain ⟨h1, h2⟩ := capped_result num c.toConfig complement hcap
  have hb := evaluate_best c minDepth thread st complement hbuf
  simp only [SearchState.best, bestUpdate] at hb
  refine ⟨h1, by rw [hdur], h2, ?_, ?_⟩
  · intro hgt
    rw [if_pos hgt] at hb
    injection hb with e1 e2 e3
    exact ⟨e2, e1⟩
  · intro hle
    rw [if_neg (not_lt.mpr hle)] at hb
    injection hb with e1 e2 e3
    exact ⟨e2, e1⟩

set_option maxRecDepth 100000

theorem capped_duration_is_last_iterate_witness :
    slowCalc.calculateDuration slowComplement = 2311992
    ∧ (calculateDurationRun exactNumerics slowCalc.toConfig slowComplement).refinements = 99
    ∧ (evaluate slowCalc 2 0 slowState).bestscore = 2311992
    ∧ (evaluate slowCalc 2 0 slowState).bestconsidered = slowComplement.map some := by
  have hdur : slowCalc.calculateDuration = fun complement =>
      microHours (calculateDuration exactNumerics slowCalc.toConfig complement) := rfl
  have hbuf : deref ((List.range slowCalc.SLOT_COUNT).map (slowState.considered 0))
      = some slowComplement := by decide!
  have hcap : (calculateDurationRun exactNumerics slowCalc.toConfig slowComplement).capped
      = true := by decide!
  have hv : slowCalc.calculateDuration slowComplement = 2311992 := by decide!
  have hgt : slowCalc.calculateDuration slowComplement > slowState.bestscore := by
    rw [hv]; decide!
  have h := capped_duration_is_last_iterate exactNumerics microHours slowCalc hdur 2 0 slowState
    slowComplement hbuf hcap
  refine ⟨hv, h.2.2.1, ?_, (h.2.2.2.1 hgt).2⟩
  rw [(h.2.2.2.1 hgt).1, hv]

/-- Claim C14 (as stated) fails. The six crew members of `slowPool` have the skill totals
62000, 62000, 100, 62000, 62000, 62000 and no proficiency range, and the ship antimatter
is 100. The estimate starts at 62000 and every pass moves it towards its limit (near
2890) by less than a twentieth of the distance, so the correction of the 99th pass is
still above 0.02 hours, twenty times the threshold: the loop is left by its cap. The last
iterate, about 2.312 hours, is returned as a normal duration, and the run of `calculate`
accepts the complement and stores the value in `bestscore`: nothing marks it unusable. -/
theorem capped_duration_accepted :
    (calculate slowCalc).fault = none
    ∧ (calculate slowCalc).bestconsidered = slowComplement.map some
    ∧ slowComplement.map Crew.original = [0, 1, 2, 3, 4, 5]
    ∧ computeTotals slowCfg slowComplement
        = ⟨100, [62000, 62000, 100, 62000, 62000, 62000], [0, 0, 0, 0, 0, 0]⟩
    ∧ (calculateDurationRun exactNumerics slowCfg slowComplement).capped = true
    ∧ (calculateDurationRun exactNumerics slowCfg slowComplement).refinements = 99
    ∧ (1 : ℚ) / 50 < |calculateDuration exactNumerics slowCfg slowComplement
        - refined (exactPass 0 1 (computeTotals slowCfg slowComplement) 0) 98
            (firstEndVoySkill 0 (computeTotals slowCfg slowComplement)) / hazSkillPerHour|
    ∧ slowCalc.calculateDuration slowComplement = 2311992
    ∧ (calculate slowCalc).bestscore = 2311992 := by
  decide!
/-! ## Completeness of the search -/

theorem agree_buffer (c : VoyageCalculator) (s t : Nat) (st : SearchState)
    (target : Nat → Crew) (hs : s < c.SLOT_COUNT) (h : Agree s st t c.SLOT_COUNT target) :
    (List.range c.SLOT_COUNT).map (st.considered t) = (complementOf c target).map some := by
  unfold complementOf
  rw [List.map_map]
  apply List.map_congr_left
  intro slot hslot
  have hlt := List.mem_range.1 hslot
  have := h (slotAt slot s) (slotAt_lt slot s _ hlt hs)
  rw [slotAt_involutive] at this
  exact this

theorem evaluate_mem_evaluated (c : VoyageCalculator) (d t : Nat) (st : SearchState)
    (e : Evaluation) (h : e ∈ st.evaluated) : e ∈ (evaluate c d t st).evaluated := by
  rw [evaluate_evaluated]
  exact List.mem_append_left _ h

theorem fillSlot_mem_evaluated (c : VoyageCalculator) (minScore d s : Nat) (e : Evaluation)
    (fuel p t : Nat) (st : SearchState) (h : e ∈ st.evaluated) :
    e ∈ (fillSlot c minScore d s fuel p t st).evaluated :=
  fillSlot_preserves c (fun st => e ∈ st.evaluated) (fun _ _ _ _ h => h) (fun _ _ _ _ h => h)
    (fun _ _ h => h) minScore d (fun st t h => evaluate_mem_evaluated c d t st e h) s
    fuel p t st h

theorem agree_of_frame {s : Nat} {st st' : SearchState} {t p : Nat} {target : Nat → Crew}
    (h : Agree s st t p target) (hf : Frame s st st' t p) : Agree s st' t p target := by
  intro q hq
  rw [hf.2.2 t _ (Or.inr ⟨q, hq, rfl⟩)]
  exact h q hq

theorem agree_extend {s : Nat} {st : SearchState} {t p : Nat} {target : Nat → Crew}
    (h : Agree s st t p target) :
    Agree s ((st.setConsidered t (slotAt p s) (target (slotAt p s))).setCrewConsidered
      (target (slotAt p s)).original t true) t (p + 1) target := by
  intro q hq
  rw [considered_setCrewConsidered, considered_setConsidered]
  rcases Nat.lt_succ_iff_lt_or_eq.1 hq with hlt | heq
  · have : slotAt q s ≠ slotAt p s := fun e => by
      have := slotAt_injective _ _ _ e; omega
    simp only [this, and_false, if_false]
    exact h q hlt
  · subst heq
    simp

/-- The scan of a slot at a position `p >= 1` evaluates every assignment within reach
that agrees with the working tree below `p`, given the same for the recursive call. -/
theorem scanSlot_complete (c : VoyageCalculator) (minScore : Nat) (Q : Prop) (d s p t : Nat)
    (target : Nat → Crew) (hreach : Reachable c minScore d target)
    (hp : 1 ≤ p) (hs : s < c.SLOT_COUNT) (hslot : slotAt p s < c.SLOT_COUNT)
    (recurse : Nat → SearchState → SearchState)
    (hrecS : ∀ st1, PathInv c minScore d s st1 t (p + 1) → Sound c minScore Q st1 →
      Sound c minScore Q (recurse t st1)
      ∧ ((recurse t st1).fault = none → Frame s st1 (recurse t st1) t (p + 1)))
    (hrecC : ∀ st1, PathInv c minScore d s st1 t (p + 1) → Sound c minScore Q st1 →
      Agree s st1 t (p + 1) target → (recurse t st1).fault = none →
      (⟨d, (complementOf c target).map some⟩ : Evaluation) ∈ (recurse t st1).evaluated)
    (hrecM : ∀ t1 st1, (⟨d, (complementOf c target).map some⟩ : Evaluation) ∈ st1.evaluated →
      (⟨d, (complementOf c target).map some⟩ : Evaluation) ∈ (recurse t1 st1).evaluated) :
    ∀ (cands : List Crew) (k : Nat) (st : SearchState),
      (∀ j, cands[j]? = (c.slotRoster (slotAt p s))[k + j]?) →
      (∃ kt, k ≤ kt ∧ (c.slotRoster (slotAt p s))[kt]? = some (target (slotAt p s))
        ∧ kt < scanCount d minScore (c.slotRoster (slotAt p s)) 0) →
      PathInv c minScore d s st t p → Sound c minScore Q st → Agree s st t p target →
      (scanSlot c minScore d s (slotAt p s) recurse cands k t st).fault = none →
      (⟨d, (complementOf c target).map some⟩ : Evaluation)
        ∈ (scanSlot c minScore d s (slotAt p s) recurse cands k t st).evaluated := by
  have hne : slotAt p s ≠ s := fun e => by
    have := (slotAt_eq_seed p s).1 e; omega
  have hmono : ∀ (cands : List Crew) (k t1 : Nat) (st : SearchState),
      (⟨d, (complementOf c target).map some⟩ : Evaluation) ∈ st.evaluated →
      (⟨d, (complementOf c target).map some⟩ : Evaluation)
        ∈ (scanSlot c minScore d s (slotAt p s) recurse cands k t1 st).evaluated :=
    fun cands k t1 st h =>
      scanSlot_preserves c (fun st => (⟨d, (complementOf c target).map some⟩ : Evaluation)
          ∈ st.evaluated)
        (fun _ _ _ _ h => h) (fun _ _ _ _ h => h) (fun _ h => h) minScore d
        (fun st t h => evaluate_mem_evaluated c d t st _ h) s (slotAt p s) recurse
        (fun t1 st1 h => hrecM t1 st1 h) cands k t1 st h
  obtain ⟨_, _, hno, _⟩ := scanCount_spec d minScore (c.slotRoster (slotAt p s)) 0
  intro cands
  induction cands with
  | nil =>
    intro k st hidx ⟨kt, hkt, hkl, _⟩ _ _ _ _
    have := hidx (kt - k)
    rw [show k + (kt - k) = kt by omega, hkl] at this
    simp at this
  | cons crew rest ih =>
    intro k st hidx ⟨kt, hkt, hkl, hkn⟩ hpath hsound hagree
    have hrest : ∀ j, rest[j]? = (c.slotRoster (slotAt p s))[k + 1 + j]? := by
      intro j
      have := hidx (j + 1)
      rw [show k + (j + 1) = k + 1 + j by omega] at this
      simpa using this
    have hk : (c.slotRoster (slotAt p s))[k]? = some crew := by
      have := hidx 0
      simpa using this.symm
    have hprune : ¬ (d ≤ k ∧ crew.score < minScore) := by
      have := hno k crew (by omega) hk
      rwa [Nat.zero_add] at this
    simp only [scanSlot, ne_eq, hne, not_false_eq_true, true_and, if_false, if_true]
    rw [if_neg hprune]
    by_cases hoob : st.maxDepth ≤ t
    · rw [if_pos hoob]
      intro h; simp at h
    rw [if_neg hoob]
    by_cases hused : st.crewConsidered crew.original t = true
    · rw [if_pos hused]
      have hgt : k + 1 ≤ kt := by
        by_contra hle
        have hkk : kt = k := by omega
        subst hkk
        rw [hk] at hkl
        simp only [Option.some.injEq] at hkl
        subst hkl
        obtain ⟨q, hq, crew', h1, h2⟩ := hpath.2.1 _ hused
        rw [hagree q hq] at h1
        simp only [Option.some.injEq] at h1
        subst h1
        have hqN : q < c.SLOT_COUNT := by
          have : p < c.SLOT_COUNT := by
            have := slotAt_lt (slotAt p s) s _ hslot hs
            rwa [slotAt_involutive] at this
          omega
        have := hreach.2 _ _ (slotAt_lt q s _ hqN hs) hslot h2
        have := slotAt_injective _ _ _ this
        omega
      exact ih (k + 1) st hrest ⟨kt, hgt, hkl, hkn⟩ hpath hsound hagree
    rw [if_neg hused]
    have hscan : Scanned c minScore d (slotAt p s) crew := by
      refine ⟨k, hk, ?_⟩
      by_cases hkd : k < d
      · exact Or.inl hkd
      · right
        by_contra hlt
        exact hprune ⟨not_lt.1 hkd, not_le.1 hlt⟩
    have hpath' := pathInv_extend hpath hused hscan
    have hsound' : Sound c minScore Q
        ((st.setConsidered t (slotAt p s) crew).setCrewConsidered crew.original t true) :=
      sound_of_eq hsound rfl rfl rfl
    have hagree' : kt = k → Agree s
        ((st.setConsidered t (slotAt p s) crew).setCrewConsidered crew.original t true)
        t (p + 1) target := by
      intro hkk
      subst hkk
      rw [hk] at hkl
      simp only [Option.some.injEq] at hkl
      subst hkl
      exact agree_extend hagree
    generalize hsa :
      (st.setConsidered t (slotAt p s) crew).setCrewConsidered crew.original t true = sta
      at hpath' hsound' hagree'
    have hstep : (Sound c minScore Q
          (if slotAt p s < c.SLOT_COUNT - 1 then recurse t sta else evaluate c d t sta)
        ∧ ((if slotAt p s < c.SLOT_COUNT - 1 then recurse t sta else evaluate c d t sta).fault
              = none →
            Frame s sta
              (if slotAt p s < c.SLOT_COUNT - 1 then recurse t sta else evaluate c d t sta)
              t (p + 1)))
        ∧ (kt = k →
            (if slotAt p s < c.SLOT_COUNT - 1 then recurse t sta else evaluate c d t sta).fault
              = none →
            (⟨d, (complementOf c target).map some⟩ : Evaluation) ∈
              (if slotAt p s < c.SLOT_COUNT - 1 then recurse t sta
                else evaluate c d t sta).evaluated) := by
      by_cases hlast : slotAt p s < c.SLOT_COUNT - 1
      · rw [if_pos hlast]
        exact ⟨hrecS sta hpath' hsound', fun hkk hnf => hrecC sta hpath' hsound' (hagree' hkk) hnf⟩
      · rw [if_neg hlast]
        have hpN : p + 1 = c.SLOT_COUNT := by
          unfold slotAt at hlast hslot
          split_ifs at hlast hslot <;> omega
        have hcd := pathInv_complete c minScore d s sta t hs (hpN ▸ hpath')
        refine ⟨⟨evaluate_sound c minScore Q d t sta hsound' (fun _ => hcd)
          (fun hnone => absurd hnone (completeDistinct_deref hcd)), fun _ => ?_⟩, ?_⟩
        · obtain ⟨h1, h2, h3⟩ := evaluate_frame c d t sta
          exact ⟨h1, h2, fun t' slot _ => by rw [h3]⟩
        · intro hkk _
          rw [evaluate_evaluated, agree_buffer c s t sta target hs (hpN ▸ hagree' hkk)]
          exact List.mem_append_right _ (List.mem_singleton.2 rfl)
    generalize (if slotAt p s < c.SLOT_COUNT - 1 then recurse t sta else evaluate c d t sta) = stb
      at hstep
    obtain ⟨⟨hsb, hfb⟩, hcb⟩ := hstep
    by_cases hfault : stb.fault.isSome = true
    · rw [if_pos hfault]
      intro h
      rw [h] at hfault
      simp at hfault
    rw [if_neg hfault]
    have hnone : stb.fault = none := fault_none_of_not_isSome stb hfault
    intro hres
    by_cases hkk : kt = k
    · exact hmono rest (k + 1) t _ (hcb hkk hnone)
    · have hframe : Frame s st (stb.setCrewConsidered crew.original t false) t p := by
        apply frame_after_unmark hused
        rw [hsa]
        exact hfb hnone
      exact ih (k + 1) (stb.setCrewConsidered crew.original t false) hrest
        ⟨kt, by omega, hkl, hkn⟩ (pathInv_of_frame hpath hframe) (sound_of_eq hsb rfl rfl rfl)
        (agree_of_frame hagree hframe) hres

/-- The search from a position `p >= 1` that returns without a fault has evaluated every
assignment within reach that agrees with the working tree below `p`. -/
theorem fillSlot_complete (c : VoyageCalculator) (minScore : Nat) (Q : Prop) (d s : Nat)
    (target : Nat → Crew) (hreach : Reachable c minScore d target) (hs : s < c.SLOT_COUNT) :
    ∀ (fuel p t : Nat) (st : SearchState), 1 ≤ p →
      PathInv c minScore d s st t p → Sound c minScore Q st → Agree s st t p target →
      (fillSlot c minScore d s fuel p t st).fault = none →
      (⟨d, (complementOf c target).map some⟩ : Evaluation)
        ∈ (fillSlot c minScore d s fuel p t st).evaluated := by
  intro fuel
  induction fuel with
  | zero =>
    intro p t st _ _ _ _
    simp only [fillSlot]
    split_ifs with h
    · intro hf; rw [hf] at h; simp at h
    · intro hf; simp at hf
  | succ fuel ih =>
    intro p t st hp hpath hsound hagree
    simp only [fillSlot]
    split_ifs with h1 h2
    · intro hf; rw [hf] at h1; simp at h1
    · intro hf; simp at hf
    · have hslot : slotAt p s < c.SLOT_COUNT := not_le.1 h2
      obtain ⟨kt, hkl, hkn⟩ := hreach.1 _ hslot
      exact scanSlot_complete c minScore Q d s p t target hreach hp hs hslot _
        (fun st1 hp1 hs1 => fillSlot_inner c minScore Q d s hs fuel (p + 1) t st1
          (by omega) hp1 hs1)
        (fun st1 hp1 hs1 ha1 hf1 => ih (p + 1) t st1 (by omega) hp1 hs1 ha1 hf1)
        (fun t1 st1 h => fillSlot_mem_evaluated c minScore d s _ fuel (p + 1) t1 st1 h)
        _ 0 st (fun j => by rw [Nat.zero_add]) ⟨kt, Nat.zero_le _, hkl, hkn⟩
        hpath hsound hagree
/-- The scan of the seed slot at position 0 that ends without a fault has evaluated every
assignment within reach, given the same for the recursive call. -/
theorem scanSlot_seed_complete (c : VoyageCalculator) (minScore d s : Nat)
    (Q : Prop) (hQ : s ≠ 0 → s + 1 = c.SLOT_COUNT → Q)
    (target : Nat → Crew)
    (hs : s < c.SLOT_COUNT) (recurse : Nat → SearchState → SearchState)
    (hrecS : ∀ t st1, PathInv c minScore d s st1 t 1 → Sound c minScore Q st1 →
      Sound c minScore Q (recurse t st1)
      ∧ ((recurse t st1).fault = none → Frame s st1 (recurse t st1) t 1))
    (hrecC : ∀ t st1, PathInv c minScore d s st1 t 1 → Sound c minScore Q st1 →
      Agree s st1 t 1 target → (recurse t st1).fault = none →
      (⟨d, (complementOf c target).map some⟩ : Evaluation) ∈ (recurse t st1).evaluated)
    (hrecM : ∀ t1 st1, (⟨d, (complementOf c target).map some⟩ : Evaluation) ∈ st1.evaluated →
      (⟨d, (complementOf c target).map some⟩ : Evaluation) ∈ (recurse t1 st1).evaluated) :
    ∀ (cands : List Crew) (k thread : Nat) (st : SearchState),
      (∀ j, cands[j]? = (c.slotRoster s)[k + j]?) →
      (∃ kt, k ≤ kt ∧ (c.slotRoster s)[kt]? = some (target s)
        ∧ kt < scanCount d minScore (c.slotRoster s) 0) →
      Sound c minScore Q st → SeedInv c s st →
      (scanSlot c minScore d s s recurse cands k thread st).fault = none →
      (⟨d, (complementOf c target).map some⟩ : Evaluation)
        ∈ (scanSlot c minScore d s s recurse cands k thread st).evaluated := by
  have hmono : ∀ (cands : List Crew) (k t1 : Nat) (st : SearchState),
      (⟨d, (complementOf c target).map some⟩ : Evaluation) ∈ st.evaluated →
      (⟨d, (complementOf c target).map some⟩ : Evaluation)
        ∈ (scanSlot c minScore d s s recurse cands k t1 st).evaluated :=
    fun cands k t1 st h =>
      scanSlot_preserves c (fun st => (⟨d, (complementOf c target).map some⟩ : Evaluation)
          ∈ st.evaluated)
        (fun _ _ _ _ h => h) (fun _ _ _ _ h => h) (fun _ h => h) minScore d
        (fun st t h => evaluate_mem_evaluated c d t st _ h) s s recurse
        (fun t1 st1 h => hrecM t1 st1 h) cands k t1 st h
  obtain ⟨_, _, hno, _⟩ := scanCount_spec d minScore (c.slotRoster s) 0
  intro cands
  induction cands with
  | nil =>
    intro k thread st hidx ⟨kt, hkt, hkl, _⟩ _ _ _
    have := hidx (kt - k)
    rw [show k + (kt - k) = kt by omega, hkl] at this
    simp at this
  | cons crew rest ih =>
    intro k thread st hidx ⟨kt, hkt, hkl, hkn⟩ hsound hseed
    have hrest : ∀ j, rest[j]? = (c.slotRoster s)[k + 1 + j]? := by
      intro j
      have := hidx (j + 1)
      rw [show k + (j + 1) = k + 1 + j by omega] at this
      simpa using this
    have hk : (c.slotRoster s)[k]? = some crew := by
      have := hidx 0
      simpa using this.symm
    have hprune : ¬ (d ≤ k ∧ crew.score < minScore) := by
      have := hno k crew (by omega) hk
      rwa [Nat.zero_add] at this
    simp only [scanSlot, ne_eq, not_true_eq_false, false_and, if_false, if_true]
    rw [if_neg hprune]
    by_cases hoob : st.maxDepth ≤ k
    · rw [if_pos hoob]
      intro h; simp at h
    rw [if_neg hoob]
    have hscan : Scanned c minScore d s crew := by
      refine ⟨k, hk, ?_⟩
      by_cases hkd : k < d
      · exact Or.inl hkd
      · right
        by_contra hlt
        exact hprune ⟨not_lt.1 hkd, not_le.1 hlt⟩
    have h0 : slotAt 0 s = s := (slotAt_eq_seed 0 s).2 rfl
    have hnew : ((st.setConsidered k s crew).setCrewConsidered crew.original k
        true).considered k s = some crew := by
      simp [considered_setCrewConsidered, considered_setConsidered]
    have hmark : ∀ a t,
        ((st.setConsidered k s crew).setCrewConsidered crew.original k true).crewConsidered a t
          = true →
        ∃ crew', (c.slotRoster s)[t]? = some crew' ∧ crew'.original = a := by
      intro a t hm
      rw [crewConsidered_setCrewConsidered, crewConsidered_setConsidered] at hm
      by_cases hx : a = crew.original ∧ t = k
      · obtain ⟨rfl, rfl⟩ := hx
        exact ⟨crew, hk, rfl⟩
      · rw [if_neg hx] at hm
        exact hseed.1 a t hm
    have hpath' : PathInv c minScore d s
        ((st.setConsidered k s crew).setCrewConsidered crew.original k true) k 1 := by
      refine ⟨?_, ?_, ?_⟩
      · intro q hq
        have : q = 0 := by omega
        subst this
        rw [h0]
        exact ⟨crew, hnew, by simp [crewConsidered_setCrewConsidered], hscan⟩
      · intro a hm
        obtain ⟨crew', h1, h2⟩ := hmark a k hm
        rw [hk] at h1
        simp only [Option.some.injEq] at h1
        subst h1
        exact ⟨0, by omega, crew, by rw [h0]; exact hnew, h2⟩
      · intro q q' _ _ hq hq' _ _ _
        omega
    have hagree' : kt = k → Agree s
        ((st.setConsidered k s crew).setCrewConsidered crew.original k true) k 1 target := by
      intro hkk q hq
      have : q = 0 := by omega
      subst this
      subst hkk
      rw [hk] at hkl
      simp only [Option.some.injEq] at hkl
      rw [h0, hnew, hkl]
    have hsound' : Sound c minScore Q
        ((st.setConsidered k s crew).setCrewConsidered crew.original k true) :=
      sound_of_eq hsound rfl rfl rfl
    have hzero : s ≠ 0 → s + 1 = c.SLOT_COUNT → ∀ t,
        ((st.setConsidered k s crew).setCrewConsidered crew.original k true).considered t 0
          = none := by
      intro hs0 hN t
      have := hseed.2 hs0 hN t
      rw [considered_setCrewConsidered, considered_setConsidered,
        if_neg (fun h => hs0 h.2.symm)]
      exact this
    generalize hsa : (st.setConsidered k s crew).setCrewConsidered crew.original k true = sta
      at hpath' hsound' hmark hzero hagree'
    have hstep : (Sound c minScore Q
          (if s < c.SLOT_COUNT - 1 then recurse k sta else evaluate c d k sta)
        ∧ ((if s < c.SLOT_COUNT - 1 then recurse k sta else evaluate c d k sta).fault = none →
            SeedInv c s (if s < c.SLOT_COUNT - 1 then recurse k sta else evaluate c d k sta)))
        ∧ (kt = k →
            (if s < c.SLOT_COUNT - 1 then recurse k sta else evaluate c d k sta).fault = none →
            (⟨d, (complementOf c target).map some⟩ : Evaluation) ∈
              (if s < c.SLOT_COUNT - 1 then recurse k sta else evaluate c d k sta).evaluated) := by
      by_cases hlast : s < c.SLOT_COUNT - 1
      · rw [if_pos hlast]
        obtain ⟨h1, h2⟩ := hrecS k sta hpath' hsound'
        refine ⟨⟨h1, fun hnf => ⟨?_, fun _ hN => by omega⟩⟩,
          fun hkk hnf => hrecC k sta hpath' hsound' (hagree' hkk) hnf⟩
        intro a t hm
        rw [(h2 hnf).2.1] at hm
        exact hmark a t hm
      · rw [if_neg hlast]
        have hN : s + 1 = c.SLOT_COUNT := by omega
        by_cases hs0 : s = 0
        · have h1 : c.SLOT_COUNT = 1 := by omega
          have hcd : CompleteDistinct c minScore d
              ((List.range c.SLOT_COUNT).map (sta.considered k)) := by
            apply pathInv_complete c minScore d s sta k hs
            rw [h1]; exact hpath'
          refine ⟨⟨evaluate_sound c minScore Q d k sta hsound' (fun _ => hcd)
            (fun hnone => absurd hnone (completeDistinct_deref hcd)), fun _ => ⟨?_, ?_⟩⟩, ?_⟩
          · intro a t hm
            rw [(evaluate_frame c d k sta).2.1] at hm
            exact hmark a t hm
          · intro h; exact absurd hs0 h
          · intro hkk _
            rw [evaluate_evaluated, agree_buffer c s k sta target hs (h1 ▸ hagree' hkk)]
            exact List.mem_append_right _ (List.mem_singleton.2 rfl)
        · have hnull : deref ((List.range c.SLOT_COUNT).map (sta.considered k)) = none := by
            apply deref_eq_none_of_mem
            rw [List.mem_map]
            exact ⟨0, List.mem_range.2 (by omega), hzero hs0 hN k⟩
          refine ⟨⟨evaluate_sound c minScore Q d k sta hsound' (fun h => absurd hnull h)
            (fun _ => hQ hs0 hN), ?_⟩, ?_⟩
          · intro hnf
            rw [evaluate_fault_of_null c d k sta hnull] at hnf
            simp at hnf
          · intro _ hnf
            rw [evaluate_fault_of_null c d k sta hnull] at hnf
            simp at hnf
    generalize (if s < c.SLOT_COUNT - 1 then recurse k sta else evaluate c d k sta) = stb
      at hstep
    obtain ⟨⟨hsb, hfb⟩, hcb⟩ := hstep
    by_cases hfault : stb.fault.isSome = true
    · rw [if_pos hfault]
      intro h
      rw [h] at hfault
      simp at hfault
    rw [if_neg hfault]
    have hnone : stb.fault = none := fault_none_of_not_isSome stb hfault
    intro hres
    by_cases hkk : kt = k
    · exact hmono rest (k + 1) k _ (hcb hkk hnone)
    · exact ih (k + 1) k stb hrest ⟨kt, by omega, hkl, hkn⟩ hsb (hfb hnone) hres

/-- One search from position 0 that returns without a fault has evaluated every
assignment within reach. -/
theorem fillSlot_seed_complete (c : VoyageCalculator) (minScore d s : Nat)
    (Q : Prop) (hQ : s ≠ 0 → s + 1 = c.SLOT_COUNT → Q) (target : Nat → Crew)
    (hreach : Reachable c minScore d target) (hs : s < c.SLOT_COUNT)
    (fuel thread : Nat) (st : SearchState) (hsound : Sound c minScore Q st)
    (hseed : st.fault = none → SeedInv c s st)
    (hnf : (fillSlot c minScore d s fuel 0 thread st).fault = none) :
    (⟨d, (complementOf c target).map some⟩ : Evaluation)
      ∈ (fillSlot c minScore d s fuel 0 thread st).evaluated := by
  cases fuel with
  | zero =>
    simp only [fillSlot] at hnf
    split_ifs at hnf with h
    rw [hnf] at h
    simp at h
  | succ fuel =>
    simp only [fillSlot] at hnf ⊢
    have h0 : slotAt 0 s = s := (slotAt_eq_seed 0 s).2 rfl
    rw [h0] at hnf ⊢
    split_ifs at hnf ⊢ with h1 h2
    · rw [hnf] at h1
      simp at h1
    · have hnone : st.fault = none := fault_none_of_not_isSome st h1
      obtain ⟨kt, hkl, hkn⟩ := hreach.1 s hs
      exact scanSlot_seed_complete c minScore d s Q hQ target hs _
        (fun t st1 hp1 hs1 => fillSlot_inner c minScore Q d s hs fuel 1 t st1
          (le_refl _) hp1 hs1)
        (fun t st1 hp1 hs1 ha1 hf1 => fillSlot_complete c minScore Q d s target hreach hs
          fuel 1 t st1 (le_refl _) hp1 hs1 ha1 hf1)
        (fun t1 st1 h => fillSlot_mem_evaluated c minScore d s _ fuel 1 t1 st1 h)
        _ 0 thread st (fun j => by rw [Nat.zero_add]) ⟨kt, Nat.zero_le _, hkl, hkn⟩
        hsound (hseed hnone) hnf
/-! ## The depth sweep: what the last depth bound evaluates -/

theorem fillSlot_of_fault (c : VoyageCalculator) (minScore d s fuel p t : Nat)
    (st : SearchState) (h : st.fault.isSome = true) :
    fillSlot c minScore d s fuel p t st = st := by
  cases fuel <;> simp only [fillSlot, if_pos h]

theorem depthSweep_of_fault (c : VoyageCalculator) (minScore s : Nat) :
    ∀ (remaining d : Nat) (st : SearchState), st.fault.isSome = true →
      (depthSweep c minScore s remaining d st).fault = st.fault := by
  intro remaining
  induction remaining with
  | zero => intro d st _; rfl
  | succ remaining ih =>
    intro d st h
    simp only [depthSweep, fillSlot_of_fault c minScore d s _ 0 0 st h]
    split_ifs
    · rfl
    · exact ih (d + 1) _ h

theorem evaluate_bounded (c : VoyageCalculator) (d t : Nat) (st : SearchState)
    (h : Bounded c st) : Bounded c (evaluate c d t st) := by
  have hbs : (evaluate c d t st).bestscore = (evaluate c d t st).best.bestscore := rfl
  have hst : st.bestscore = st.best.bestscore := rfl
  intro e he complement hd
  rw [evaluate_evaluated] at he
  cases hbuf : deref ((List.range c.SLOT_COUNT).map (st.considered t)) with
  | none =>
    rw [hbs, evaluate_best_of_null c d t st hbuf, ← hst]
    rcases List.mem_append.1 he with he | he
    · exact h e he complement hd
    · simp only [List.mem_singleton] at he
      subst he
      rw [hbuf] at hd
      simp at hd
  | some buffer =>
    rw [hbs, evaluate_best c d t st buffer hbuf]
    have hu := bestUpdate_bestscore_le st.best buffer (c.calculateDuration buffer)
    rcases List.mem_append.1 he with he | he
    · exact le_trans (h e he complement hd) hu.1
    · simp only [List.mem_singleton] at he
      subst he
      rw [hbuf] at hd
      simp only [Option.some.injEq] at hd
      subst hd
      exact hu.2

theorem fillSlot_bounded (c : VoyageCalculator) (minScore d s fuel p t : Nat)
    (st : SearchState) (h : Bounded c st) : Bounded c (fillSlot c minScore d s fuel p t st) :=
  fillSlot_preserves c (Bounded c) (fun _ _ _ _ h => h) (fun _ _ _ _ h => h)
    (fun _ _ h => h) minScore d (fun st t h => evaluate_bounded c d t st h) s fuel p t st h

/-- The evaluations made by a call of `fillSlot` carry its depth bound. -/
theorem fillSlot_tagged (c : VoyageCalculator) (minScore d s fuel p t : Nat)
    (st : SearchState) :
    ∃ new, (fillSlot c minScore d s fuel p t st).evaluated = st.evaluated ++ new
      ∧ (fillSlot c minScore d s fuel p t st).best = bestFold st.best (completed c new)
      ∧ ∀ e ∈ new, e.minDepth = d := by
  refine fillSlot_preserves c
    (fun st' => ∃ new, st'.evaluated = st.evaluated ++ new
      ∧ st'.best = bestFold st.best (completed c new) ∧ ∀ e ∈ new, e.minDepth = d)
    (fun _ _ _ _ h => h) (fun _ _ _ _ h => h) (fun _ _ h => h) minScore d ?_ s fuel p t st
    ⟨[], by simp, rfl, by simp⟩
  rintro st1 t1 ⟨new, he, hb, ht⟩
  obtain ⟨n1, he1, hb1⟩ := evaluate_foldsFrom c d t1 st1
  have hn1 : n1 = [⟨d, (List.range c.SLOT_COUNT).map (st1.considered t1)⟩] := by
    have := evaluate_evaluated c d t1 st1
    rw [he1] at this
    exact List.append_cancel_left this
  refine ⟨new ++ n1, ?_, ?_, ?_⟩
  · rw [he1, he, List.append_assoc]
  · rw [hb1, hb, completed_append, bestFold_append]
  · intro e hmem
    rcases List.mem_append.1 hmem with hmem | hmem
    · exact ht e hmem
    · rw [hn1] at hmem
      simp only [List.mem_singleton] at hmem
      subst hmem
      rfl

/-- The run of the depth sweep from a state without a positive best score. With `L` the
number of depth bounds it goes through: a positive final `bestscore` is the duration of a
complete and distinct complement of the last depth bound; and when the sweep ends without
a fault, every assignment within reach of the last depth bound has been evaluated. -/
theorem depthSweep_last (c : VoyageCalculator) (minScore s : Nat) (hs : s < c.SLOT_COUNT) :
    ∀ (remaining d : Nat) (st : SearchState),
      Sound c minScore (s ≠ 0 ∧ s + 1 = c.SLOT_COUNT) st →
      (st.fault = none → SeedInv c s st) → Bounded c st → st.bestscore ≤ 0 →
      ∃ L, (depthSweep c minScore s remaining d st).sweeps.length = st.sweeps.length + L
        ∧ Bounded c (depthSweep c minScore s remaining d st)
        ∧ st.bestscore ≤ (depthSweep c minScore s remaining d st).bestscore
        ∧ (0 < (depthSweep c minScore s remaining d st).bestscore →
            1 ≤ L ∧ ∃ x, c.calculateDuration x
                = (depthSweep c minScore s remaining d st).bestscore
              ∧ CompleteDistinct c minScore (d + L - 1) (x.map some))
        ∧ ((depthSweep c minScore s remaining d st).fault = none → 1 ≤ L →
            ∀ target, Reachable c minScore (d + L - 1) target →
              (⟨d + L - 1, (complementOf c target).map some⟩ : Evaluation)
                ∈ (depthSweep c minScore s remaining d st).evaluated) := by
  intro remaining
  induction remaining with
  | zero =>
    intro d st _ _ hb hle
    refine ⟨0, rfl, hb, le_refl _, ?_, ?_⟩
    · intro h
      simp only [depthSweep] at h
      omega
    · intro _ h; omega
  | succ remaining ih =>
    intro d st hsound hseed hb hle
    obtain ⟨hs1, hseed1⟩ := fillSlot_seed c minScore d s _ (fun h0 hN => ⟨h0, hN⟩)
      (c.SLOT_COUNT + 1) 0 st hsound hseed
    have hb1 := fillSlot_bounded c minScore d s (c.SLOT_COUNT + 1) 0 0 st hb
    obtain ⟨new, hev, hbest, htag⟩ := fillSlot_tagged c minScore d s (c.SLOT_COUNT + 1) 0 0 st
    have hcomp := fun target (hreach : Reachable c minScore d target) =>
      fillSlot_seed_complete c minScore d s _ (fun h0 hN => ⟨h0, hN⟩) target hreach hs
        (c.SLOT_COUNT + 1) 0 st hsound hseed
    have hsw := fillSlot_sweeps c minScore d s (c.SLOT_COUNT + 1) 0 0 st
    have hfs : ∀ h : (fillSlot c minScore d s (c.SLOT_COUNT + 1) 0 0 st).fault.isSome = true,
        ∀ rem d', (depthSweep c minScore s rem d'
          { fillSlot c minScore d s (c.SLOT_COUNT + 1) 0 0 st with
            sweeps := (fillSlot c minScore d s (c.SLOT_COUNT + 1) 0 0 st).sweeps
              ++ [⟨d, minScore, s,
                (fillSlot c minScore d s (c.SLOT_COUNT + 1) 0 0 st).bestscore⟩] }).fault
          = (fillSlot c minScore d s (c.SLOT_COUNT + 1) 0 0 st).fault :=
      fun h rem d' => depthSweep_of_fault c minScore s rem d' _ h
    simp only [depthSweep]
    generalize fillSlot c minScore d s (c.SLOT_COUNT + 1) 0 0 st = st1
      at hs1 hseed1 hb1 hev hbest htag hcomp hsw hfs
    have hs1' : Sound c minScore (s ≠ 0 ∧ s + 1 = c.SLOT_COUNT)
        { st1 with sweeps := st1.sweeps ++ [⟨d, minScore, s, st1.bestscore⟩] } :=
      sound_of_eq hs1 rfl rfl rfl
    have hb1' : Bounded c
        { st1 with sweeps := st1.sweeps ++ [⟨d, minScore, s, st1.bestscore⟩] } := hb1
    have hmono : st.bestscore ≤ st1.bestscore := by
      have := (bestFold_spec (completed c new) st.best).1
      rw [← hbest] at this
      exact this
    have hfirst : 0 < st1.bestscore →
        ∃ x, c.calculateDuration x = st1.bestscore
          ∧ CompleteDistinct c minScore d (x.map some) := by
      intro hpos
      have h3 := (bestFold_spec (completed c new) st.best).2.2
      rw [← hbest] at h3
      rcases h3 with ⟨heq, _⟩ | ⟨p, hp, _, hsc, _⟩
      · have : st1.bestscore = st.bestscore := congrArg BestResult.bestscore heq
        omega
      · obtain ⟨hdur, e, he, hx⟩ := mem_completed c new p hp
        refine ⟨p.1, by rw [← hdur]; exact hsc.symm, ?_⟩
        have hmem : e ∈ st1.evaluated := by rw [hev]; exact List.mem_append_right _ he
        have := hs1.evaluated_ok e hmem (by rw [hx, deref_map_some]; simp)
        rw [htag e he, hx] at this
        exact this
    by_cases hpos : st1.bestscore > 0
    · rw [if_pos hpos]
      refine ⟨1, by simp [hsw], hb1', hmono, fun _ => ⟨le_refl _, ?_⟩, ?_⟩
      · rw [show d + 1 - 1 = d by omega]
        exact hfirst hpos
      · intro hnf _ target hreach
        rw [show d + 1 - 1 = d by omega] at hreach ⊢
        exact hcomp target hreach hnf
    · rw [if_neg hpos]
      obtain ⟨L, h1, h2, h3, h4, h5⟩ := ih (d + 1)
        { st1 with sweeps := st1.sweeps ++ [⟨d, minScore, s, st1.bestscore⟩] } hs1' hseed1 hb1'
        (not_lt.1 hpos)
      refine ⟨L + 1, ?_, h2, le_trans hmono h3, ?_, ?_⟩
      · rw [h1]; simp [hsw]; omega
      · intro hp
        obtain ⟨hL, x, hx, hcd⟩ := h4 hp
        refine ⟨by omega, x, hx, ?_⟩
        rw [show d + (L + 1) - 1 = d + 1 + L - 1 by omega]
        exact hcd
      · intro hnf _ target hreach
        by_cases hL : 1 ≤ L
        · rw [show d + (L + 1) - 1 = d + 1 + L - 1 by omega] at hreach ⊢
          exact h5 hnf hL target hreach
        · have hL0 : L = 0 := by omega
          subst hL0
          rw [show d + (0 + 1) - 1 = d by omega] at hreach ⊢
          have hnf1 : st1.fault = none := by
            by_contra hne
            have hsome : st1.fault.isSome = true := by
              cases hf : st1.fault with
              | none => exact absurd hf hne
              | some f => rfl
            rw [hfs hsome remaining (d + 1)] at hnf
            exact hne hnf
          have hin := hcomp target hreach hnf1
          obtain ⟨n2, he2, _⟩ := depthSweep_foldsFrom c minScore s remaining (d + 1)
            { st1 with sweeps := st1.sweeps ++ [⟨d, minScore, s, st1.bestscore⟩] }
          rw [he2]
          exact List.mem_append_left _ hin
/-! ## Widening the search -/

/-- A larger search depth does not raise the pruning bound. -/
theorem minScore_antitone (c1 c2 : VoyageCalculator)
    (hscores : slotCrewScores c2 = slotCrewScores c1) (hN : c2.SLOT_COUNT = c1.SLOT_COUNT)
    (hdepth : c1.depth ≤ c2.depth) (ms1 ms2 : Nat)
    (h1 : minScore c1 = some ms1) (h2 : minScore c2 = some ms2) : ms2 ≤ ms1 := by
  unfold minScore at h1 h2
  rw [hscores] at h2
  have hidx : minScoreIndex c1 ≤ minScoreIndex c2 := by
    unfold minScoreIndex
    rw [hscores, hN]
    exact min_le_min (le_refl _) (Nat.mul_le_mul_right _ hdepth)
  obtain ⟨hl1, rfl⟩ := List.getElem?_eq_some_iff.1 h1
  obtain ⟨hl2, rfl⟩ := List.getElem?_eq_some_iff.1 h2
  rcases Nat.lt_or_ge (minScoreIndex c1) (minScoreIndex c2) with hlt | hge
  · exact (List.pairwise_iff_getElem.1 (sortDescending_sorted (slotCrewScores c1))) _ _ hl1 hl2 hlt
  · have e : minScoreIndex c1 = minScoreIndex c2 := by omega
    simp only [e, le_refl]

/-- A complete and distinct complement of sorted ranked lists is within reach under every
pruning bound that is not larger. -/
theorem reachable_of_completeDistinct (c1 c2 : VoyageCalculator)
    (hroster : c2.slotRoster = c1.slotRoster) (hN : c2.SLOT_COUNT = c1.SLOT_COUNT)
    (hsorted : ∀ slot, (c1.slotRoster slot).Pairwise scoreGE)
    (ms1 ms2 d : Nat) (hms : ms2 ≤ ms1) (x : List Crew)
    (h : CompleteDistinct c1 ms1 d (x.map some)) :
    Reachable c2 ms2 d (fun slot => x[slot]?.getD noCrew)
    ∧ complementOf c2 (fun slot => x[slot]?.getD noCrew) = x := by
  obtain ⟨crews, hx, hlen, hnodup, hscan⟩ := h
  have hcrews : crews = x := by
    have := congrArg deref hx
    rw [deref_map_some, deref_map_some] at this
    exact (Option.some.inj this).symm
  subst hcrews
  have hget : ∀ slot, slot < c1.SLOT_COUNT → crews[slot]? = some (crews[slot]?.getD noCrew) := by
    intro slot hslot
    rw [List.getElem?_eq_getElem (by omega)]
    rfl
  refine ⟨⟨?_, ?_⟩, ?_⟩
  · intro slot hslot
    rw [hN] at hslot
    obtain ⟨k, hk, hor⟩ := hscan slot _ (hget slot hslot)
    refine ⟨k, by rw [hroster]; exact hk, ?_⟩
    rw [hroster]
    apply (lt_scanCount_iff d ms2 _ (hsorted slot) k _ hk).2
    rcases hor with h | h
    · exact Or.inl h
    · exact Or.inr (le_trans hms h)
  · intro i j hi hj heq
    rw [hN] at hi hj
    have hi' : i < (crews.map Crew.original).length := by simp; omega
    have hj' : j < (crews.map Crew.original).length := by simp; omega
    apply (@List.Nodup.getElem_inj_iff _ _ hnodup i hi' j hj').1
    simp only [List.getElem_map]
    have heq' : (crews[i]?.getD noCrew).original = (crews[j]?.getD noCrew).original := heq
    simp only [List.getElem?_eq_getElem (show i < crews.length by omega),
      List.getElem?_eq_getElem (show j < crews.length by omega), Option.getD_some] at heq'
    exact heq'
  · unfold complementOf
    apply List.ext_getElem
    · simp [hN, hlen]
    · intro i h1 h2
      simp only [List.getElem_map, List.getElem_range]
      rw [List.getElem?_eq_getElem h2]
      rfl

/-- The run of `calculate` from a best score of 0, with `L` the number of depth bounds it
goes through. -/
theorem calculate_last (c : VoyageCalculator) (hb : c.bestscore = 0) (ms : Nat)
    (hm : minScore c = some ms) :
    Bounded c (calculate c)
    ∧ 0 ≤ (calculate c).bestscore
    ∧ (0 < (calculate c).bestscore →
        1 ≤ (calculate c).sweeps.length ∧ ∃ x, c.calculateDuration x = (calculate c).bestscore
          ∧ CompleteDistinct c ms (MIN_SCAN_DEPTH + (calculate c).sweeps.length - 1)
              (x.map some))
    ∧ ((calculate c).fault = none → 1 ≤ (calculate c).sweeps.length →
        ∀ target, Reachable c ms (MIN_SCAN_DEPTH + (calculate c).sweeps.length - 1) target →
          (⟨MIN_SCAN_DEPTH + (calculate c).sweeps.length - 1,
              (complementOf c target).map some⟩ : Evaluation) ∈ (calculate c).evaluated) := by
  have hpos : 0 < c.SLOT_COUNT := by
    by_contra h
    have := minScore_none_of_no_slots c (by omega)
    rw [hm] at this
    simp at this
  have hs := deepestSlot_fst_lt c ms hpos
  have hinit := initialState_sound c ms (deepestSlot c ms).1 (deepestSlot c ms).2
    ((deepestSlot c ms).1 ≠ 0 ∧ (deepestSlot c ms).1 + 1 = c.SLOT_COUNT)
  obtain ⟨L, h1, h2, h3, h4, h5⟩ := depthSweep_last c ms (deepestSlot c ms).1 hs
    (MAX_SCAN_DEPTH - MIN_SCAN_DEPTH) MIN_SCAN_DEPTH (initialState c (deepestSlot c ms).2)
    hinit.1 (fun _ => hinit.2) (by intro e he; simp [initialState] at he)
    (by show c.bestscore ≤ 0; omega)
  have hcalc : calculate c = depthSweep c ms (deepestSlot c ms).1
      (MAX_SCAN_DEPTH - MIN_SCAN_DEPTH) MIN_SCAN_DEPTH (initialState c (deepestSlot c ms).2) := by
    simp only [calculate, hm]
  rw [← hcalc] at h1 h2 h3 h4 h5
  have hL : (calculate c).sweeps.length = L := by
    rw [h1]; simp [initialState]
  rw [hL]
  refine ⟨h2, ?_, h4, h5⟩
  have : (initialState c (deepestSlot c ms).2).bestscore = 0 := hb
  omega

/-- Claim C11 (as amended): widening at one and the same depth bound. When the run with
the larger search depth ends without a fault and goes through as many depth bounds as
the run with the smaller search depth (so both end at the same depth bound), its final
`bestscore` is at least the final `bestscore` of the run with the smaller depth, the
evaluator being the same. -/
theorem widening_same_bound (cfg : Config) (calculateDuration : List Crew → Int)
    (depth2 : Nat) (hdepth : cfg.depth ≤ depth2)
    (hfault : (calculate (construct { cfg with depth := depth2 } calculateDuration)).fault
      = none)
    (hsweeps : (calculate (construct cfg calculateDuration)).sweeps.length
      = (calculate (construct { cfg with depth := depth2 } calculateDuration)).sweeps.length) :
    (calculate (construct cfg calculateDuration)).bestscore
      ≤ (calculate (construct { cfg with depth := depth2 } calculateDuration)).bestscore := by
  have hroster : (construct { cfg with depth := depth2 } calculateDuration).slotRoster
      = (construct cfg calculateDuration).slotRoster := rfl
  have hN : (construct { cfg with depth := depth2 } calculateDuration).SLOT_COUNT
      = (construct cfg calculateDuration).SLOT_COUNT := rfl
  have hscores : slotCrewScores (construct { cfg with depth := depth2 } calculateDuration)
      = slotCrewScores (construct cfg calculateDuration) := rfl
  have hsorted : ∀ slot, ((construct cfg calculateDuration).slotRoster slot).Pairwise scoreGE :=
    fun slot => rankSlot_sorted cfg slot
  generalize hc1 : construct cfg calculateDuration = c1 at hroster hN hscores hsorted hsweeps ⊢
  generalize hc2 : construct { cfg with depth := depth2 } calculateDuration = c2
    at hroster hN hscores hfault hsweeps ⊢
  have hb1 : c1.bestscore = 0 := by rw [← hc1]; rfl
  have hb2 : c2.bestscore = 0 := by rw [← hc2]; rfl
  have hdur : c2.calculateDuration = c1.calculateDuration := by rw [← hc1, ← hc2]; rfl
  have hd : c1.depth ≤ c2.depth := by rw [← hc1, ← hc2]; exact hdepth
  cases hm2 : minScore c2 with
  | none =>
    simp only [calculate, hm2] at hfault
    simp at hfault
  | some ms2 =>
    obtain ⟨hbound2, hnn2, _, hcomp2⟩ := calculate_last c2 hb2 ms2 hm2
    cases hm1 : minScore c1 with
    | none =>
      have : (calculate c1).bestscore = 0 := by
        simp only [calculate, hm1]
        exact hb1
      rw [this]
      exact hnn2
    | some ms1 =>
      obtain ⟨_, _, hfirst1, _⟩ := calculate_last c1 hb1 ms1 hm1
      by_cases hpos : 0 < (calculate c1).bestscore
      · obtain ⟨hL, x, hx, hcd⟩ := hfirst1 hpos
        have hms := minScore_antitone c1 c2 hscores hN hd ms1 ms2 hm1 hm2
        obtain ⟨hreach, hcompl⟩ := reachable_of_completeDistinct c1 c2 hroster hN hsorted
          ms1 ms2 _ hms x hcd
        rw [hsweeps] at hreach hL
        have hin := hcomp2 hfault hL _ hreach
        rw [hcompl] at hin
        have := hbound2 _ hin x (deref_map_some x)
        rw [hdur, hx] at this
        exact this
      · omega

theorem widening_same_bound_witness :
    (calculate (construct (plainCfg 1 ringPool) wideDuration)).bestscore
      ≤ (calculate (construct { plainCfg 1 ringPool with depth := 2 } wideDuration)).bestscore :=
  widening_same_bound (plainCfg 1 ringPool) wideDuration 2 (by decide) (by decide!) (by decide!)

/-- Claim C11 (as stated) fails: on the pool `widePool`, with the duration the total of one
skill, the run with search depth 1 finds nothing at depth bound 2 and ends at depth bound
3 with `bestscore = 68`, while the run with search depth 2 finds a complement at depth
bound 2 already and ends there with `bestscore = 63`. Neither run has a fault. -/
theorem widening_not_monotone :
    (plainCfg 1 widePool).depth ≤ (plainCfg 2 widePool).depth
    ∧ (calculate (wideCalc 1)).fault = none
    ∧ (calculate (wideCalc 2)).fault = none
    ∧ (calculate (wideCalc 1)).sweeps.map (fun r => (r.iMinDepth, r.minScore, r.bestscore))
        = [(2, 100, 0), (3, 100, 68)]
    ∧ (calculate (wideCalc 2)).sweeps.map (fun r => (r.iMinDepth, r.minScore, r.bestscore))
        = [(2, 50, 63)]
    ∧ (calculate (wideCalc 1)).bestscore = 68
    ∧ (calculate (wideCalc 2)).bestscore = 63
    ∧ (calculate (wideCalc 2)).bestscore < (calculate (wideCalc 1)).bestscore := by
  decide!

end VoyageTools
